import Mathlib

/-!
# Buffer cache of xv6 (kernel/bio.c): a shallow embedding

The buffer cache is embedded at the level of the C pointers: every list node
(`bcache.buf[k]` and the sentinels `bcache.hashbucket[i]`) has an address of
type `Ptr`, the `prev` / `next` fields hold addresses, and every statement of
the source that reads or writes a field is one read or write of the state.
Loops that follow pointers take a fuel argument: a list that does not lead
back to its sentinel makes the C loop run forever, the model runs out of fuel.

Execution is sequential (one kernel thread).  The spin-locks of the buckets are
recorded as a trace of acquire / release events; a sleep-lock is a flag.
-/

namespace Bio

/-! ## Data model -/

/-- Number of hash buckets: `#define NBUCKETS 13`; bucket indices are `Fin 13`. -/
def NBUCKETS : Nat := 13

/-- Address of a list node inside `bcache`: `&bcache.hashbucket[i]` or
`&bcache.buf[k]`. -/
inductive Ptr where
  | hashbucket (i : Fin 13)
  | buf (k : Nat)
  deriving DecidableEq

/-- Descriptor of one buffer, `struct buf`.  The declaration (buf.h) is not
among the sources, the fields are the ones bio.c uses: `valid` is a flag,
`refcnt` the number of outstanding references, an unsigned 32-bit counter
(`uint`) held as a natural number: a decrement is `decr`, which wraps at zero
as the C counter does; an increment is not reduced modulo 2^32, a count of
2^32 references is outside the model.  `locked` is the state of the sleep-lock
`lock`, `data` the bytes of the block. -/
structure Buf where
  valid : Bool
  dev : Nat
  blockno : Nat
  locked : Bool
  refcnt : Nat
  prev : Ptr
  next : Ptr
  data : List Nat

/-- The statement `refcnt--` on the unsigned 32-bit counter: one less, and
4294967295 = 2^32 - 1 from a zero count. -/
def decr (n : Nat) : Nat := if n = 0 then 4294967295 else n - 1

/-- One operation on a bucket spin-lock `bcache.lock[i]`. -/
inductive LockEvent where
  | acquire (i : Fin 13)
  | release (i : Fin 13)
  deriving DecidableEq

/-- One request to the disk driver: `virtio_disk_rw(dev, b, write)` for a
buffer with block number `blockno`. -/
inductive DiskReq where
  | read (dev blockno : Nat)
  | write (dev blockno : Nat) (data : List Nat)
  deriving DecidableEq

/-- The global `bcache` together with the two things the cache talks to: the
history of spin-lock operations and the disk (contents and request log). -/
structure Bcache where
  buf : Nat → Buf
  hashbucket : Fin 13 → Buf
  trace : List LockEvent
  disk : Nat → Nat → List Nat
  diskLog : List DiskReq

/-- Result of running a kernel function: it returns a value in a new state
(`ret`), calls `panic` (`panic`), indexes an array of `bcache` out of bounds
(`undefined`), waits for ever for a sleep-lock (`blocked`), or the model has no
fuel left for a loop (`outOfFuel`). -/
inductive Outcome (α : Type) where
  | ret (a : α) (s : Bcache)
  | panic (msg : String)
  | undefined
  | blocked
  | outOfFuel

/-- Reading `*p`. -/
def Bcache.get (s : Bcache) : Ptr → Buf
  | .hashbucket i => s.hashbucket i
  | .buf k => s.buf k

/-- Writing `*p = f(*p)`. -/
def Bcache.modify (s : Bcache) (p : Ptr) (f : Buf → Buf) : Bcache :=
  match p with
  | .hashbucket i => { s with hashbucket := Function.update s.hashbucket i (f (s.hashbucket i)) }
  | .buf k => { s with buf := Function.update s.buf k (f (s.buf k)) }

/-- The statement `p->next = q`. -/
def Bcache.setNext (s : Bcache) (p q : Ptr) : Bcache :=
  s.modify p (fun x => { x with next := q })

/-- The statement `p->prev = q`. -/
def Bcache.setPrev (s : Bcache) (p q : Ptr) : Bcache :=
  s.modify p (fun x => { x with prev := q })

/-- The value of `p->next`. -/
def Bcache.nxt (s : Bcache) (p : Ptr) : Ptr := (s.get p).next

/-- The value of `p->prev`. -/
def Bcache.prv (s : Bcache) (p : Ptr) : Ptr := (s.get p).prev

/-- Spin-lock `acquire(&bcache.lock[i])`. -/
def acquire (s : Bcache) (i : Fin 13) : Bcache :=
  { s with trace := s.trace ++ [LockEvent.acquire i] }

/-- Spin-lock `release(&bcache.lock[i])`. -/
def release (s : Bcache) (i : Fin 13) : Bcache :=
  { s with trace := s.trace ++ [LockEvent.release i] }

/-- Sleep-lock `acquiresleep(&b->lock)`: in a sequential execution a lock that
is already held is never released, the call does not return. -/
def acquiresleep (s : Bcache) (b : Ptr) : Outcome Ptr :=
  if (s.get b).locked then Outcome.blocked
  else Outcome.ret b (s.modify b (fun x => { x with locked := true }))

/-- Sleep-lock `releasesleep(&b->lock)`. -/
def releasesleep (s : Bcache) (b : Ptr) : Bcache :=
  s.modify b (fun x => { x with locked := false })

/-- Sleep-lock `initsleeplock(&b->lock, ...)`: the lock starts free. -/
def initsleeplock (s : Bcache) (b : Ptr) : Bcache :=
  s.modify b (fun x => { x with locked := false })

/-- Sleep-lock `holdingsleep(&b->lock)`. -/
def holdingsleep (s : Bcache) (b : Ptr) : Bool := (s.get b).locked

/-- Modelled from the spec: the disk driver `virtio_disk_rw(dev, b, write)`,
which is not among the sources.  It is synchronous; it reads into or writes
from the buffer's data region, the sector being the one of `b->blockno`. -/
def virtio_disk_rw (s : Bcache) (dev : Nat) (b : Ptr) (write : Bool) : Bcache :=
  if write then
    { s with
      disk := fun d n => if d = dev ∧ n = (s.get b).blockno then (s.get b).data else s.disk d n
      diskLog := s.diskLog ++ [DiskReq.write dev (s.get b).blockno (s.get b).data] }
  else
    { s.modify b (fun x => { x with data := s.disk dev x.blockno }) with
      diskLog := s.diskLog ++ [DiskReq.read dev (s.get b).blockno] }

/-! ## bhash -/

/-- Conversion of a `uint` argument to the `int` parameter of `bhash`
(two's complement, 32 bits). -/
def toInt32 (x : Nat) : Int :=
  if x % 2 ^ 32 < 2 ^ 31 then ((x % 2 ^ 32 : Nat) : Int) else ((x % 2 ^ 32 : Nat) : Int) - 2 ^ 32

/-- Source: `int bhash(int no) { return no % NBUCKETS; }`; the C remainder
truncates toward zero. -/
def bhash (no : Int) : Int := Int.tmod no 13

/-- An `int` used as an index into `bcache.lock` / `bcache.hashbucket`: inside
the array or not. -/
def bucket? (i : Int) : Option (Fin 13) :=
  if h : 0 ≤ i ∧ i < 13 then some ⟨i.toNat, by omega⟩ else none

/-! ## binit -/

/-- The storage of `bcache` before `binit`: a C object of static storage
duration is zero-initialised.  The links are null there; `binit` assigns every
link before reading it, the value given here is never read. -/
def zeroBuf : Buf :=
  { valid := false, dev := 0, blockno := 0, locked := false, refcnt := 0,
    prev := Ptr.hashbucket 0, next := Ptr.hashbucket 0, data := [] }

/-- The state at boot: zeroed `bcache`, a disk with contents `disk`. -/
def bcache0 (disk : Nat → Nat → List Nat) : Bcache :=
  { buf := fun _ => zeroBuf, hashbucket := fun _ => zeroBuf, trace := [], disk := disk,
    diskLog := [] }

/-- Body of the first loop of `binit` for bucket `i`: `b = &bcache.hashbucket[i];
b->prev = b; b->next = b;` (`initlock` leaves the lock free). -/
def binit_head (s : Bcache) (i : Fin 13) : Bcache :=
  (s.setPrev (Ptr.hashbucket i) (Ptr.hashbucket i)).setNext (Ptr.hashbucket i) (Ptr.hashbucket i)

/-- Body of the second loop of `binit` for `b = &bcache.buf[k]`. -/
def binit_buf (s : Bcache) (k : Nat) : Bcache :=
  let b := Ptr.buf k
  let s1 := s.setNext b (s.hashbucket 0).next
  let s2 := s1.setPrev b (Ptr.hashbucket 0)
  let s3 := initsleeplock s2 b
  let s4 := s3.setPrev (s3.hashbucket 0).next b
  s4.setNext (Ptr.hashbucket 0) b

/-- Source: `binit`, for a cache of `NBUF` buffers (param.h is not among the
sources, `NBUF` is a parameter). -/
def binit (NBUF : Nat) (s : Bcache) : Bcache :=
  (List.range NBUF).foldl binit_buf ((List.finRange 13).foldl binit_head s)

/-! ## bget -/

/-- First loop of `bget`: `for(b = head.next; b != &head; b = b->next)` looking
for `b->dev == dev && b->blockno == blockno`.  `some (some b)` is the `return`
inside the loop, `some none` the end of the loop. -/
def bget_cached (s : Bcache) (head : Ptr) (dev blockno : Nat) : Nat → Ptr → Option (Option Ptr)
  | 0, _ => none
  | fuel + 1, b =>
    if b = head then some none
    else if (s.get b).dev = dev ∧ (s.get b).blockno = blockno then some (some b)
    else bget_cached s head dev blockno fuel (s.get b).next

/-- Inner loop of the recycling phase: `for(b = head.prev; b != &head; b = b->prev)`
looking for `b->refcnt == 0`. -/
def bget_unused (s : Bcache) (head : Ptr) : Nat → Ptr → Option (Option Ptr)
  | 0, _ => none
  | fuel + 1, b =>
    if b = head then some none
    else if (s.get b).refcnt = 0 then some (some b)
    else bget_unused s head fuel (s.get b).prev

/-- The two statements `b->next->prev = b->prev; b->prev->next = b->next;`. -/
def unlink (s : Bcache) (b : Ptr) : Bcache :=
  let s1 := s.setPrev (s.get b).next (s.get b).prev
  s1.setNext (s1.get b).prev (s1.get b).next

/-- The four statements that put `b` behind the sentinel of bucket `h`:
`b->next = head.next; b->prev = &head; head.next->prev = b; head.next = b;`. -/
def insertHead (s : Bcache) (h : Fin 13) (b : Ptr) : Bcache :=
  let s1 := s.setNext b (s.hashbucket h).next
  let s2 := s1.setPrev b (Ptr.hashbucket h)
  let s3 := s2.setPrev (s2.hashbucket h).next b
  s3.setNext (Ptr.hashbucket h) b

/-- Body of `if(b->refcnt == 0) { ... }` in the recycling phase, for the buffer
`b` found in bucket `nh` while the home bucket is `h`. -/
def bget_claim (s : Bcache) (dev blockno : Nat) (h nh : Fin 13) (b : Ptr) : Outcome Ptr :=
  let s1 := s.modify b (fun x => { x with dev := dev, blockno := blockno, valid := false, refcnt := 1 })
  let s2 := unlink s1 b
  let s3 := release s2 nh
  let s4 := insertHead s3 h b
  let s5 := release s4 h
  acquiresleep s5 b

/-- The loop `while (nhashno != hashno)` of `bget`, entered with the lock of
the home bucket `h` held. -/
def bget_recycle (fuel : Nat) (dev blockno : Nat) (h : Fin 13) : Nat → Bcache → Int → Outcome Ptr
  | 0, _, _ => Outcome.outOfFuel
  | n + 1, s, nhashno =>
    if nhashno = ((h : Nat) : Int) then Outcome.panic "bget: no buffers"
    else
      match bucket? nhashno with
      | none => Outcome.undefined
      | some nh =>
        let s1 := acquire s nh
        match bget_unused s1 (Ptr.hashbucket nh) fuel (s1.hashbucket nh).prev with
        | none => Outcome.outOfFuel
        | some (some b) => bget_claim s1 dev blockno h nh b
        | some none => bget_recycle fuel dev blockno h n (release s1 nh) (bhash (nhashno + 1))

/-- Source: `bget(uint dev, uint blockno)`. -/
def bget (fuel : Nat) (s : Bcache) (dev blockno : Nat) : Outcome Ptr :=
  match bucket? (bhash (toInt32 blockno)) with
  | none => Outcome.undefined
  | some h =>
    let s1 := acquire s h
    match bget_cached s1 (Ptr.hashbucket h) dev blockno fuel (s1.hashbucket h).next with
    | none => Outcome.outOfFuel
    | some (some b) =>
      let s2 := s1.modify b (fun x => { x with refcnt := x.refcnt + 1 })
      acquiresleep (release s2 h) b
    | some none => bget_recycle fuel dev blockno h fuel s1 (bhash (((h : Nat) : Int) + 1))

/-! ## bread, bwrite, brelse, bpin, bunpin -/

/-- Source: `bread(uint dev, uint blockno)`. -/
def bread (fuel : Nat) (s : Bcache) (dev blockno : Nat) : Outcome Ptr :=
  match bget fuel s dev blockno with
  | Outcome.ret b s1 =>
    if (s1.get b).valid = false then
      let s2 := virtio_disk_rw s1 (s1.get b).dev b false
      Outcome.ret b (s2.modify b (fun x => { x with valid := true }))
    else Outcome.ret b s1
  | o => o

/-- Source: `bwrite(struct buf *b)`. -/
def bwrite (s : Bcache) (b : Ptr) : Outcome Unit :=
  if holdingsleep s b = false then Outcome.panic "bwrite"
  else Outcome.ret () (virtio_disk_rw s (s.get b).dev b true)

/-- Source: `brelse(struct buf *b)`.  On a zero count `b->refcnt--` wraps
(`decr`), the count is then not 0 and the buffer is not moved. -/
def brelse (s : Bcache) (b : Ptr) : Outcome Unit :=
  if holdingsleep s b = false then Outcome.panic "brelse"
  else
    let s1 := releasesleep s b
    match bucket? (bhash (toInt32 (s1.get b).blockno)) with
    | none => Outcome.undefined
    | some h =>
      let s2 := acquire s1 h
      let s3 := s2.modify b (fun x => { x with refcnt := decr x.refcnt })
      if (s3.get b).refcnt = 0 then
        Outcome.ret () (release (insertHead (unlink s3 b) h b) h)
      else Outcome.ret () (release s3 h)

/-- Source: `bpin(struct buf *b)`. -/
def bpin (s : Bcache) (b : Ptr) : Outcome Unit :=
  match bucket? (bhash (toInt32 (s.get b).blockno)) with
  | none => Outcome.undefined
  | some h =>
    Outcome.ret () (release ((acquire s h).modify b (fun x => { x with refcnt := x.refcnt + 1 })) h)

/-- Source: `bunpin(struct buf *b)`; on a zero count `b->refcnt--` wraps (`decr`). -/
def bunpin (s : Bcache) (b : Ptr) : Outcome Unit :=
  match bucket? (bhash (toInt32 (s.get b).blockno)) with
  | none => Outcome.undefined
  | some h =>
    Outcome.ret () (release ((acquire s h).modify b (fun x => { x with refcnt := decr x.refcnt })) h)

/-! ## Abstraction: the bucket lists -/

/-- The nodes `a, l, z` follow each other: each one's `next` is the one after
it and each one's `prev` the one before it. -/
def Linked (nx pv : Ptr → Ptr) : Ptr → List Ptr → Ptr → Prop
  | a, [], z => nx a = z ∧ pv z = a
  | a, b :: l, z => nx a = b ∧ pv b = a ∧ Linked nx pv b l z

instance Linked.dec (nx pv : Ptr → Ptr) :
    (a : Ptr) → (l : List Ptr) → (z : Ptr) → Decidable (Linked nx pv a l z)
  | a, [], z => by unfold Linked; exact inferInstance
  | a, b :: l, z => by
    unfold Linked
    exact @instDecidableAnd _ _ _ (@instDecidableAnd _ _ _ (Linked.dec nx pv b l z))

/-- Bucket `i` of state `s` holds the buffers `l`, in this order from the head:
the sentinel, the buffers of `l` and the sentinel again are linked in a circle. -/
def Bucket (s : Bcache) (i : Fin 13) (l : List Nat) : Prop :=
  Linked s.nxt s.prv (Ptr.hashbucket i) (l.map Ptr.buf) (Ptr.hashbucket i)

instance Bucket.dec (s : Bcache) (i : Fin 13) (l : List Nat) : Decidable (Bucket s i l) := by
  unfold Bucket; exact inferInstance

/-- The thirteen lists `L` describe the linkage of `s`: bucket `i` is `L i`, no
buffer occurs twice in a list and none in two lists. -/
structure WF (s : Bcache) (L : Fin 13 → List Nat) : Prop where
  linked : ∀ i, Bucket s i (L i)
  nodup : ∀ i, (L i).Nodup
  disjoint : ∀ i j, i ≠ j → ∀ k, k ∈ L i → k ∉ L j

/-- Invariant of the cache with `NBUF` buffers: well-formed lists that hold
exactly the buffers `0 .. NBUF-1`, each buffer in the bucket of its block number. -/
structure Inv (NBUF : Nat) (s : Bcache) (L : Fin 13 → List Nat) extends WF s L : Prop where
  cover : ∀ k, k < NBUF ↔ ∃ i, k ∈ L i
  placed : ∀ i, ∀ k ∈ L i, bucket? (bhash (toInt32 (s.buf k).blockno)) = some i

/-- Effect of one lock event on the set of held bucket locks. -/
def holdStep (held : List (Fin 13)) : LockEvent → List (Fin 13)
  | LockEvent.acquire i => i :: held
  | LockEvent.release i => held.erase i

/-- Bucket locks held after the lock events `evs` (oldest first), none being
held before. -/
def heldAfter (evs : List LockEvent) : List (Fin 13) := evs.foldl holdStep []

/-- The loop `for (b = first; b != head; b = step b)` on a list: the first
element that passes the test, if the fuel reaches it. -/
def scanList (test : Nat → Bool) : Nat → List Nat → Option (Option Nat)
  | 0, _ => none
  | _ + 1, [] => some none
  | fuel + 1, k :: l => if test k then some (some k) else scanList test fuel l

/-- The test of the first loop of `bget` on buffer `k`. -/
def isCached (s : Bcache) (dev blockno : Nat) (k : Nat) : Bool :=
  decide ((s.buf k).dev = dev ∧ (s.buf k).blockno = blockno)

/-- The test of the recycling loop of `bget` on buffer `k`. -/
def isUnused (s : Bcache) (k : Nat) : Bool := decide ((s.buf k).refcnt = 0)

/-- The `j`-th bucket after `h` in the circular order: `(h + 1 + j) mod 13`. -/
def neighbour (h : Fin 13) (j : Nat) : Fin 13 := ⟨(h.val + 1 + j) % 13, Nat.mod_lt _ (by decide)⟩

/-- The lists after buffer `k` of bucket `n` has been taken out and put at the
head of bucket `h` (`n = h` allowed): all other buffers keep their order. -/
def moveToHead (L : Fin 13 → List Nat) (n h : Fin 13) (k : Nat) : Fin 13 → List Nat :=
  Function.update (Function.update L n ((L n).erase k)) h
    (k :: Function.update L n ((L n).erase k) h)

/-- The state with another lock history. -/
def Bcache.withTrace (s : Bcache) (t : List LockEvent) : Bcache := { s with trace := t }

/-- Two descriptors agree on every field but the links. -/
def SameFields (x y : Buf) : Prop :=
  x.valid = y.valid ∧ x.dev = y.dev ∧ x.blockno = y.blockno ∧ x.locked = y.locked ∧
    x.refcnt = y.refcnt ∧ x.data = y.data

/-- What `bget` leaves behind when it found block `(dev, blockno)` cached in
buffer `k`. -/
def HitPost (NBUF : Nat) (s : Bcache) (L : Fin 13 → List Nat) (k : Nat) (s' : Bcache) : Prop :=
  Inv NBUF s' L ∧ (s'.buf k).refcnt = (s.buf k).refcnt + 1 ∧ (s'.buf k).locked = true ∧
    (s'.buf k).dev = (s.buf k).dev ∧ (s'.buf k).blockno = (s.buf k).blockno ∧
    (s'.buf k).valid = (s.buf k).valid ∧ (s'.buf k).data = (s.buf k).data ∧
    (∀ x, x ≠ k → SameFields (s'.buf x) (s.buf x)) ∧ s'.disk = s.disk ∧ s'.diskLog = s.diskLog

/-- What `bget` leaves behind when it recycled buffer `k` of bucket `nh` for
block `(dev, blockno)` of home bucket `h`. -/
def ClaimPost (NBUF : Nat) (s : Bcache) (L : Fin 13 → List Nat) (dev blockno : Nat)
    (h nh : Fin 13) (k : Nat) (s' : Bcache) : Prop :=
  Inv NBUF s' (moveToHead L nh h k) ∧
    (s'.buf k).dev = dev ∧ (s'.buf k).blockno = blockno ∧ (s'.buf k).valid = false ∧
    (s'.buf k).refcnt = 1 ∧ (s'.buf k).locked = true ∧ (s'.buf k).data = (s.buf k).data ∧
    (∀ x, x ≠ k → SameFields (s'.buf x) (s.buf x)) ∧ s'.disk = s.disk ∧ s'.diskLog = s.diskLog

/-- The bucket lists that `binit` builds: every buffer in bucket 0, the last
one initialised at the head. -/
def initLists (NBUF : Nat) (i : Fin 13) : List Nat :=
  if i = 0 then (List.range NBUF).reverse else []

/-- The cache states that sequential calls of the interface reach from `binit`
on a cache of `NBUF` buffers.  `brelse` and `bunpin` give back a reference the
caller holds, so the count is positive when they are called. -/
inductive Reachable (NBUF : Nat) : Bcache → Prop where
  | binit (disk : Nat → Nat → List Nat) : Reachable NBUF (binit NBUF (bcache0 disk))
  | bget {s s' : Bcache} {fuel dev blockno : Nat} {b : Ptr} :
      Reachable NBUF s → bget fuel s dev blockno = Outcome.ret b s' → Reachable NBUF s'
  | bread {s s' : Bcache} {fuel dev blockno : Nat} {b : Ptr} :
      Reachable NBUF s → bread fuel s dev blockno = Outcome.ret b s' → Reachable NBUF s'
  | bwrite {s s' : Bcache} {k : Nat} :
      Reachable NBUF s → k < NBUF → bwrite s (Ptr.buf k) = Outcome.ret () s' → Reachable NBUF s'
  | brelse {s s' : Bcache} {k : Nat} :
      Reachable NBUF s → k < NBUF → 0 < (s.buf k).refcnt →
      brelse s (Ptr.buf k) = Outcome.ret () s' → Reachable NBUF s'
  | bpin {s s' : Bcache} {k : Nat} :
      Reachable NBUF s → k < NBUF → bpin s (Ptr.buf k) = Outcome.ret () s' → Reachable NBUF s'
  | bunpin {s s' : Bcache} {k : Nat} :
      Reachable NBUF s → k < NBUF → 0 < (s.buf k).refcnt →
      bunpin s (Ptr.buf k) = Outcome.ret () s' → Reachable NBUF s'

/-- What `brelse` leaves behind when it released buffer `k`. -/
def BrelsePost (s : Bcache) (k : Nat) (s' : Bcache) : Prop :=
  (s'.buf k).refcnt = (s.buf k).refcnt - 1 ∧ (s'.buf k).locked = false ∧
    (s'.buf k).dev = (s.buf k).dev ∧ (s'.buf k).blockno = (s.buf k).blockno ∧
    (s'.buf k).valid = (s.buf k).valid ∧ (s'.buf k).data = (s.buf k).data ∧
    (∀ x, x ≠ k → SameFields (s'.buf x) (s.buf x)) ∧ s'.disk = s.disk ∧ s'.diskLog = s.diskLog

/-- The lock events of scanning the neighbour buckets `ns` one after the other:
each is acquired and released again. -/
def visitEvents : List (Fin 13) → List LockEvent
  | [] => []
  | n :: ns => LockEvent.acquire n :: LockEvent.release n :: visitEvents ns

/-- The value a run returned, if it returned. -/
def Outcome.value? {α : Type} : Outcome α → Option α
  | Outcome.ret a _ => some a
  | _ => none

/-- The state in which a run returned (the boot state if it did not return). -/
def Outcome.state {α : Type} : Outcome α → Bcache
  | Outcome.ret _ s => s
  | _ => bcache0 (fun _ _ => [])

/-- Example: the state right after `binit` on a cache of 30 buffers and a disk
of empty blocks. -/
def bootState : Bcache := binit 30 (bcache0 (fun _ _ => []))

/-- Example: the state in which `bread(1, 5)` returns (buffer 0) after boot. -/
def afterRead : Bcache := (bread 31 bootState 1 5).state

/-- Example: the state after the buffer of `afterRead` has been released. -/
def afterRelease : Bcache := (brelse afterRead (Ptr.buf 0)).state

/-- Example: the bucket lists of `afterRead` (buffer 0 in bucket 5, buffers
29 .. 1 in bucket 0). -/
def afterReadLists (i : Fin 13) : List Nat :=
  if i = 0 then (List.range' 1 29).reverse else if i = 5 then [0] else []

/-- A node of bucket `i`: its sentinel or one of its buffers. -/
def OnBucket (L : Fin 13 → List Nat) (i : Fin 13) (p : Ptr) : Prop :=
  p = Ptr.hashbucket i ∨ ∃ k ∈ L i, p = Ptr.buf k

/-! ## Runs of the cache with the buffers that `bget` has returned -/

/-- The assignment `b->data = x` by the holder of buffer `b`. -/
def setData (s : Bcache) (b : Ptr) (x : List Nat) : Bcache :=
  s.modify b (fun y => { y with data := x })

/-- A run of returning calls from state `s0` to state `s`.  `R0` and `R` are the
pointers that `bget` has returned up to the start and up to the end of the run.
Beside the functions of the cache, the holder of a buffer may assign to its
`data`.  No step writes a block `(dev, blockno)` with `W dev blockno`, neither
to the disk (`bwrite`) nor to the `data` of its buffer. -/
inductive Run (NBUF : Nat) (W : Nat → Nat → Prop) (s0 : Bcache) (R0 : List Ptr) :
    Bcache → List Ptr → Prop where
  | refl : Run NBUF W s0 R0 s0 R0
  | bget {s s' : Bcache} {R : List Ptr} {fuel dev blockno : Nat} {b : Ptr} :
      Run NBUF W s0 R0 s R → bget fuel s dev blockno = Outcome.ret b s' →
      Run NBUF W s0 R0 s' (b :: R)
  | bread {s s' : Bcache} {R : List Ptr} {fuel dev blockno : Nat} {b : Ptr} :
      Run NBUF W s0 R0 s R → bread fuel s dev blockno = Outcome.ret b s' →
      Run NBUF W s0 R0 s' (b :: R)
  | bwrite {s s' : Bcache} {R : List Ptr} {k : Nat} :
      Run NBUF W s0 R0 s R → k < NBUF → ¬ W (s.buf k).dev (s.buf k).blockno →
      bwrite s (Ptr.buf k) = Outcome.ret () s' → Run NBUF W s0 R0 s' R
  | brelse {s s' : Bcache} {R : List Ptr} {k : Nat} :
      Run NBUF W s0 R0 s R → k < NBUF → 0 < (s.buf k).refcnt →
      brelse s (Ptr.buf k) = Outcome.ret () s' → Run NBUF W s0 R0 s' R
  | bpin {s s' : Bcache} {R : List Ptr} {k : Nat} :
      Run NBUF W s0 R0 s R → k < NBUF →
      bpin s (Ptr.buf k) = Outcome.ret () s' → Run NBUF W s0 R0 s' R
  | bunpin {s s' : Bcache} {R : List Ptr} {k : Nat} :
      Run NBUF W s0 R0 s R → k < NBUF → 0 < (s.buf k).refcnt →
      bunpin s (Ptr.buf k) = Outcome.ret () s' → Run NBUF W s0 R0 s' R
  | setData {s : Bcache} {R : List Ptr} {k : Nat} (x : List Nat) :
      Run NBUF W s0 R0 s R → k < NBUF → (s.buf k).locked = true →
      ¬ W (s.buf k).dev (s.buf k).blockno → Run NBUF W s0 R0 (setData s (Ptr.buf k) x) R

/-- No block is write-protected. -/
def noBlock : Nat → Nat → Prop := fun _ _ => False

/-- The block `(dev, blockno)` and no other. -/
def theBlock (dev blockno : Nat) : Nat → Nat → Prop := fun d n => d = dev ∧ n = blockno

/-- The states reached from `binit` by returning calls of `bget`, `bread` and
`brelse`, where `brelse` is called only for a buffer obtained from `bget` and
not released since; `H` are the buffers held (obtained and not released). -/
inductive Live (NBUF : Nat) : Bcache → List Ptr → Prop where
  | binit (disk : Nat → Nat → List Nat) : Live NBUF (binit NBUF (bcache0 disk)) []
  | bget {s s' : Bcache} {H : List Ptr} {fuel dev blockno : Nat} {b : Ptr} :
      Live NBUF s H → bget fuel s dev blockno = Outcome.ret b s' → Live NBUF s' (b :: H)
  | bread {s s' : Bcache} {H : List Ptr} {fuel dev blockno : Nat} {b : Ptr} :
      Live NBUF s H → bread fuel s dev blockno = Outcome.ret b s' → Live NBUF s' (b :: H)
  | brelse {s s' : Bcache} {H : List Ptr} {b : Ptr} :
      Live NBUF s H → b ∈ H → brelse s b = Outcome.ret () s' → Live NBUF s' (H.erase b)

/-- The invariant of a run: the lists `L` satisfy `Inv`; a buffer that `bget` has
returned is the first buffer of its bucket with its device and block number; a
buffer that `bget` has not returned has the fields that `binit` found; what
`bget` returned are buffers of the cache. -/
structure Tracked (NBUF : Nat) (s : Bcache) (L : Fin 13 → List Nat) (R : List Ptr) : Prop where
  inv : Inv NBUF s L
  first : ∀ i k, k ∈ L i → Ptr.buf k ∈ R →
    (L i).find? (isCached s (s.buf k).dev (s.buf k).blockno) = some k
  fresh : ∀ k, k < NBUF → Ptr.buf k ∉ R →
    (s.buf k).dev = 0 ∧ (s.buf k).blockno = 0 ∧ (s.buf k).valid = false ∧
      (s.buf k).locked = false
  bufs : ∀ b, b ∈ R → ∃ k, k < NBUF ∧ b = Ptr.buf k

/-- Block `(dev, blockno)` has the contents `x` wherever it is: on the disk and
in every valid buffer of the block. -/
def Coherent (NBUF dev blockno : Nat) (x : List Nat) (s : Bcache) : Prop :=
  s.disk dev blockno = x ∧
    ∀ j, j < NBUF → (s.buf j).dev = dev → (s.buf j).blockno = blockno →
      (s.buf j).valid = true → (s.buf j).data = x

/-- Example: the state after the holder of buffer 0 in `afterRead` has set its
data to `[7]` and called `bwrite`. -/
def afterReadWritten : Bcache :=
  (bwrite (setData afterRead (Ptr.buf 0) [7]) (Ptr.buf 0)).state

/-- Example: the state after the buffer of `afterReadWritten` has been released. -/
def afterWriteRelease : Bcache := (brelse afterReadWritten (Ptr.buf 0)).state

/-- Example: a cache of two buffers right after `binit`. -/
def twoBoot : Bcache := binit 2 (bcache0 (fun _ _ => []))

/-- Example: the cache of two buffers after `bread(1, 5)` (buffer 0) and
`bread(1, 6)` (buffer 1); both buffers are held. -/
def twoHeld : Bcache := (bread 15 (bread 15 twoBoot 1 5).state 1 6).state

/-- Example: the cache of two buffers after both buffers of `twoHeld` have been
released: buffer 0 is alone in bucket 5, buffer 1 alone in bucket 6, both are
unused. -/
def twoFree : Bcache := (brelse (brelse twoHeld (Ptr.buf 0)).state (Ptr.buf 1)).state

end Bio

/-!
# Physical page allocator of xv6 (kernel/kalloc.c): a shallow embedding

Addresses are natural numbers (the managed memory lies far below 2^64, no
address computation of the allocator wraps); the null pointer is 0.  A free
page holds a `struct run` at its start: `next pa` is the `next` field stored in
the page at address `pa`.  Execution is sequential; the CPU on which a function
runs (the value of `cpuid()`) is an argument.
-/

namespace Kalloc

/-- The constants of param.h, riscv.h and memlayout.h and the linker symbol
`end`, none of which is among the sources: parameters of the model. -/
structure Layout where
  NCPU : Nat
  PGSIZE : Nat
  kend : Nat
  PHYSTOP : Nat

/-- One operation on a spin-lock `kmems[i].lock`. -/
inductive KEvent where
  | acquire (i : Nat)
  | release (i : Nat)
  deriving DecidableEq

/-- The array `kmems` and the memory of the pages as far as the allocator reads
it: `freelist i` is `kmems[i].freelist`, `next pa` the `next` field of the
`struct run` at address `pa`.  `trace` is the history of the spin-lock
operations, `freed` the pages that `kfree` has put on a list, oldest first. -/
structure Kmem where
  freelist : Nat → Nat
  next : Nat → Nat
  trace : List KEvent
  freed : List Nat

/-- Result of `kfree` and of the functions that call it: it returns, calls
`panic` (in state `s`, which nothing changes any more), or the model has no fuel
left for a loop. -/
inductive KResult where
  | ok (s : Kmem)
  | panic (msg : String) (s : Kmem)
  | outOfFuel

/-- Spin-lock `acquire(&kmems[i].lock)`. -/
def acquire (s : Kmem) (i : Nat) : Kmem := { s with trace := s.trace ++ [KEvent.acquire i] }

/-- Spin-lock `release(&kmems[i].lock)`. -/
def release (s : Kmem) (i : Nat) : Kmem := { s with trace := s.trace ++ [KEvent.release i] }

/-- The `next` field of a page all of whose bytes are `byte`: eight equal bytes. -/
def filled (byte : Nat) : Nat := byte * 0x0101010101010101

/-- The call `memset(pa, byte, PGSIZE)`: every byte of the page becomes `byte`,
the `next` field at its start included. -/
def memset (s : Kmem) (pa byte : Nat) : Kmem :=
  { s with next := Function.update s.next pa (filled byte) }

/-- Modelled from the spec: the macro `PGROUNDUP` of riscv.h, which is not among
the sources; it rounds an address up to the next multiple of `PGSIZE`. -/
def PGROUNDUP (P : Layout) (a : Nat) : Nat := (a + P.PGSIZE - 1) / P.PGSIZE * P.PGSIZE

/-- Source: `kfree(void *pa)`, run on CPU `cpuid`. -/
def kfree (P : Layout) (s : Kmem) (cpuid pa : Nat) : KResult :=
  if pa % P.PGSIZE ≠ 0 ∨ pa < P.kend ∨ pa ≥ P.PHYSTOP then KResult.panic "kfree" s
  else
    let s1 := memset s pa 1
    let s2 := acquire s1 cpuid
    let s3 := { s2 with next := Function.update s2.next pa (s2.freelist cpuid) }
    let s4 := { s3 with freelist := Function.update s3.freelist cpuid pa, freed := s3.freed ++ [pa] }
    KResult.ok (release s4 cpuid)

/-- The loop of `freerange`: `for(; p + PGSIZE <= pa_end; p += PGSIZE) kfree(p);`. -/
def freerange_loop (P : Layout) (cpuid pa_end : Nat) : Nat → Nat → Kmem → KResult
  | 0, _, _ => KResult.outOfFuel
  | fuel + 1, p, s =>
    if p + P.PGSIZE ≤ pa_end then
      match kfree P s cpuid p with
      | KResult.ok s' => freerange_loop P cpuid pa_end fuel (p + P.PGSIZE) s'
      | r => r
    else KResult.ok s

/-- Source: `freerange(void *pa_start, void *pa_end)`, run on CPU `cpuid`. -/
def freerange (P : Layout) (fuel : Nat) (s : Kmem) (cpuid pa_start pa_end : Nat) : KResult :=
  freerange_loop P cpuid pa_end fuel (PGROUNDUP P pa_start) s

/-- Source: `kinit()`, run on CPU `cpuid`: `initlock` leaves the locks free, then
`freerange(end, (void*)PHYSTOP)`. -/
def kinit (P : Layout) (fuel : Nat) (s : Kmem) (cpuid : Nat) : KResult :=
  freerange P fuel s cpuid P.kend P.PHYSTOP

/-- The loop of `steal`, at CPU `i` with `n` CPUs left to look at: the result is
the value of `rs` after the loop. -/
def steal_loop : Nat → Nat → Kmem → Nat × Kmem
  | 0, _, s => (0, s)
  | n + 1, i, s =>
    let s1 := acquire s i
    if s1.freelist i ≠ 0 then
      let rs := s1.freelist i
      let s2 := { s1 with freelist := Function.update s1.freelist i (s1.next rs) }
      (rs, release s2 i)
    else steal_loop n (i + 1) (release s1 i)

/-- Source: `steal()`. -/
def steal (P : Layout) (s : Kmem) : Nat × Kmem := steal_loop P.NCPU 0 s

/-- Source: `kalloc(void)`, run on CPU `cpuid`; the result is the pointer
returned (0 is null) and the new state. -/
def kalloc (P : Layout) (s : Kmem) (cpuid : Nat) : Nat × Kmem :=
  let s1 := acquire s cpuid
  let r := s1.freelist cpuid
  let s2 := if r ≠ 0 then { s1 with freelist := Function.update s1.freelist cpuid (s1.next r) } else s1
  let s3 := release s2 cpuid
  let (r', s4) := if r = 0 then steal P s3 else (r, s3)
  if r' ≠ 0 then (r', memset s4 r' 5) else (r', s4)

/-- The storage of `kmems` before `kinit` (static storage is zeroed: every
`freelist` is null); `mem` is what the memory holds. -/
def kmem0 (mem : Nat → Nat) : Kmem :=
  { freelist := fun _ => 0, next := mem, trace := [], freed := [] }

/-! ## Abstraction: the free lists -/

/-- The free list that starts at pointer `h` is the sequence of pages `l`. -/
def FreeList (next : Nat → Nat) : Nat → List Nat → Prop
  | h, [] => h = 0
  | h, p :: l => h = p ∧ p ≠ 0 ∧ FreeList next (next p) l

instance FreeList.dec (next : Nat → Nat) : (h : Nat) → (l : List Nat) → Decidable (FreeList next h l)
  | h, [] => by unfold FreeList; exact inferInstance
  | h, p :: l => by
    unfold FreeList
    exact @instDecidableAnd _ _ _ (@instDecidableAnd _ _ _ (FreeList.dec next (next p) l))

/-- The free list of CPU `i` in state `s` is `l`, head first. -/
def Pool (s : Kmem) (i : Nat) (l : List Nat) : Prop := FreeList s.next (s.freelist i) l

instance Pool.dec (s : Kmem) (i : Nat) (l : List Nat) : Decidable (Pool s i l) := by
  unfold Pool; exact inferInstance

/-- A page that `kfree` accepts: aligned, not below `end`, below `PHYSTOP`. -/
def ValidPage (P : Layout) (pa : Nat) : Prop :=
  pa % P.PGSIZE = 0 ∧ P.kend ≤ pa ∧ pa < P.PHYSTOP

instance ValidPage.dec (P : Layout) (pa : Nat) : Decidable (ValidPage P pa) := by
  unfold ValidPage; exact inferInstance

/-- The free lists `F` describe state `s`: CPU `i` has list `F i`, no page is
twice in a list or in the lists of two CPUs, every listed page is a valid page. -/
structure KInv (P : Layout) (s : Kmem) (F : Nat → List Nat) : Prop where
  pool : ∀ i, i < P.NCPU → Pool s i (F i)
  nodup : ∀ i, i < P.NCPU → (F i).Nodup
  disjoint : ∀ i, i < P.NCPU → ∀ j, j < P.NCPU → i ≠ j → ∀ p, p ∈ F i → p ∉ F j
  valid : ∀ i, i < P.NCPU → ∀ p, p ∈ F i → ValidPage P p

/-- The lock events of a sweep over `n` CPUs from CPU `i` on that takes and
frees each lock in turn. -/
def sweep : Nat → Nat → List KEvent
  | 0, _ => []
  | n + 1, i => KEvent.acquire i :: KEvent.release i :: sweep n (i + 1)

/-- Whether a result is a return. -/
def KResult.isOk : KResult → Bool
  | KResult.ok _ => true
  | _ => false

/-- The state of a result (the empty storage if the model ran out of fuel). -/
def KResult.state : KResult → Kmem
  | KResult.ok s => s
  | KResult.panic _ s => s
  | KResult.outOfFuel => kmem0 (fun _ => 0)

/-- The pages `a, a + PGSIZE, ...`, `n` of them, in increasing order. -/
def pageRange (P : Layout) (a n : Nat) : List Nat := (List.range n).map (fun k => a + k * P.PGSIZE)

/-- Example: two CPUs, pages of 4096 bytes, a kernel that ends at 0x80021005
and three pages of memory above it. -/
def exampleLayout : Layout := { NCPU := 2, PGSIZE := 4096, kend := 0x80021005, PHYSTOP := 0x80025000 }

/-- Example: the state after `kinit` on CPU 0; CPU 0 owns the three pages. -/
def bootPool : Kmem := (kinit exampleLayout 4 (kmem0 (fun _ => 0)) 0).state

/-- Example: the free lists of `bootPool`. -/
def bootLists (i : Nat) : List Nat := if i = 0 then [0x80024000, 0x80023000, 0x80022000] else []

/-- The states reached from `kinit` by calls of `kalloc` and `kfree` on any CPUs,
`kfree` only for a page that `kalloc` has returned and that has not been freed
since: `KReach P s A n` says that `s` is such a state, `A` the pages allocated in
it and `n` the number of pages that `kinit` has freed. -/
inductive KReach (P : Layout) : Kmem → List Nat → Nat → Prop
  | init (mem : Nat → Nat) (fuel c : Nat) (s : Kmem) : c < P.NCPU →
      kinit P fuel (kmem0 mem) c = KResult.ok s → KReach P s [] s.freed.length
  | kalloc (s : Kmem) (A : List Nat) (n c : Nat) : KReach P s A n → c < P.NCPU →
      KReach P (kalloc P s c).2 (if (kalloc P s c).1 = 0 then A else (kalloc P s c).1 :: A) n
  | kfree (s : Kmem) (A : List Nat) (n c pa : Nat) (s' : Kmem) : KReach P s A n → c < P.NCPU →
      pa ∈ A → kfree P s c pa = KResult.ok s' → KReach P s' (A.erase pa) n

/-- The number of pages on the free lists `F` of the CPUs. -/
def freeCount (P : Layout) (F : Nat → List Nat) : Nat :=
  ((List.range P.NCPU).map (fun i => (F i).length)).sum

/-- Effect of one lock event on the set of held per-CPU locks. -/
def lockStep (held : List Nat) : KEvent → List Nat
  | KEvent.acquire i => i :: held
  | KEvent.release i => held.erase i

/-- Per-CPU locks held after the events `evs` (oldest first), none held before. -/
def locksHeld (evs : List KEvent) : List Nat := evs.foldl lockStep []

end Kalloc

/-! # Theorems -/

namespace Bio

/-! ## Reading and writing nodes -/

@[simp] theorem get_modify (s : Bcache) (p q : Ptr) (f : Buf → Buf) :
    (s.modify p f).get q = if q = p then f (s.get p) else s.get q := by
  cases p <;> cases q <;> simp [Bcache.modify, Bcache.get, Function.update_apply]

@[simp] theorem trace_modify (s : Bcache) (p : Ptr) (f : Buf → Buf) :
    (s.modify p f).trace = s.trace := by
  cases p <;> rfl

@[simp] theorem disk_modify (s : Bcache) (p : Ptr) (f : Buf → Buf) :
    (s.modify p f).disk = s.disk := by
  cases p <;> rfl

@[simp] theorem diskLog_modify (s : Bcache) (p : Ptr) (f : Buf → Buf) :
    (s.modify p f).diskLog = s.diskLog := by
  cases p <;> rfl

theorem buf_eq_get (s : Bcache) (k : Nat) : s.buf k = s.get (Ptr.buf k) := rfl

theorem hashbucket_eq_get (s : Bcache) (i : Fin 13) : s.hashbucket i = s.get (Ptr.hashbucket i) :=
  rfl

@[simp] theorem get_acquire (s : Bcache) (i : Fin 13) : (acquire s i).get = s.get := by
  funext p; cases p <;> rfl

@[simp] theorem get_release (s : Bcache) (i : Fin 13) : (release s i).get = s.get := by
  funext p; cases p <;> rfl

@[simp] theorem nxt_acquire (s : Bcache) (i : Fin 13) : (acquire s i).nxt = s.nxt := by
  funext p; simp [Bcache.nxt]

@[simp] theorem prv_acquire (s : Bcache) (i : Fin 13) : (acquire s i).prv = s.prv := by
  funext p; simp [Bcache.prv]

@[simp] theorem nxt_release (s : Bcache) (i : Fin 13) : (release s i).nxt = s.nxt := by
  funext p; simp [Bcache.nxt]

@[simp] theorem prv_release (s : Bcache) (i : Fin 13) : (release s i).prv = s.prv := by
  funext p; simp [Bcache.prv]

theorem nxt_setNext (s : Bcache) (p q : Ptr) :
    (s.setNext p q).nxt = Function.update s.nxt p q := by
  funext x
  by_cases h : x = p <;> simp [Bcache.nxt, Bcache.setNext, h, Function.update_apply]

theorem prv_setNext (s : Bcache) (p q : Ptr) : (s.setNext p q).prv = s.prv := by
  funext x
  by_cases h : x = p <;> simp [Bcache.prv, Bcache.setNext, h]

theorem prv_setPrev (s : Bcache) (p q : Ptr) :
    (s.setPrev p q).prv = Function.update s.prv p q := by
  funext x
  by_cases h : x = p <;> simp [Bcache.prv, Bcache.setPrev, h, Function.update_apply]

theorem nxt_setPrev (s : Bcache) (p q : Ptr) : (s.setPrev p q).nxt = s.nxt := by
  funext x
  by_cases h : x = p <;> simp [Bcache.nxt, Bcache.setPrev, h]

/-- A write that keeps the links of the node. -/
theorem nxt_modify_of_next (s : Bcache) (p : Ptr) (f : Buf → Buf)
    (hf : ∀ x, (f x).next = x.next) : (s.modify p f).nxt = s.nxt := by
  funext x
  by_cases h : x = p <;> simp [Bcache.nxt, h, hf]

theorem prv_modify_of_prev (s : Bcache) (p : Ptr) (f : Buf → Buf)
    (hf : ∀ x, (f x).prev = x.prev) : (s.modify p f).prv = s.prv := by
  funext x
  by_cases h : x = p <;> simp [Bcache.prv, h, hf]

/-! ## Linked nodes -/

theorem Linked.nil_iff {nx pv : Ptr → Ptr} {a z : Ptr} :
    Linked nx pv a [] z ↔ nx a = z ∧ pv z = a := Iff.rfl

theorem Linked.cons_iff {nx pv : Ptr → Ptr} {a b z : Ptr} {l : List Ptr} :
    Linked nx pv a (b :: l) z ↔ nx a = b ∧ pv b = a ∧ Linked nx pv b l z := Iff.rfl

theorem Linked.frame {nx pv nx' pv' : Ptr → Ptr} :
    ∀ {a : Ptr} {l : List Ptr} {z : Ptr}, Linked nx pv a l z →
      (∀ x ∈ a :: l, nx' x = nx x) → (∀ y ∈ l ++ [z], pv' y = pv y) → Linked nx' pv' a l z
  | a, [], z, h, hn, hp => by
    obtain ⟨h1, h2⟩ := h
    exact ⟨by rw [hn a (by simp), h1], by rw [hp z (by simp), h2]⟩
  | a, b :: l, z, h, hn, hp => by
    obtain ⟨h1, h2, h3⟩ := h
    refine ⟨by rw [hn a (by simp), h1], by rw [hp b (by simp), h2], ?_⟩
    exact Linked.frame h3 (fun x hx => hn x (List.mem_cons_of_mem _ hx))
      (fun y hy => hp y (by simpa using Or.inr (by simpa using hy)))

theorem Linked.append {nx pv : Ptr → Ptr} {a : Ptr} {l1 : List Ptr} {b : Ptr} {l2 : List Ptr}
    {z : Ptr} : Linked nx pv a (l1 ++ b :: l2) z ↔ Linked nx pv a l1 b ∧ Linked nx pv b l2 z := by
  induction l1 generalizing a with
  | nil => simp [Linked.nil_iff, Linked.cons_iff, and_assoc]
  | cons c l1 ih => simp only [List.cons_append, Linked.cons_iff, and_assoc, ih]

/-- The node before `b` on a path. -/
theorem Linked.prev_eq {nx pv : Ptr → Ptr} {a : Ptr} {l1 : List Ptr} {b : Ptr}
    (h : Linked nx pv a l1 b) : pv b = (a :: l1).getLast (by simp) := by
  induction l1 generalizing a with
  | nil => exact h.2
  | cons c l1 ih =>
    obtain ⟨_, _, h3⟩ := h
    rw [List.getLast_cons (by simp)]
    exact ih h3

/-- The node after `b` on a path. -/
theorem Linked.next_eq {nx pv : Ptr → Ptr} {b : Ptr} {l2 : List Ptr} {z : Ptr}
    (h : Linked nx pv b l2 z) : nx b = (l2 ++ [z]).head (by simp) := by
  cases l2 with
  | nil => exact h.1
  | cons c l2 => exact h.1

/-- Taking `b` out of a path: the statements
`b->next->prev = b->prev; b->prev->next = b->next;`. -/
theorem Linked.unlink_node {nx pv : Ptr → Ptr} {b : Ptr} {l2 : List Ptr} {z : Ptr} :
    ∀ {a : Ptr} {l1 : List Ptr}, Linked nx pv a (l1 ++ b :: l2) z →
      (a :: (l1 ++ b :: l2)).Nodup → ((l1 ++ b :: l2) ++ [z]).Nodup →
      Linked (Function.update nx (pv b) (nx b)) (Function.update pv (nx b) (pv b)) a (l1 ++ l2) z
  | a, [], h, hs, ht => by
    obtain ⟨h1, h2, h3⟩ := h
    simp only [List.nil_append] at hs ht ⊢
    rw [h2]
    cases l2 with
    | nil =>
      obtain ⟨h4, h5⟩ := h3
      rw [h4]
      exact ⟨by simp, by simp⟩
    | cons n l2 =>
      obtain ⟨h4, h5, h6⟩ := h3
      rw [h4]
      refine ⟨by simp, by simp, ?_⟩
      refine Linked.frame h6 ?_ ?_
      · intro x hx
        have : x ≠ a := by
          rintro rfl
          simp only [List.nodup_cons, List.mem_cons] at hs
          simp only [List.mem_cons] at hx
          tauto
        simp [Function.update_apply, this]
      · intro y hy
        have : y ≠ n := by
          rintro rfl
          simp only [List.cons_append, List.nodup_cons] at ht
          exact ht.2.1 hy
        simp [Function.update_apply, this]
  | a, c :: l1, h, hs, ht => by
    obtain ⟨h1, h2, h3⟩ := h
    simp only [List.cons_append] at hs ht ⊢
    have ih := Linked.unlink_node h3 (List.nodup_cons.1 hs).2 (List.nodup_cons.1 ht).2
    have hpv : pv b = (c :: l1).getLast (by simp) := (Linked.append.1 h3).1.prev_eq
    have hnx : nx b = (l2 ++ [z]).head (by simp) := (Linked.append.1 h3).2.next_eq
    have ha : a ≠ pv b := by
      intro e
      have : a ∈ c :: l1 := by rw [e, hpv]; exact List.getLast_mem _
      simp only [List.nodup_cons, List.mem_cons, List.mem_append] at hs
      simp only [List.mem_cons] at this
      tauto
    have hc : c ≠ nx b := by
      intro e
      have hm : c ∈ l2 ++ [z] := by rw [e, hnx]; exact List.head_mem _
      simp only [List.nodup_cons, List.append_assoc, List.mem_append, List.cons_append,
        List.mem_cons, List.mem_singleton] at ht
      simp only [List.mem_append, List.mem_singleton] at hm
      tauto
    exact ⟨by simp [Function.update_apply, ha, h1], by simp [Function.update_apply, hc, h2], ih⟩

/-- Putting `b` behind the head `h` of a circular list: the statements
`b->next = h->next; b->prev = h; h->next->prev = b; h->next = b;`. -/
theorem Linked.insert {nx pv : Ptr → Ptr} {h b : Ptr} {l : List Ptr}
    (hl : Linked nx pv h l h) (hb : b ∉ h :: l) (hn : (h :: l).Nodup) :
    Linked (Function.update (Function.update nx b (nx h)) h b)
      (Function.update (Function.update pv b h) (nx h) b) h (b :: l) h := by
  have hbh : b ≠ h := fun e => hb (by simp [e])
  cases l with
  | nil =>
    obtain ⟨h1, h2⟩ := hl
    rw [h1]
    refine ⟨by simp, ?_, ?_, by simp⟩
    · simp [Function.update_apply, hbh]
    · simp [Function.update_apply, hbh, h1]
  | cons c l =>
    obtain ⟨h1, h2, h3⟩ := hl
    rw [h1]
    have hbc : b ≠ c := fun e => hb (by simp [e])
    refine ⟨by simp, ?_, ?_, by simp, ?_⟩
    · simp [Function.update_apply, hbc]
    · simp [Function.update_apply, hbh]
    · refine Linked.frame h3 ?_ ?_
      · intro x hx
        have hxh : x ≠ h := by
          rintro rfl
          exact (List.nodup_cons.1 hn).1 hx
        have hxb : x ≠ b := by
          rintro rfl
          exact hb (List.mem_cons_of_mem _ hx)
        simp [Function.update_apply, hxh, hxb]
      · intro y hy
        have hyc : y ≠ c := by
          rintro rfl
          simp only [List.mem_append, List.mem_singleton] at hy
          rcases hy with hy | hy
          · exact (List.nodup_cons.1 (List.nodup_cons.1 hn).2).1 hy
          · exact (List.nodup_cons.1 hn).1 (by simp [hy])
        have hyb : y ≠ b := by
          rintro rfl
          simp only [List.mem_append, List.mem_singleton] at hy
          rcases hy with hy | hy
          · exact hb (by simp [hy])
          · exact hbh hy
        simp [Function.update_apply, hyc, hyb]

/-! ## The list statements on the state -/

@[simp] theorem valid_setNext (s : Bcache) (p q x : Ptr) :
    ((s.setNext p q).get x).valid = (s.get x).valid := by
  simp only [Bcache.setNext, get_modify]; split_ifs with h
  · rw [h]
  · rfl

@[simp] theorem dev_setNext (s : Bcache) (p q x : Ptr) :
    ((s.setNext p q).get x).dev = (s.get x).dev := by
  simp only [Bcache.setNext, get_modify]; split_ifs with h
  · rw [h]
  · rfl

@[simp] theorem blockno_setNext (s : Bcache) (p q x : Ptr) :
    ((s.setNext p q).get x).blockno = (s.get x).blockno := by
  simp only [Bcache.setNext, get_modify]; split_ifs with h
  · rw [h]
  · rfl

@[simp] theorem locked_setNext (s : Bcache) (p q x : Ptr) :
    ((s.setNext p q).get x).locked = (s.get x).locked := by
  simp only [Bcache.setNext, get_modify]; split_ifs with h
  · rw [h]
  · rfl

@[simp] theorem refcnt_setNext (s : Bcache) (p q x : Ptr) :
    ((s.setNext p q).get x).refcnt = (s.get x).refcnt := by
  simp only [Bcache.setNext, get_modify]; split_ifs with h
  · rw [h]
  · rfl

@[simp] theorem data_setNext (s : Bcache) (p q x : Ptr) :
    ((s.setNext p q).get x).data = (s.get x).data := by
  simp only [Bcache.setNext, get_modify]; split_ifs with h
  · rw [h]
  · rfl

@[simp] theorem valid_setPrev (s : Bcache) (p q x : Ptr) :
    ((s.setPrev p q).get x).valid = (s.get x).valid := by
  simp only [Bcache.setPrev, get_modify]; split_ifs with h
  · rw [h]
  · rfl

@[simp] theorem dev_setPrev (s : Bcache) (p q x : Ptr) :
    ((s.setPrev p q).get x).dev = (s.get x).dev := by
  simp only [Bcache.setPrev, get_modify]; split_ifs with h
  · rw [h]
  · rfl

@[simp] theorem blockno_setPrev (s : Bcache) (p q x : Ptr) :
    ((s.setPrev p q).get x).blockno = (s.get x).blockno := by
  simp only [Bcache.setPrev, get_modify]; split_ifs with h
  · rw [h]
  · rfl

@[simp] theorem locked_setPrev (s : Bcache) (p q x : Ptr) :
    ((s.setPrev p q).get x).locked = (s.get x).locked := by
  simp only [Bcache.setPrev, get_modify]; split_ifs with h
  · rw [h]
  · rfl

@[simp] theorem refcnt_setPrev (s : Bcache) (p q x : Ptr) :
    ((s.setPrev p q).get x).refcnt = (s.get x).refcnt := by
  simp only [Bcache.setPrev, get_modify]; split_ifs with h
  · rw [h]
  · rfl

@[simp] theorem data_setPrev (s : Bcache) (p q x : Ptr) :
    ((s.setPrev p q).get x).data = (s.get x).data := by
  simp only [Bcache.setPrev, get_modify]; split_ifs with h
  · rw [h]
  · rfl

theorem nxt_unlink (s : Bcache) (b : Ptr) :
    (unlink s b).nxt = Function.update s.nxt (s.prv b) (s.nxt b) := by
  have h : (s.setPrev (s.get b).next (s.get b).prev).prv b = s.prv b := by
    rw [prv_setPrev]; simp only [Function.update_apply, Bcache.prv]; split_ifs <;> rfl
  have h2 : (s.setPrev (s.get b).next (s.get b).prev).nxt b = s.nxt b := by rw [nxt_setPrev]
  simp only [unlink]
  rw [nxt_setNext, nxt_setPrev]
  change Function.update s.nxt ((s.setPrev (s.get b).next (s.get b).prev).prv b)
    ((s.setPrev (s.get b).next (s.get b).prev).nxt b) = _
  rw [h, h2]

theorem prv_unlink (s : Bcache) (b : Ptr) :
    (unlink s b).prv = Function.update s.prv (s.nxt b) (s.prv b) := by
  simp only [unlink]
  rw [prv_setNext, prv_setPrev]
  rfl

theorem nxt_insertHead (s : Bcache) (h : Fin 13) (b : Ptr) :
    (insertHead s h b).nxt =
      Function.update (Function.update s.nxt b (s.nxt (Ptr.hashbucket h))) (Ptr.hashbucket h) b := by
  simp only [insertHead]
  rw [nxt_setNext, nxt_setPrev, nxt_setPrev, nxt_setNext]
  rfl

theorem prv_insertHead (s : Bcache) (h : Fin 13) (b : Ptr) :
    (insertHead s h b).prv =
      Function.update (Function.update s.prv b (Ptr.hashbucket h)) (s.nxt (Ptr.hashbucket h)) b := by
  have e : ((s.setNext b (s.hashbucket h).next).setPrev b (Ptr.hashbucket h)).nxt (Ptr.hashbucket h)
      = s.nxt (Ptr.hashbucket h) := by
    rw [nxt_setPrev, nxt_setNext]
    simp only [Function.update_apply]
    split_ifs with h1
    · rfl
    · rfl
  simp only [insertHead]
  rw [prv_setNext, prv_setPrev, prv_setPrev, prv_setNext]
  have e' : (((s.setNext b (s.hashbucket h).next).setPrev b (Ptr.hashbucket h)).hashbucket h).next
      = s.nxt (Ptr.hashbucket h) := e
  rw [e']

@[simp] theorem valid_unlink (s : Bcache) (b x : Ptr) :
    ((unlink s b).get x).valid = (s.get x).valid := by
  simp [unlink]

@[simp] theorem dev_unlink (s : Bcache) (b x : Ptr) :
    ((unlink s b).get x).dev = (s.get x).dev := by
  simp [unlink]

@[simp] theorem blockno_unlink (s : Bcache) (b x : Ptr) :
    ((unlink s b).get x).blockno = (s.get x).blockno := by
  simp [unlink]

@[simp] theorem locked_unlink (s : Bcache) (b x : Ptr) :
    ((unlink s b).get x).locked = (s.get x).locked := by
  simp [unlink]

@[simp] theorem refcnt_unlink (s : Bcache) (b x : Ptr) :
    ((unlink s b).get x).refcnt = (s.get x).refcnt := by
  simp [unlink]

@[simp] theorem data_unlink (s : Bcache) (b x : Ptr) :
    ((unlink s b).get x).data = (s.get x).data := by
  simp [unlink]

@[simp] theorem valid_insertHead (s : Bcache) (h : Fin 13) (b x : Ptr) :
    ((insertHead s h b).get x).valid = (s.get x).valid := by
  simp [insertHead]

@[simp] theorem dev_insertHead (s : Bcache) (h : Fin 13) (b x : Ptr) :
    ((insertHead s h b).get x).dev = (s.get x).dev := by
  simp [insertHead]

@[simp] theorem blockno_insertHead (s : Bcache) (h : Fin 13) (b x : Ptr) :
    ((insertHead s h b).get x).blockno = (s.get x).blockno := by
  simp [insertHead]

@[simp] theorem locked_insertHead (s : Bcache) (h : Fin 13) (b x : Ptr) :
    ((insertHead s h b).get x).locked = (s.get x).locked := by
  simp [insertHead]

@[simp] theorem refcnt_insertHead (s : Bcache) (h : Fin 13) (b x : Ptr) :
    ((insertHead s h b).get x).refcnt = (s.get x).refcnt := by
  simp [insertHead]

@[simp] theorem data_insertHead (s : Bcache) (h : Fin 13) (b x : Ptr) :
    ((insertHead s h b).get x).data = (s.get x).data := by
  simp [insertHead]

@[simp] theorem trace_unlink (s : Bcache) (b : Ptr) : (unlink s b).trace = s.trace := by
  simp [unlink, Bcache.setPrev, Bcache.setNext]

@[simp] theorem trace_insertHead (s : Bcache) (h : Fin 13) (b : Ptr) :
    (insertHead s h b).trace = s.trace := by
  simp [insertHead, Bcache.setPrev, Bcache.setNext]

@[simp] theorem diskLog_unlink (s : Bcache) (b : Ptr) : (unlink s b).diskLog = s.diskLog := by
  simp [unlink, Bcache.setPrev, Bcache.setNext]

@[simp] theorem diskLog_insertHead (s : Bcache) (h : Fin 13) (b : Ptr) :
    (insertHead s h b).diskLog = s.diskLog := by
  simp [insertHead, Bcache.setPrev, Bcache.setNext]

@[simp] theorem disk_unlink (s : Bcache) (b : Ptr) : (unlink s b).disk = s.disk := by
  simp [unlink, Bcache.setPrev, Bcache.setNext]

@[simp] theorem disk_insertHead (s : Bcache) (h : Fin 13) (b : Ptr) :
    (insertHead s h b).disk = s.disk := by
  simp [insertHead, Bcache.setPrev, Bcache.setNext]

/-! ## Well-formed lists under the list statements -/

theorem buf_injective : Function.Injective Ptr.buf := fun _ _ h => by injection h

theorem hashbucket_not_mem (i : Fin 13) (l : List Nat) : Ptr.hashbucket i ∉ l.map Ptr.buf := by
  simp

theorem cycle_nodup {i : Fin 13} {l : List Nat} (h : l.Nodup) :
    (Ptr.hashbucket i :: l.map Ptr.buf).Nodup :=
  List.nodup_cons.2 ⟨hashbucket_not_mem i l, h.map buf_injective⟩

theorem cycle_nodup_right {i : Fin 13} {l : List Nat} (h : l.Nodup) :
    (l.map Ptr.buf ++ [Ptr.hashbucket i]).Nodup := by
  rw [List.nodup_append]
  refine ⟨h.map buf_injective, by simp, ?_⟩
  intro x hx hy
  simp only [List.mem_singleton] at hy
  subst hy
  exact hashbucket_not_mem i l hx

theorem WF.prv_on {s : Bcache} {L : Fin 13 → List Nat} (w : WF s L) {n : Fin 13} {k : Nat}
    (hk : k ∈ L n) : OnBucket L n (s.prv (Ptr.buf k)) := by
  obtain ⟨l1, l2, e⟩ := List.append_of_mem hk
  have h := w.linked n
  unfold Bucket at h
  rw [e, List.map_append, List.map_cons] at h
  have hp := (Linked.append.1 h).1.prev_eq
  have hm : s.prv (Ptr.buf k) ∈ Ptr.hashbucket n :: l1.map Ptr.buf := by
    rw [hp]; exact List.getLast_mem _
  simp only [List.mem_cons, List.mem_map] at hm
  rcases hm with hm | ⟨x, hx, hm⟩
  · exact Or.inl hm
  · exact Or.inr ⟨x, by rw [e]; simp [hx], hm.symm⟩

theorem WF.nxt_on {s : Bcache} {L : Fin 13 → List Nat} (w : WF s L) {n : Fin 13} {k : Nat}
    (hk : k ∈ L n) : OnBucket L n (s.nxt (Ptr.buf k)) := by
  obtain ⟨l1, l2, e⟩ := List.append_of_mem hk
  have h := w.linked n
  unfold Bucket at h
  rw [e, List.map_append, List.map_cons] at h
  have hp := (Linked.append.1 h).2.next_eq
  have hm : s.nxt (Ptr.buf k) ∈ l2.map Ptr.buf ++ [Ptr.hashbucket n] := by
    rw [hp]; exact List.head_mem _
  simp only [List.mem_append, List.mem_singleton, List.mem_map] at hm
  rcases hm with ⟨x, hx, hm⟩ | hm
  · exact Or.inr ⟨x, by rw [e]; simp [hx], hm.symm⟩
  · exact Or.inl hm

theorem WF.nxt_head_on {s : Bcache} {L : Fin 13 → List Nat} (w : WF s L) (n : Fin 13) :
    OnBucket L n (s.nxt (Ptr.hashbucket n)) := by
  have h := w.linked n
  unfold Bucket at h
  have hp := h.next_eq
  have hm : s.nxt (Ptr.hashbucket n) ∈ (L n).map Ptr.buf ++ [Ptr.hashbucket n] := by
    rw [hp]; exact List.head_mem _
  simp only [List.mem_append, List.mem_singleton, List.mem_map] at hm
  rcases hm with ⟨x, hx, hm⟩ | hm
  · exact Or.inr ⟨x, hx, hm.symm⟩
  · exact Or.inl hm

/-- A node of bucket `n` is not a node of another bucket `i`. -/
theorem OnBucket.not_mem {s : Bcache} {L : Fin 13 → List Nat} (w : WF s L) {n i : Fin 13}
    (hne : i ≠ n) {p : Ptr} (hp : OnBucket L n p) :
    p ∉ Ptr.hashbucket i :: (L i).map Ptr.buf ∧ p ∉ (L i).map Ptr.buf ++ [Ptr.hashbucket i] := by
  rcases hp with rfl | ⟨k, hk, rfl⟩
  · simp [hne.symm]
  · have := w.disjoint n i hne.symm k hk
    simp [this]

theorem erase_split {k : Nat} {l1 l2 : List Nat} (h : (l1 ++ k :: l2).Nodup) :
    (l1 ++ k :: l2).erase k = l1 ++ l2 := by
  have hk : k ∉ l1 := by
    intro hm
    rw [List.nodup_append] at h
    exact h.2.2 hm (by simp)
  rw [List.erase_append_right _ hk]
  simp

/-- Taking a buffer out of its bucket keeps the lists well-formed. -/
theorem WF.unlink_buf {s : Bcache} {L : Fin 13 → List Nat} (w : WF s L) {n : Fin 13} {k : Nat}
    (hk : k ∈ L n) : WF (unlink s (Ptr.buf k)) (Function.update L n ((L n).erase k)) := by
  refine ⟨?_, ?_, ?_⟩
  · intro i
    unfold Bucket
    rw [nxt_unlink, prv_unlink]
    by_cases hi : i = n
    · subst hi
      rw [Function.update_same]
      obtain ⟨l1, l2, e⟩ := List.append_of_mem hk
      have hnd := w.nodup i
      have h := w.linked i
      unfold Bucket at h
      rw [e] at hnd h ⊢
      rw [erase_split hnd, List.map_append]
      rw [List.map_append, List.map_cons] at h
      have c1 := @cycle_nodup i _ hnd
      have c2 := @cycle_nodup_right i _ hnd
      rw [List.map_append, List.map_cons] at c1 c2
      exact Linked.unlink_node h c1 c2
    · rw [Function.update_noteq hi]
      refine Linked.frame (w.linked i) ?_ ?_
      · intro x hx
        have := (OnBucket.not_mem w hi (w.prv_on hk)).1
        have hne : x ≠ s.prv (Ptr.buf k) := by rintro rfl; exact this hx
        simp [Function.update_apply, hne]
      · intro x hx
        have := (OnBucket.not_mem w hi (w.nxt_on hk)).2
        have hne : x ≠ s.nxt (Ptr.buf k) := by rintro rfl; exact this hx
        simp [Function.update_apply, hne]
  · intro i
    by_cases hi : i = n
    · subst hi
      rw [Function.update_same]
      exact (w.nodup i).erase k
    · rw [Function.update_noteq hi]
      exact w.nodup i
  · intro i j hij x hx hx'
    simp only [Function.update_apply] at hx hx'
    split_ifs at hx hx' with h1 h2 h2
    · exact hij (h1.trans h2.symm)
    · subst h1; exact w.disjoint i j hij x (List.mem_of_mem_erase hx) hx'
    · subst h2; exact w.disjoint i j hij x hx (List.mem_of_mem_erase hx')
    · exact w.disjoint i j hij x hx hx'

theorem not_mem_after_unlink {s : Bcache} {L : Fin 13 → List Nat} (w : WF s L) {n : Fin 13}
    {k : Nat} (hk : k ∈ L n) (i : Fin 13) : k ∉ Function.update L n ((L n).erase k) i := by
  by_cases hi : i = n
  · subst hi
    rw [Function.update_same]
    exact fun h => (List.Nodup.mem_erase_iff (w.nodup i)).1 h |>.1 rfl
  · rw [Function.update_noteq hi]
    exact w.disjoint n i (Ne.symm hi) k hk

/-- Putting a buffer that is on no list at the head of bucket `h` keeps the
lists well-formed. -/
theorem WF.insertHead {s : Bcache} {L : Fin 13 → List Nat} (w : WF s L) (h : Fin 13) {k : Nat}
    (hk : ∀ i, k ∉ L i) : WF (insertHead s h (Ptr.buf k)) (Function.update L h (k :: L h)) := by
  refine ⟨?_, ?_, ?_⟩
  · intro i
    unfold Bucket
    rw [nxt_insertHead, prv_insertHead]
    by_cases hi : i = h
    · subst hi
      rw [Function.update_same, List.map_cons]
      refine Linked.insert (w.linked i) ?_ (cycle_nodup (w.nodup i))
      simp [hk i]
    · rw [Function.update_noteq hi]
      refine Linked.frame (w.linked i) ?_ ?_
      · intro x hx
        have h1 : x ≠ Ptr.hashbucket h := by
          rintro rfl
          simp [Ne.symm hi] at hx
        have h2 : x ≠ Ptr.buf k := by
          rintro rfl
          simp [hk i] at hx
        simp [Function.update_apply, h1, h2]
      · intro x hx
        have := (OnBucket.not_mem w hi (w.nxt_head_on h)).2
        have h1 : x ≠ s.nxt (Ptr.hashbucket h) := by rintro rfl; exact this hx
        have h2 : x ≠ Ptr.buf k := by
          rintro rfl
          simp [hk i] at hx
        simp [Function.update_apply, h1, h2]
  · intro i
    by_cases hi : i = h
    · subst hi
      rw [Function.update_same]
      exact List.nodup_cons.2 ⟨hk i, w.nodup i⟩
    · rw [Function.update_noteq hi]
      exact w.nodup i
  · intro i j hij x hx hx'
    simp only [Function.update_apply] at hx hx'
    split_ifs at hx hx' with h1 h2 h2
    · exact hij (h1.trans h2.symm)
    · subst h1
      rcases List.mem_cons.1 hx with rfl | hx
      · exact hk j hx'
      · exact w.disjoint i j hij x hx hx'
    · subst h2
      rcases List.mem_cons.1 hx' with rfl | hx'
      · exact hk i hx
      · exact w.disjoint i j hij x hx hx'
    · exact w.disjoint i j hij x hx hx'

/-- Well-formedness only looks at the links. -/
theorem WF.of_links {s s' : Bcache} {L : Fin 13 → List Nat} (w : WF s L)
    (hn : s'.nxt = s.nxt) (hp : s'.prv = s.prv) : WF s' L :=
  ⟨fun i => by have := w.linked i; unfold Bucket at this ⊢; rw [hn, hp]; exact this,
    w.nodup, w.disjoint⟩

/-! ## The loops of bget on well-formed lists -/

theorem Linked.reverse {nx pv : Ptr → Ptr} {a z : Ptr} {l : List Ptr}
    (h : Linked nx pv a l z) : Linked pv nx z l.reverse a := by
  induction l generalizing a with
  | nil => exact ⟨h.2, h.1⟩
  | cons b l ih =>
    obtain ⟨h1, h2, h3⟩ := h
    rw [List.reverse_cons]
    have := ih h3
    have e : l.reverse ++ [b] = l.reverse ++ b :: [] := rfl
    rw [e, Linked.append]
    exact ⟨this, h2, h1⟩

theorem scanList_of_lt (test : Nat → Bool) :
    ∀ (fuel : Nat) (l : List Nat), l.length < fuel → scanList test fuel l = some (l.find? test)
  | 0, _, h => by omega
  | fuel + 1, [], _ => rfl
  | fuel + 1, k :: l, h => by
    simp only [scanList, List.find?_cons]
    cases test k with
    | true => simp
    | false =>
      simp only [Bool.false_eq_true, ↓reduceIte]
      exact scanList_of_lt test fuel l (by simpa using h)

theorem bget_cached_eq (s : Bcache) (i : Fin 13) (dev blockno : Nat) :
    ∀ (fuel : Nat) (l : List Nat) (a : Ptr),
      Linked s.nxt s.prv a (l.map Ptr.buf) (Ptr.hashbucket i) →
      bget_cached s (Ptr.hashbucket i) dev blockno fuel (s.nxt a) =
        (scanList (isCached s dev blockno) fuel l).map (Option.map Ptr.buf)
  | 0, _, _, _ => rfl
  | fuel + 1, [], a, h => by
    have : s.nxt a = Ptr.hashbucket i := h.1
    simp [bget_cached, scanList, this]
  | fuel + 1, k :: l, a, h => by
    obtain ⟨h1, _, h3⟩ := h
    rw [h1]
    simp only [bget_cached, scanList, isCached, reduceCtorEq, ↓reduceIte, decide_eq_true_eq]
    change (if (s.buf k).dev = dev ∧ (s.buf k).blockno = blockno then _ else _) = _
    split_ifs with hc
    · rfl
    · exact bget_cached_eq s i dev blockno fuel l (Ptr.buf k) h3

theorem bget_unused_eq (s : Bcache) (i : Fin 13) :
    ∀ (fuel : Nat) (l : List Nat) (a : Ptr),
      Linked s.prv s.nxt a (l.map Ptr.buf) (Ptr.hashbucket i) →
      bget_unused s (Ptr.hashbucket i) fuel (s.prv a) =
        (scanList (isUnused s) fuel l).map (Option.map Ptr.buf)
  | 0, _, _, _ => rfl
  | fuel + 1, [], a, h => by
    have : s.prv a = Ptr.hashbucket i := h.1
    simp [bget_unused, scanList, this]
  | fuel + 1, k :: l, a, h => by
    obtain ⟨h1, _, h3⟩ := h
    rw [h1]
    simp only [bget_unused, scanList, isUnused, reduceCtorEq, ↓reduceIte, decide_eq_true_eq]
    change (if (s.buf k).refcnt = 0 then _ else _) = _
    split_ifs with hc
    · rfl
    · exact bget_unused_eq s i fuel l (Ptr.buf k) h3

/-- The first loop of `bget` on a well-formed bucket with enough fuel. -/
theorem WF.bget_cached {s : Bcache} {L : Fin 13 → List Nat} (w : WF s L) (h : Fin 13)
    (dev blockno fuel : Nat) (hf : (L h).length < fuel) :
    Bio.bget_cached s (Ptr.hashbucket h) dev blockno fuel (s.hashbucket h).next =
      some (((L h).find? (isCached s dev blockno)).map Ptr.buf) := by
  have := bget_cached_eq s h dev blockno fuel (L h) (Ptr.hashbucket h) (w.linked h)
  rw [scanList_of_lt _ _ _ hf] at this
  exact this

/-- The recycling loop of `bget` on a well-formed bucket with enough fuel. -/
theorem WF.bget_unused {s : Bcache} {L : Fin 13 → List Nat} (w : WF s L) (n : Fin 13)
    (fuel : Nat) (hf : (L n).length < fuel) :
    Bio.bget_unused s (Ptr.hashbucket n) fuel (s.hashbucket n).prev =
      some (((L n).reverse.find? (isUnused s)).map Ptr.buf) := by
  have hl := (w.linked n).reverse
  rw [← List.map_reverse] at hl
  have := bget_unused_eq s n fuel (L n).reverse (Ptr.hashbucket n) hl
  rw [scanList_of_lt _ _ _ (by simpa using hf)] at this
  exact this

/-! ## The bucket numbers -/

theorem bhash_natCast (n : Nat) : bhash (n : Int) = ((n % 13 : Nat) : Int) := by
  unfold bhash
  rw [Int.tmod_eq_emod (by omega) (by omega)]
  omega

theorem bucket?_natCast (n : Nat) (h : n < 13) : bucket? (n : Int) = some ⟨n, h⟩ := by
  unfold bucket?
  rw [dif_pos ⟨by omega, by omega⟩]
  simp

theorem bucket?_eq_some {i : Int} {h : Fin 13} (e : bucket? i = some h) : i = ((h : Nat) : Int) := by
  unfold bucket? at e
  split_ifs at e with hc
  simp only [Option.some.injEq] at e
  rw [← e]
  simp only
  omega

theorem bhash_succ_home (h : Fin 13) : bhash (((h : Nat) : Int) + 1) = (((neighbour h 0 : Fin 13) : Nat) : Int) := by
  have := bhash_natCast (h.val + 1)
  simpa [neighbour] using this

theorem bhash_succ_neighbour (h : Fin 13) (j : Nat) :
    bhash ((((neighbour h j : Fin 13) : Nat) : Int) + 1) = (((neighbour h (j + 1) : Fin 13) : Nat) : Int) := by
  have := bhash_natCast ((neighbour h j).val + 1)
  rw [Nat.cast_add, Nat.cast_one] at this
  rw [this]
  simp only [neighbour]
  congr 1
  omega

theorem neighbour_ne_home (h : Fin 13) {j : Nat} (hj : j < 12) : neighbour h j ≠ h := by
  intro e
  have := congrArg Fin.val e
  simp only [neighbour] at this
  have := h.isLt
  omega

theorem neighbour_twelve (h : Fin 13) : neighbour h 12 = h := by
  apply Fin.ext
  simp only [neighbour]
  have := h.isLt
  omega

theorem neighbour_injective (h : Fin 13) {i j : Nat} (hi : i < 13) (hj : j < 13)
    (e : neighbour h i = neighbour h j) : i = j := by
  have := congrArg Fin.val e
  simp only [neighbour] at this
  omega

/-- Every bucket other than `h` is one of the twelve neighbours. -/
theorem exists_neighbour (h n : Fin 13) (hne : n ≠ h) : ∃ j, j < 12 ∧ neighbour h j = n := by
  refine ⟨(n.val + 12 - h.val) % 13, ?_, ?_⟩
  · have := h.isLt
    have := n.isLt
    have : n.val ≠ h.val := fun e => hne (Fin.ext e)
    omega
  · apply Fin.ext
    simp only [neighbour]
    have := h.isLt
    have := n.isLt
    omega

/-! ## Lock history and invariant -/

@[simp] theorem get_withTrace (s : Bcache) (t : List LockEvent) : (s.withTrace t).get = s.get := by
  funext p; cases p <;> rfl

@[simp] theorem buf_withTrace (s : Bcache) (t : List LockEvent) : (s.withTrace t).buf = s.buf := rfl

@[simp] theorem hashbucket_withTrace (s : Bcache) (t : List LockEvent) :
    (s.withTrace t).hashbucket = s.hashbucket := rfl

@[simp] theorem trace_withTrace (s : Bcache) (t : List LockEvent) : (s.withTrace t).trace = t := rfl

@[simp] theorem disk_withTrace (s : Bcache) (t : List LockEvent) : (s.withTrace t).disk = s.disk :=
  rfl

@[simp] theorem diskLog_withTrace (s : Bcache) (t : List LockEvent) :
    (s.withTrace t).diskLog = s.diskLog := rfl

@[simp] theorem withTrace_withTrace (s : Bcache) (t t' : List LockEvent) :
    (s.withTrace t).withTrace t' = s.withTrace t' := rfl

theorem acquire_eq (s : Bcache) (i : Fin 13) :
    acquire s i = s.withTrace (s.trace ++ [LockEvent.acquire i]) := rfl

theorem release_eq (s : Bcache) (i : Fin 13) :
    release s i = s.withTrace (s.trace ++ [LockEvent.release i]) := rfl

@[simp] theorem buf_acquire (s : Bcache) (i : Fin 13) : (acquire s i).buf = s.buf := rfl

@[simp] theorem buf_release (s : Bcache) (i : Fin 13) : (release s i).buf = s.buf := rfl

@[simp] theorem hashbucket_acquire (s : Bcache) (i : Fin 13) :
    (acquire s i).hashbucket = s.hashbucket := rfl

@[simp] theorem hashbucket_release (s : Bcache) (i : Fin 13) :
    (release s i).hashbucket = s.hashbucket := rfl

@[simp] theorem disk_acquire (s : Bcache) (i : Fin 13) : (acquire s i).disk = s.disk := rfl

@[simp] theorem disk_release (s : Bcache) (i : Fin 13) : (release s i).disk = s.disk := rfl

@[simp] theorem diskLog_acquire (s : Bcache) (i : Fin 13) : (acquire s i).diskLog = s.diskLog := rfl

@[simp] theorem diskLog_release (s : Bcache) (i : Fin 13) : (release s i).diskLog = s.diskLog := rfl

@[simp] theorem trace_acquire (s : Bcache) (i : Fin 13) :
    (acquire s i).trace = s.trace ++ [LockEvent.acquire i] := rfl

@[simp] theorem trace_release (s : Bcache) (i : Fin 13) :
    (release s i).trace = s.trace ++ [LockEvent.release i] := rfl

theorem WF.of_get {s s' : Bcache} {L : Fin 13 → List Nat} (w : WF s L) (h : s'.get = s.get) :
    WF s' L :=
  w.of_links (by funext p; simp [Bcache.nxt, h]) (by funext p; simp [Bcache.prv, h])

theorem Inv.of_get_inv {NBUF : Nat} {s s' : Bcache} {L : Fin 13 → List Nat} (inv : Inv NBUF s L)
    (h : s'.get = s.get) : Inv NBUF s' L :=
  { toWF := inv.toWF.of_get h
    cover := inv.cover
    placed := fun i k hk => by
      have := inv.placed i k hk
      rw [buf_eq_get, h]; exact this }

theorem isUnused_congr {s s' : Bcache} (h : s'.get = s.get) : isUnused s' = isUnused s := by
  funext k; simp [isUnused, buf_eq_get, h]

theorem isCached_congr {s s' : Bcache} (h : s'.get = s.get) (dev blockno : Nat) :
    isCached s' dev blockno = isCached s dev blockno := by
  funext k; simp [isCached, buf_eq_get, h]

/-! ## Moving a buffer to the head of a bucket -/

theorem mem_moveToHead {L : Fin 13 → List Nat} {n h : Fin 13} {k : Nat}
    (hn : ∀ i, (L i).Nodup) (hd : ∀ i j, i ≠ j → ∀ x, x ∈ L i → x ∉ L j) (hk : k ∈ L n)
    (i : Fin 13) (x : Nat) :
    x ∈ moveToHead L n h k i ↔ (x = k ∧ i = h) ∨ (x ≠ k ∧ x ∈ L i) := by
  have key : ∀ j, x ∈ Function.update L n ((L n).erase k) j ↔ x ≠ k ∧ x ∈ L j := by
    intro j
    by_cases hj : j = n
    · subst hj
      rw [Function.update_same, (hn j).mem_erase_iff]
    · rw [Function.update_noteq hj]
      constructor
      · intro hx
        refine ⟨?_, hx⟩
        rintro rfl
        exact hd n j (Ne.symm hj) x hk hx
      · exact fun hx => hx.2
  unfold moveToHead
  by_cases hi : i = h
  · subst hi
    rw [Function.update_same, List.mem_cons, key]
    tauto
  · rw [Function.update_noteq hi, key]
    tauto

theorem WF.move_buf {s : Bcache} {L : Fin 13 → List Nat} (w : WF s L) {n : Fin 13} (h : Fin 13)
    {k : Nat} (hk : k ∈ L n) :
    WF (Bio.insertHead (Bio.unlink s (Ptr.buf k)) h (Ptr.buf k)) (moveToHead L n h k) :=
  (w.unlink_buf hk).insertHead h (not_mem_after_unlink w hk)

/-- Moving buffer `k` to the head of the bucket of its block number keeps the
invariant, whatever happens to the other fields of `k`. -/
theorem Inv.move {NBUF : Nat} {s s' : Bcache} {L : Fin 13 → List Nat} (inv : Inv NBUF s L)
    {n : Fin 13} (h : Fin 13) {k : Nat} (hk : k ∈ L n)
    (hn : s'.nxt = (Bio.insertHead (Bio.unlink s (Ptr.buf k)) h (Ptr.buf k)).nxt)
    (hp : s'.prv = (Bio.insertHead (Bio.unlink s (Ptr.buf k)) h (Ptr.buf k)).prv)
    (hb : ∀ x, x ≠ k → (s'.buf x).blockno = (s.buf x).blockno)
    (hh : bucket? (bhash (toInt32 (s'.buf k).blockno)) = some h) :
    Inv NBUF s' (moveToHead L n h k) :=
  { toWF := (inv.toWF.move_buf h hk).of_links hn hp
    cover := fun x => by
      rw [inv.cover x]
      constructor
      · rintro ⟨i, hi⟩
        by_cases hx : x = k
        · exact ⟨h, (mem_moveToHead inv.nodup inv.disjoint hk h x).2 (Or.inl ⟨hx, rfl⟩)⟩
        · exact ⟨i, (mem_moveToHead inv.nodup inv.disjoint hk i x).2 (Or.inr ⟨hx, hi⟩)⟩
      · rintro ⟨i, hi⟩
        rcases (mem_moveToHead inv.nodup inv.disjoint hk i x).1 hi with ⟨rfl, _⟩ | ⟨_, hx⟩
        · exact ⟨n, hk⟩
        · exact ⟨i, hx⟩
    placed := fun i x hx => by
      rcases (mem_moveToHead inv.nodup inv.disjoint hk i x).1 hx with ⟨rfl, rfl⟩ | ⟨hne, hx⟩
      · exact hh
      · rw [hb x hne]; exact inv.placed i x hx }

/-! ## Claiming a buffer -/

/-- The body of the recycling loop on the unused buffer `k` of bucket `nh`. -/
theorem bget_claim_spec {NBUF : Nat} {s : Bcache} {L : Fin 13 → List Nat} (inv : Inv NBUF s L)
    {nh h : Fin 13} {k : Nat} (hk : k ∈ L nh) (dev blockno : Nat)
    (hh : bucket? (bhash (toInt32 blockno)) = some h) (hl : (s.buf k).locked = false) :
    ∃ s', bget_claim s dev blockno h nh (Ptr.buf k) = Outcome.ret (Ptr.buf k) s' ∧
      Inv NBUF s' (moveToHead L nh h k) ∧
      (s'.buf k).dev = dev ∧ (s'.buf k).blockno = blockno ∧ (s'.buf k).valid = false ∧
      (s'.buf k).refcnt = 1 ∧ (s'.buf k).locked = true ∧ (s'.buf k).data = (s.buf k).data ∧
      (∀ x, x ≠ k → SameFields (s'.buf x) (s.buf x)) ∧
      s'.disk = s.disk ∧ s'.diskLog = s.diskLog ∧
      s'.trace = s.trace ++ [LockEvent.release nh, LockEvent.release h] := by
  have hl' : (s.get (Ptr.buf k)).locked = false := hl
  have hn1 : (s.modify (Ptr.buf k)
      (fun x => { x with dev := dev, blockno := blockno, valid := false, refcnt := 1 })).nxt = s.nxt :=
    nxt_modify_of_next _ _ _ (fun _ => rfl)
  have hp1 : (s.modify (Ptr.buf k)
      (fun x => { x with dev := dev, blockno := blockno, valid := false, refcnt := 1 })).prv = s.prv :=
    prv_modify_of_prev _ _ _ (fun _ => rfl)
  refine ⟨(release (insertHead (release (unlink (s.modify (Ptr.buf k)
      (fun x => { x with dev := dev, blockno := blockno, valid := false, refcnt := 1 })) (Ptr.buf k))
      nh) h (Ptr.buf k)) h).modify (Ptr.buf k) (fun x => { x with locked := true }), ?_, ?_, ?_⟩
  · simp only [bget_claim, acquiresleep]
    rw [if_neg]
    simp [hl']
  · refine inv.move h hk ?_ ?_ ?_ ?_
    · rw [nxt_modify_of_next _ _ (fun x => { x with locked := true }) (fun _ => rfl)]
      simp only [nxt_release, prv_release, nxt_insertHead, prv_insertHead, nxt_unlink, prv_unlink]
      rw [hn1, hp1]
    · rw [prv_modify_of_prev _ _ (fun x => { x with locked := true }) (fun _ => rfl)]
      simp only [nxt_release, prv_release, nxt_insertHead, prv_insertHead, nxt_unlink, prv_unlink]
      rw [hn1, hp1]
    · intro x hx
      have : Ptr.buf x ≠ Ptr.buf k := fun e => hx (buf_injective e)
      simp [buf_eq_get, this]
    · simpa [buf_eq_get] using hh
  · refine ⟨?_, ?_, ?_, ?_, ?_, ?_, ?_, ?_, ?_, ?_⟩
    · simp [buf_eq_get]
    · simp [buf_eq_get]
    · simp [buf_eq_get]
    · simp [buf_eq_get]
    · simp [buf_eq_get]
    · simp [buf_eq_get]
    · intro x hx
      have : Ptr.buf x ≠ Ptr.buf k := fun e => hx (buf_injective e)
      simp [SameFields, buf_eq_get, this]
    · simp
    · simp
    · simp

/-! ## The recycling loop -/

theorem Inv.length_le {NBUF : Nat} {s : Bcache} {L : Fin 13 → List Nat} (inv : Inv NBUF s L)
    (i : Fin 13) : (L i).length ≤ NBUF := by
  have hsub : L i ⊆ List.range NBUF := by
    intro k hk
    rw [List.mem_range]
    exact (inv.cover k).2 ⟨i, hk⟩
  have := ((inv.nodup i).subperm hsub).length_le
  simpa using this

theorem WF.withTrace {s : Bcache} {L : Fin 13 → List Nat} (w : WF s L) (t : List LockEvent) :
    WF (s.withTrace t) L := w.of_get (get_withTrace s t)

/-- The loop `while (nhashno != hashno)` started at the `j`-th neighbour, with
`d` neighbours left: it ends in the panic when none of them has an unused buffer,
and otherwise claims the unused buffer nearest the tail of the first neighbour
that has one. -/
theorem bget_recycle_from {s : Bcache} {L : Fin 13 → List Nat} (w : WF s L) (fuel : Nat)
    (hf : ∀ i, (L i).length < fuel) (dev blockno : Nat) (h : Fin 13) :
    ∀ (d j n : Nat) (t : List LockEvent), j + d = 12 → d < n →
      ((∀ j', j ≤ j' → j' < 12 → (L (neighbour h j')).reverse.find? (isUnused s) = none) ∧
        bget_recycle fuel dev blockno h n (s.withTrace t) (((neighbour h j : Fin 13) : Nat) : Int) =
          Outcome.panic "bget: no buffers") ∨
      ∃ j0 k t', j ≤ j0 ∧ j0 < 12 ∧
        (∀ j', j ≤ j' → j' < j0 → (L (neighbour h j')).reverse.find? (isUnused s) = none) ∧
        (L (neighbour h j0)).reverse.find? (isUnused s) = some k ∧
        bget_recycle fuel dev blockno h n (s.withTrace t) (((neighbour h j : Fin 13) : Nat) : Int) =
          bget_claim (s.withTrace t') dev blockno h (neighbour h j0) (Ptr.buf k) := by
  intro d
  induction d with
  | zero =>
    intro j n t hj hn
    left
    have hj12 : j = 12 := by omega
    subst hj12
    refine ⟨fun j' h1 h2 => by omega, ?_⟩
    obtain ⟨n, rfl⟩ : ∃ m, n = m + 1 := ⟨n - 1, by omega⟩
    rw [neighbour_twelve]
    simp [bget_recycle]
  | succ d ih =>
    intro j n t hj hn
    obtain ⟨n, rfl⟩ : ∃ m, n = m + 1 := ⟨n - 1, by omega⟩
    have hj12 : j < 12 := by omega
    have hne : (((neighbour h j : Fin 13) : Nat) : Int) ≠ ((h : Nat) : Int) := by
      intro e
      exact neighbour_ne_home h hj12 (Fin.ext (by exact_mod_cast e))
    have hb : bucket? (((neighbour h j : Fin 13) : Nat) : Int) = some (neighbour h j) :=
      bucket?_natCast _ (neighbour h j).isLt
    have hscan := (w.withTrace (t ++ [LockEvent.acquire (neighbour h j)])).bget_unused
      (neighbour h j) fuel (hf _)
    rw [isUnused_congr (get_withTrace s _)] at hscan
    have hstep : bget_recycle fuel dev blockno h (n + 1) (s.withTrace t)
          (((neighbour h j : Fin 13) : Nat) : Int) =
        match ((L (neighbour h j)).reverse.find? (isUnused s)).map Ptr.buf with
        | some b => bget_claim (s.withTrace (t ++ [LockEvent.acquire (neighbour h j)])) dev blockno
            h (neighbour h j) b
        | none => bget_recycle fuel dev blockno h n
            (s.withTrace (t ++ [LockEvent.acquire (neighbour h j)] ++
              [LockEvent.release (neighbour h j)]))
            (((neighbour h (j + 1) : Fin 13) : Nat) : Int) := by
      rw [bget_recycle, if_neg hne, hb]
      simp only [acquire_eq, trace_withTrace, withTrace_withTrace]
      rw [hscan]
      cases ((L (neighbour h j)).reverse.find? (isUnused s)) with
      | none =>
        simp only [Option.map_none', release_eq, trace_withTrace, withTrace_withTrace,
          bhash_succ_neighbour]
      | some k => simp only [Option.map_some']
    cases hfind : (L (neighbour h j)).reverse.find? (isUnused s) with
    | some k =>
      right
      refine ⟨j, k, t ++ [LockEvent.acquire (neighbour h j)], le_refl _, hj12,
        fun j' h1 h2 => by omega, hfind, ?_⟩
      rw [hstep, hfind]
      rfl
    | none =>
      rw [hfind] at hstep
      simp only [Option.map_none'] at hstep
      rcases ih (j + 1) n (t ++ [LockEvent.acquire (neighbour h j)] ++
          [LockEvent.release (neighbour h j)]) (by omega) (by omega) with ⟨h1, h2⟩ | ⟨j0, k, t', h1, h2, h3, h4, h5⟩
      · left
        refine ⟨fun j' a b => ?_, by rw [hstep, h2]⟩
        rcases Nat.eq_or_lt_of_le a with e | e
        · rw [← e]; exact hfind
        · exact h1 j' e b
      · right
        refine ⟨j0, k, t', by omega, h2, fun j' a b => ?_, h4, by rw [hstep, h5]⟩
        rcases Nat.eq_or_lt_of_le a with e | e
        · rw [← e]; exact hfind
        · exact h3 j' e b

/-! ## bget on a state that satisfies the invariant -/

theorem bget_claim_blocked (s : Bcache) (dev blockno : Nat) (h nh : Fin 13) (k : Nat)
    (hl : (s.buf k).locked = true) :
    bget_claim s dev blockno h nh (Ptr.buf k) = Outcome.blocked := by
  have hl' : (s.get (Ptr.buf k)).locked = true := hl
  simp only [bget_claim, acquiresleep]
  rw [if_pos]
  simp [hl']

theorem scanList_some (test : Nat → Bool) :
    ∀ (fuel : Nat) (l : List Nat) (r : Option Nat), scanList test fuel l = some r →
      l.find? test = r
  | 0, _, _, h => by simp [scanList] at h
  | fuel + 1, [], r, h => by simpa [scanList] using h
  | fuel + 1, k :: l, r, h => by
    simp only [scanList] at h
    rw [List.find?_cons]
    cases ht : test k with
    | true => rw [ht] at h; simpa using h
    | false =>
      rw [ht] at h
      simp only [Bool.false_eq_true, ↓reduceIte] at h
      exact scanList_some test fuel l r h

theorem bget_home {s : Bcache} {L : Fin 13 → List Nat} (w : WF s L)
    {h : Fin 13} (dev blockno fuel : Nat) (hh : bucket? (bhash (toInt32 blockno)) = some h) :
    bget fuel s dev blockno =
      match scanList (isCached s dev blockno) fuel (L h) with
      | none => Outcome.outOfFuel
      | some (some k) =>
        acquiresleep (release ((acquire s h).modify (Ptr.buf k)
          (fun x => { x with refcnt := x.refcnt + 1 })) h) (Ptr.buf k)
      | some none => bget_recycle fuel dev blockno h fuel (s.withTrace (s.trace ++ [LockEvent.acquire h]))
          (((neighbour h 0 : Fin 13) : Nat) : Int) := by
  have hscan := bget_cached_eq (s.withTrace (s.trace ++ [LockEvent.acquire h])) h dev blockno fuel
    (L h) (Ptr.hashbucket h) ((w.withTrace _).linked h)
  rw [isCached_congr (get_withTrace s _)] at hscan
  rw [bget, hh]
  simp only [acquire_eq]
  have e : ((s.withTrace (s.trace ++ [LockEvent.acquire h])).hashbucket h).next =
      (s.withTrace (s.trace ++ [LockEvent.acquire h])).nxt (Ptr.hashbucket h) := rfl
  rw [e, hscan]
  cases scanList (isCached s dev blockno) fuel (L h) with
  | none => rfl
  | some r =>
    cases r with
    | none => simp only [Option.map_some', Option.map_none', bhash_succ_home]
    | some k => simp only [Option.map_some']

/-- Cache hit: the block is in buffer `k`, the first match of the home bucket. -/
theorem bget_hit {NBUF : Nat} {s : Bcache} {L : Fin 13 → List Nat} (inv : Inv NBUF s L)
    {h : Fin 13} {dev blockno fuel k : Nat} (hh : bucket? (bhash (toInt32 blockno)) = some h)
    (hscan : scanList (isCached s dev blockno) fuel (L h) = some (some k)) :
    ((s.buf k).locked = true ∧ bget fuel s dev blockno = Outcome.blocked) ∨
    ((s.buf k).locked = false ∧
      ∃ s', bget fuel s dev blockno = Outcome.ret (Ptr.buf k) s' ∧ HitPost NBUF s L k s') := by
  rw [bget_home inv.toWF dev blockno fuel hh, hscan]
  simp only [acquiresleep]
  cases hl : (s.buf k).locked with
  | true =>
    left
    have hl' : (s.get (Ptr.buf k)).locked = true := hl
    refine ⟨rfl, ?_⟩
    rw [if_pos]
    simp [hl']
  | false =>
    right
    have hl' : (s.get (Ptr.buf k)).locked = false := hl
    refine ⟨rfl, (release ((acquire s h).modify (Ptr.buf k)
      (fun x => { x with refcnt := x.refcnt + 1 })) h).modify (Ptr.buf k)
      (fun x => { x with locked := true }), ?_, ?_⟩
    · rw [if_neg]
      simp [hl']
    · refine ⟨?_, ?_, ?_, ?_, ?_, ?_, ?_, ?_, ?_, ?_⟩
      · exact
          { toWF := inv.toWF.of_links
              (by
                rw [nxt_modify_of_next _ _ (fun x => { x with locked := true }) (fun _ => rfl),
                  nxt_release,
                  nxt_modify_of_next _ _ (fun x => { x with refcnt := x.refcnt + 1 }) (fun _ => rfl),
                  nxt_acquire])
              (by
                rw [prv_modify_of_prev _ _ (fun x => { x with locked := true }) (fun _ => rfl),
                  prv_release,
                  prv_modify_of_prev _ _ (fun x => { x with refcnt := x.refcnt + 1 }) (fun _ => rfl),
                  prv_acquire])
            cover := inv.cover
            placed := fun i x hx => by
              have := inv.placed i x hx
              rw [buf_eq_get] at this ⊢
              by_cases e : Ptr.buf x = Ptr.buf k
              · simpa [e] using (e ▸ this)
              · simpa [e] using this }
      · simp [buf_eq_get]
      · simp [buf_eq_get]
      · simp [buf_eq_get]
      · simp [buf_eq_get]
      · simp [buf_eq_get]
      · simp [buf_eq_get]
      · intro x hx
        have : Ptr.buf x ≠ Ptr.buf k := fun e => hx (buf_injective e)
        simp [SameFields, buf_eq_get, this]
      · simp
      · simp

/-- Cache miss: the outcome of `bget` is decided by the first neighbour bucket,
in the order `h+1, h+2, ...`, that has an unused buffer, and by the unused
buffer nearest its tail. -/
theorem bget_miss {NBUF : Nat} {s : Bcache} {L : Fin 13 → List Nat} (inv : Inv NBUF s L)
    {h : Fin 13} {dev blockno fuel : Nat} (hh : bucket? (bhash (toInt32 blockno)) = some h)
    (hf : NBUF < fuel) (h13 : 12 < fuel)
    (hscan : scanList (isCached s dev blockno) fuel (L h) = some none) :
    ((∀ j, j < 12 → (L (neighbour h j)).reverse.find? (isUnused s) = none) ∧
        bget fuel s dev blockno = Outcome.panic "bget: no buffers") ∨
    ∃ j0 k, j0 < 12 ∧
      (∀ j, j < j0 → (L (neighbour h j)).reverse.find? (isUnused s) = none) ∧
      (L (neighbour h j0)).reverse.find? (isUnused s) = some k ∧
      (((s.buf k).locked = true ∧ bget fuel s dev blockno = Outcome.blocked) ∨
       ((s.buf k).locked = false ∧
        ∃ s', bget fuel s dev blockno = Outcome.ret (Ptr.buf k) s' ∧
          ClaimPost NBUF s L dev blockno h (neighbour h j0) k s')) := by
  rw [bget_home inv.toWF dev blockno fuel hh, hscan]
  simp only
  rcases bget_recycle_from inv.toWF fuel (fun i => lt_of_le_of_lt (inv.length_le i) hf) dev blockno h
      12 0 fuel (s.trace ++ [LockEvent.acquire h]) (by omega) h13 with
    ⟨h1, h2⟩ | ⟨j0, k, t', _, h2, h3, h4, h5⟩
  · left
    exact ⟨fun j hj => h1 j (Nat.zero_le _) hj, h2⟩
  · right
    refine ⟨j0, k, h2, fun j hj => h3 j (Nat.zero_le _) hj, h4, ?_⟩
    rw [h5]
    have hk : k ∈ L (neighbour h j0) := by
      have := List.mem_of_find?_eq_some h4
      simpa using this
    cases hl : (s.buf k).locked with
    | true =>
      left
      exact ⟨rfl, bget_claim_blocked _ _ _ _ _ _ hl⟩
    | false =>
      right
      refine ⟨rfl, ?_⟩
      have inv' : Inv NBUF (s.withTrace t') L := inv.of_get_inv (get_withTrace s t')
      obtain ⟨s', e, p1, p2, p3, p4, p5, p6, p7, p8, p9, p10, _⟩ :=
        bget_claim_spec inv' hk dev blockno hh hl
      exact ⟨s', e, p1, p2, p3, p4, p5, p6, p7, p8, p9, p10⟩

/-! ## binit -/

theorem nxt_binit_head (s : Bcache) (i : Fin 13) :
    (binit_head s i).nxt = Function.update s.nxt (Ptr.hashbucket i) (Ptr.hashbucket i) := by
  simp only [binit_head]
  rw [nxt_setNext, nxt_setPrev]

theorem prv_binit_head (s : Bcache) (i : Fin 13) :
    (binit_head s i).prv = Function.update s.prv (Ptr.hashbucket i) (Ptr.hashbucket i) := by
  simp only [binit_head]
  rw [prv_setNext, prv_setPrev]

theorem sameFields_binit_head (s : Bcache) (i : Fin 13) (x : Ptr) :
    SameFields ((binit_head s i).get x) (s.get x) := by
  simp [SameFields, binit_head]

theorem heads_looped (l : List (Fin 13)) :
    ∀ s : Bcache, (∀ i, i ∈ l ∨
        (s.nxt (Ptr.hashbucket i) = Ptr.hashbucket i ∧ s.prv (Ptr.hashbucket i) = Ptr.hashbucket i)) →
      ∀ i, (l.foldl binit_head s).nxt (Ptr.hashbucket i) = Ptr.hashbucket i ∧
        (l.foldl binit_head s).prv (Ptr.hashbucket i) = Ptr.hashbucket i := by
  induction l with
  | nil =>
    intro s hs i
    rcases hs i with h | h
    · simp at h
    · exact h
  | cons a l ih =>
    intro s hs
    rw [List.foldl_cons]
    apply ih
    intro i
    by_cases e : i = a
    · subst e
      right
      rw [nxt_binit_head, prv_binit_head]
      simp
    · rcases hs i with h | h
      · left
        rcases List.mem_cons.1 h with h | h
        · exact absurd h e
        · exact h
      · right
        rw [nxt_binit_head, prv_binit_head]
        have : Ptr.hashbucket i ≠ Ptr.hashbucket a := fun c => e (by injection c)
        simp [Function.update_apply, this, h]

theorem heads_fields (l : List (Fin 13)) :
    ∀ (s : Bcache) (x : Ptr), SameFields ((l.foldl binit_head s).get x) (s.get x) := by
  induction l with
  | nil => intro s x; simp [SameFields]
  | cons a l ih =>
    intro s x
    rw [List.foldl_cons]
    have h1 := ih (binit_head s a) x
    have h2 := sameFields_binit_head s a x
    unfold SameFields at *
    refine ⟨h1.1.trans h2.1, h1.2.1.trans h2.2.1, h1.2.2.1.trans h2.2.2.1,
      h1.2.2.2.1.trans h2.2.2.2.1, h1.2.2.2.2.1.trans h2.2.2.2.2.1,
      h1.2.2.2.2.2.trans h2.2.2.2.2.2⟩

theorem nxt_binit_buf (s : Bcache) (k : Nat) :
    (binit_buf s k).nxt = (insertHead s 0 (Ptr.buf k)).nxt := by
  simp only [binit_buf, initsleeplock]
  rw [nxt_insertHead, nxt_setNext, nxt_setPrev,
    nxt_modify_of_next _ _ (fun x => { x with locked := false }) (fun _ => rfl), nxt_setPrev,
    nxt_setNext]
  rfl

theorem prv_binit_buf (s : Bcache) (k : Nat) :
    (binit_buf s k).prv = (insertHead s 0 (Ptr.buf k)).prv := by
  have e : ((((s.setNext (Ptr.buf k) (s.hashbucket 0).next).setPrev (Ptr.buf k)
      (Ptr.hashbucket 0)).modify (Ptr.buf k) (fun x => { x with locked := false })).hashbucket 0).next
      = s.nxt (Ptr.hashbucket 0) := by
    simp only [hashbucket_eq_get, get_modify, Bcache.setNext, Bcache.setPrev, Bcache.nxt]
    simp
  simp only [binit_buf, initsleeplock]
  rw [prv_insertHead, prv_setNext, prv_setPrev,
    prv_modify_of_prev _ _ (fun x => { x with locked := false }) (fun _ => rfl), prv_setPrev,
    prv_setNext, e]

theorem fields_binit_buf (s : Bcache) (k : Nat) (x : Ptr) :
    ((binit_buf s k).get x).valid = (s.get x).valid ∧ ((binit_buf s k).get x).dev = (s.get x).dev ∧
      ((binit_buf s k).get x).blockno = (s.get x).blockno ∧
      ((binit_buf s k).get x).refcnt = (s.get x).refcnt ∧
      ((binit_buf s k).get x).data = (s.get x).data ∧
      ((binit_buf s k).get x).locked = (if x = Ptr.buf k then false else (s.get x).locked) := by
  simp only [binit_buf, initsleeplock, valid_setNext, valid_setPrev, dev_setNext, dev_setPrev,
    blockno_setNext, blockno_setPrev, refcnt_setNext, refcnt_setPrev, data_setNext, data_setPrev,
    locked_setNext, locked_setPrev, get_modify]
  split_ifs with e
  · subst e; simp
  · simp

@[simp] theorem trace_binit_buf (s : Bcache) (k : Nat) : (binit_buf s k).trace = s.trace := by
  simp [binit_buf, initsleeplock, Bcache.setNext, Bcache.setPrev]

@[simp] theorem disk_binit_buf (s : Bcache) (k : Nat) : (binit_buf s k).disk = s.disk := by
  simp [binit_buf, initsleeplock, Bcache.setNext, Bcache.setPrev]

@[simp] theorem diskLog_binit_buf (s : Bcache) (k : Nat) : (binit_buf s k).diskLog = s.diskLog := by
  simp [binit_buf, initsleeplock, Bcache.setNext, Bcache.setPrev]

@[simp] theorem trace_binit_head (s : Bcache) (i : Fin 13) : (binit_head s i).trace = s.trace := by
  simp [binit_head, Bcache.setNext, Bcache.setPrev]

@[simp] theorem disk_binit_head (s : Bcache) (i : Fin 13) : (binit_head s i).disk = s.disk := by
  simp [binit_head, Bcache.setNext, Bcache.setPrev]

@[simp] theorem diskLog_binit_head (s : Bcache) (i : Fin 13) :
    (binit_head s i).diskLog = s.diskLog := by
  simp [binit_head, Bcache.setNext, Bcache.setPrev]

/-- The state after the second loop of `binit` has handled buffers `0 .. n-1`. -/
theorem binit_bufs_wf (s : Bcache)
    (hs : ∀ i, s.nxt (Ptr.hashbucket i) = Ptr.hashbucket i ∧ s.prv (Ptr.hashbucket i) = Ptr.hashbucket i) :
    ∀ n : Nat, WF ((List.range n).foldl binit_buf s) (initLists n) := by
  intro n
  induction n with
  | zero =>
    refine ⟨fun i => ?_, fun i => ?_, fun i j _ k hk => ?_⟩
    · simp only [initLists, List.range_zero, List.reverse_nil, ite_self, List.foldl_nil]
      exact ⟨(hs i).1, (hs i).2⟩
    · simp [initLists]
    · simp [initLists] at hk
  | succ n ih =>
    rw [List.range_succ, List.foldl_append, List.foldl_cons, List.foldl_nil]
    have hk : ∀ i, n ∉ initLists n i := by
      intro i
      unfold initLists
      split_ifs <;> simp
    have w := (ih.insertHead 0 hk).of_links (nxt_binit_buf _ n) (prv_binit_buf _ n)
    have e : Function.update (initLists n) 0 (n :: initLists n 0) = initLists (n + 1) := by
      funext i
      by_cases hi : i = 0
      · subst hi
        simp [initLists, List.range_succ]
      · simp [initLists, hi]
    rw [e] at w
    exact w

theorem bufs_fields (l : List Nat) :
    ∀ (s : Bcache) (x : Ptr), (∀ k, k ∈ l → (s.get (Ptr.buf k)).locked = false) →
      SameFields ((l.foldl binit_buf s).get x) (s.get x) := by
  induction l with
  | nil => intro s x _; simp [SameFields]
  | cons a l ih =>
    intro s x hl
    rw [List.foldl_cons]
    have f := fields_binit_buf s a
    have h1 := ih (binit_buf s a) x (fun k hk => by
      rw [(f (Ptr.buf k)).2.2.2.2.2]
      split_ifs
      · rfl
      · exact hl k (List.mem_cons_of_mem _ hk))
    have h2 := f x
    unfold SameFields at *
    refine ⟨h1.1.trans h2.1, h1.2.1.trans h2.2.1, h1.2.2.1.trans h2.2.2.1, ?_,
      h1.2.2.2.2.1.trans h2.2.2.2.1, h1.2.2.2.2.2.trans h2.2.2.2.2.1⟩
    rw [h1.2.2.2.1, h2.2.2.2.2.2]
    split_ifs with e
    · rw [e]; exact (hl a (by simp)).symm
    · rfl

/-- Every descriptor is still zeroed after `binit`, links apart. -/
theorem binit_fields (NBUF : Nat) (disk : Nat → Nat → List Nat) (x : Ptr) :
    SameFields ((binit NBUF (bcache0 disk)).get x) zeroBuf := by
  unfold binit
  have h1 := bufs_fields (List.range NBUF) ((List.finRange 13).foldl binit_head (bcache0 disk)) x
    (fun k _ => by
      have := heads_fields (List.finRange 13) (bcache0 disk) (Ptr.buf k)
      rw [this.2.2.2.1]
      rfl)
  have h2 := heads_fields (List.finRange 13) (bcache0 disk) x
  have h3 : (bcache0 disk).get x = zeroBuf := by cases x <;> rfl
  rw [h3] at h2
  unfold SameFields at *
  refine ⟨h1.1.trans h2.1, h1.2.1.trans h2.2.1, h1.2.2.1.trans h2.2.2.1,
    h1.2.2.2.1.trans h2.2.2.2.1, h1.2.2.2.2.1.trans h2.2.2.2.2.1,
    h1.2.2.2.2.2.trans h2.2.2.2.2.2⟩

theorem foldl_binit_head_ghost (l : List (Fin 13)) :
    ∀ s : Bcache, (l.foldl binit_head s).trace = s.trace ∧ (l.foldl binit_head s).disk = s.disk ∧
      (l.foldl binit_head s).diskLog = s.diskLog := by
  induction l with
  | nil => intro s; simp
  | cons a l ih => intro s; rw [List.foldl_cons]; simpa using ih (binit_head s a)

theorem foldl_binit_buf_ghost (l : List Nat) :
    ∀ s : Bcache, (l.foldl binit_buf s).trace = s.trace ∧ (l.foldl binit_buf s).disk = s.disk ∧
      (l.foldl binit_buf s).diskLog = s.diskLog := by
  induction l with
  | nil => intro s; simp
  | cons a l ih => intro s; rw [List.foldl_cons]; simpa using ih (binit_buf s a)

theorem binit_ghost (NBUF : Nat) (disk : Nat → Nat → List Nat) :
    (binit NBUF (bcache0 disk)).trace = [] ∧ (binit NBUF (bcache0 disk)).disk = disk ∧
      (binit NBUF (bcache0 disk)).diskLog = [] := by
  unfold binit
  have h1 := foldl_binit_buf_ghost (List.range NBUF)
    ((List.finRange 13).foldl binit_head (bcache0 disk))
  have h2 := foldl_binit_head_ghost (List.finRange 13) (bcache0 disk)
  exact ⟨h1.1.trans h2.1, h1.2.1.trans h2.2.1, h1.2.2.trans h2.2.2⟩

theorem bucket?_zero : bucket? (bhash (toInt32 0)) = some 0 := by decide

/-- The invariant holds after `binit`. -/
theorem binit_inv (NBUF : Nat) (disk : Nat → Nat → List Nat) :
    Inv NBUF (binit NBUF (bcache0 disk)) (initLists NBUF) :=
  { toWF := binit_bufs_wf _ (heads_looped (List.finRange 13) (bcache0 disk)
      (fun i => Or.inl (List.mem_finRange i))) NBUF
    cover := fun k => by
      constructor
      · intro hk
        exact ⟨0, by simp [initLists, hk]⟩
      · rintro ⟨i, hi⟩
        unfold initLists at hi
        split_ifs at hi
        · simpa using hi
        · simp at hi
    placed := fun i k hk => by
      have hb := (binit_fields NBUF disk (Ptr.buf k)).2.2.1
      rw [buf_eq_get, hb]
      unfold initLists at hk
      split_ifs at hk with hi
      · rw [hi]; exact bucket?_zero
      · simp at hk }

/-! ## More fuel does not change a result -/

theorem bget_cached_mono (s : Bcache) (head : Ptr) (dev blockno : Nat) :
    ∀ (fuel fuel' : Nat) (p : Ptr) (r : Option Ptr), fuel ≤ fuel' →
      bget_cached s head dev blockno fuel p = some r →
      bget_cached s head dev blockno fuel' p = some r
  | 0, _, _, _, _, h => by simp [bget_cached] at h
  | fuel + 1, 0, _, _, hle, _ => by omega
  | fuel + 1, fuel' + 1, p, r, hle, h => by
    simp only [bget_cached] at h ⊢
    split_ifs at h ⊢ with h1 h2
    · exact h
    · exact h
    · exact bget_cached_mono s head dev blockno fuel fuel' _ r (by omega) h

theorem bget_unused_mono (s : Bcache) (head : Ptr) :
    ∀ (fuel fuel' : Nat) (p : Ptr) (r : Option Ptr), fuel ≤ fuel' →
      bget_unused s head fuel p = some r → bget_unused s head fuel' p = some r
  | 0, _, _, _, _, h => by simp [bget_unused] at h
  | fuel + 1, 0, _, _, hle, _ => by omega
  | fuel + 1, fuel' + 1, p, r, hle, h => by
    simp only [bget_unused] at h ⊢
    split_ifs at h ⊢ with h1 h2
    · exact h
    · exact h
    · exact bget_unused_mono s head fuel fuel' _ r (by omega) h

theorem bget_recycle_mono (dev blockno : Nat) (h : Fin 13) (fuel fuel' : Nat) (hle : fuel ≤ fuel') :
    ∀ (n n' : Nat) (s : Bcache) (cur : Int) (b : Ptr) (s' : Bcache), n ≤ n' →
      bget_recycle fuel dev blockno h n s cur = Outcome.ret b s' →
      bget_recycle fuel' dev blockno h n' s cur = Outcome.ret b s'
  | 0, _, _, _, _, _, _, e => by simp [bget_recycle] at e
  | n + 1, 0, _, _, _, _, hn, _ => by omega
  | n + 1, n' + 1, s, cur, b, s', hn, e => by
    rw [bget_recycle] at e ⊢
    split_ifs at e ⊢ with h1
    cases hb : bucket? cur with
    | none => rw [hb] at e; simp at e
    | some nh =>
      rw [hb] at e
      simp only at e ⊢
      cases hs : bget_unused (acquire s nh) (Ptr.hashbucket nh) fuel
          ((acquire s nh).hashbucket nh).prev with
      | none => rw [hs] at e; simp at e
      | some r =>
        rw [hs] at e
        rw [bget_unused_mono _ _ fuel fuel' _ r hle hs]
        cases r with
        | some x => exact e
        | none => exact bget_recycle_mono dev blockno h fuel fuel' hle n n' _ _ b s' (by omega) e

theorem bget_mono {fuel fuel' : Nat} (hle : fuel ≤ fuel') {s s' : Bcache} {dev blockno : Nat}
    {b : Ptr} (e : bget fuel s dev blockno = Outcome.ret b s') :
    bget fuel' s dev blockno = Outcome.ret b s' := by
  unfold bget at e ⊢
  cases hb : bucket? (bhash (toInt32 blockno)) with
  | none => rw [hb] at e; simp at e
  | some h =>
    rw [hb] at e
    simp only at e ⊢
    cases hs : bget_cached (acquire s h) (Ptr.hashbucket h) dev blockno fuel
        ((acquire s h).hashbucket h).next with
    | none => rw [hs] at e; simp at e
    | some r =>
      rw [hs] at e
      rw [bget_cached_mono _ _ _ _ fuel fuel' _ r hle hs]
      cases r with
      | some x => exact e
      | none => exact bget_recycle_mono dev blockno h fuel fuel' hle fuel fuel' _ _ b s' hle e

/-! ## Every returning call keeps the invariant -/

theorem Inv.of_same {NBUF : Nat} {s s' : Bcache} {L : Fin 13 → List Nat} (inv : Inv NBUF s L)
    (hn : s'.nxt = s.nxt) (hp : s'.prv = s.prv)
    (hb : ∀ k, (s'.buf k).blockno = (s.buf k).blockno) : Inv NBUF s' L :=
  { toWF := inv.toWF.of_links hn hp
    cover := inv.cover
    placed := fun i k hk => by rw [hb k]; exact inv.placed i k hk }

/-- The ways in which `bget` returns from a state that satisfies the invariant:
a hit on the first match of the home bucket, or the recycling of the unused
buffer nearest the tail of the first neighbour bucket that has one. -/
theorem bget_ret_cases {NBUF : Nat} {s s' : Bcache} {L : Fin 13 → List Nat} (inv : Inv NBUF s L)
    {fuel dev blockno : Nat} {b : Ptr} (e : bget fuel s dev blockno = Outcome.ret b s') :
    ∃ h, bucket? (bhash (toInt32 blockno)) = some h ∧
      ((∃ k, (L h).find? (isCached s dev blockno) = some k ∧ b = Ptr.buf k ∧
          (s.buf k).locked = false ∧ HitPost NBUF s L k s') ∨
       ((L h).find? (isCached s dev blockno) = none ∧
        ∃ j0 k, j0 < 12 ∧
          (∀ j, j < j0 → (L (neighbour h j)).reverse.find? (isUnused s) = none) ∧
          (L (neighbour h j0)).reverse.find? (isUnused s) = some k ∧ b = Ptr.buf k ∧
          (s.buf k).locked = false ∧ ClaimPost NBUF s L dev blockno h (neighbour h j0) k s')) := by
  have e' : bget (fuel + NBUF + 13) s dev blockno = Outcome.ret b s' := bget_mono (by omega) e
  cases hb : bucket? (bhash (toInt32 blockno)) with
  | none => unfold bget at e; rw [hb] at e; simp at e
  | some h =>
    refine ⟨h, rfl, ?_⟩
    cases hfind : (L h).find? (isCached s dev blockno) with
    | some k =>
      left
      have hscan : scanList (isCached s dev blockno) (fuel + NBUF + 13) (L h) = some (some k) := by
        rw [scanList_of_lt _ _ _ (lt_of_le_of_lt (inv.length_le h) (by omega)), hfind]
      rcases bget_hit inv hb hscan with ⟨_, h2⟩ | ⟨h1, s'', h2, h3⟩
      · rw [h2] at e'; simp at e'
      · rw [h2] at e'
        injection e' with e1 e2
        subst e1 e2
        exact ⟨k, rfl, rfl, h1, h3⟩
    | none =>
      right
      refine ⟨rfl, ?_⟩
      have hscan : scanList (isCached s dev blockno) (fuel + NBUF + 13) (L h) = some none := by
        rw [scanList_of_lt _ _ _ (lt_of_le_of_lt (inv.length_le h) (by omega)), hfind]
      rcases bget_miss inv hb (by omega) (by omega) hscan with
        ⟨_, h2⟩ | ⟨j0, k, h1, h2, h3, ⟨_, h4⟩ | ⟨h4, s'', h5, h6⟩⟩
      · rw [h2] at e'; simp at e'
      · rw [h4] at e'; simp at e'
      · rw [h5] at e'
        injection e' with e1 e2
        subst e1 e2
        exact ⟨j0, k, h1, h2, h3, rfl, h4, h6⟩

theorem bget_ret_inv {NBUF : Nat} {s s' : Bcache} {L : Fin 13 → List Nat} (inv : Inv NBUF s L)
    {fuel dev blockno : Nat} {b : Ptr} (e : bget fuel s dev blockno = Outcome.ret b s') :
    ∃ L', Inv NBUF s' L' := by
  obtain ⟨h, _, ⟨k, _, _, _, hp⟩ | ⟨_, j0, k, _, _, _, _, _, hp⟩⟩ := bget_ret_cases inv e
  · exact ⟨L, hp.1⟩
  · exact ⟨_, hp.1⟩

/-! ## bread -/

theorem get_virtio_read (s : Bcache) (dev : Nat) (b x : Ptr) :
    (virtio_disk_rw s dev b false).get x =
      if x = b then { s.get b with data := s.disk dev (s.get b).blockno } else s.get x := by
  have : (virtio_disk_rw s dev b false).get x =
      (s.modify b (fun x => { x with data := s.disk dev x.blockno })).get x := by
    cases x <;> rfl
  rw [this, get_modify]

theorem get_virtio_write (s : Bcache) (dev : Nat) (b : Ptr) :
    (virtio_disk_rw s dev b true).get = s.get := by
  funext x; cases x <;> rfl

/-- The state in which `bread` returns the buffer `b` that `bget` returned in
state `s1`. -/
theorem bread_ret {fuel : Nat} {s s' : Bcache} {dev blockno : Nat} {b : Ptr} :
    bread fuel s dev blockno = Outcome.ret b s' ↔
      ∃ s1, bget fuel s dev blockno = Outcome.ret b s1 ∧
        s' = if (s1.get b).valid = false then
            (virtio_disk_rw s1 (s1.get b).dev b false).modify b (fun x => { x with valid := true })
          else s1 := by
  unfold bread
  cases hg : bget fuel s dev blockno with
  | ret b1 s1 =>
    simp only
    constructor
    · intro e
      split_ifs at e with hv
      · injection e with e1 e2
        subst e1
        exact ⟨s1, rfl, by rw [if_pos hv]; exact e2.symm⟩
      · injection e with e1 e2
        subst e1
        exact ⟨s1, rfl, by rw [if_neg hv]; exact e2.symm⟩
    · rintro ⟨s2, e, rfl⟩
      injection e with e1 e2
      subst e1 e2
      split_ifs <;> rfl
  | panic m => simp
  | undefined => simp
  | blocked => simp
  | outOfFuel => simp

theorem Inv.bread_tail {NBUF : Nat} {s : Bcache} {L : Fin 13 → List Nat} (inv : Inv NBUF s L)
    (b : Ptr) :
    Inv NBUF (if (s.get b).valid = false then
        (virtio_disk_rw s (s.get b).dev b false).modify b (fun x => { x with valid := true })
      else s) L := by
  split_ifs
  · refine inv.of_same ?_ ?_ ?_
    · funext x
      simp only [Bcache.nxt, get_modify, get_virtio_read]
      split_ifs with h1 <;> simp [h1]
    · funext x
      simp only [Bcache.prv, get_modify, get_virtio_read]
      split_ifs with h1 <;> simp [h1]
    · intro k
      simp only [buf_eq_get, get_modify, get_virtio_read]
      split_ifs with h1 <;> simp [h1]
  · exact inv

/-! ## brelse -/

theorem decr_pos {n : Nat} (h : 0 < n) : decr n = n - 1 := by
  unfold decr
  rw [if_neg (by omega)]

theorem decr_zero : decr 0 = 4294967295 := rfl

/-- Releasing the locked buffer `k` of bucket `n`: the count drops by one, and
the buffer moves to the head of its bucket exactly when the count reaches 0. -/
theorem brelse_spec {NBUF : Nat} {s : Bcache} {L : Fin 13 → List Nat} (inv : Inv NBUF s L)
    {n : Fin 13} {k : Nat} (hk : k ∈ L n) (hl : (s.buf k).locked = true)
    (hpos : 0 < (s.buf k).refcnt) :
    ∃ s', brelse s (Ptr.buf k) = Outcome.ret () s' ∧ BrelsePost s k s' ∧
      Inv NBUF s' (if (s.buf k).refcnt - 1 = 0 then moveToHead L n n k else L) ∧
      s'.trace = s.trace ++ [LockEvent.acquire n, LockEvent.release n] := by
  have hl' : (s.get (Ptr.buf k)).locked = true := hl
  have hdec : decr (s.get (Ptr.buf k)).refcnt = (s.buf k).refcnt - 1 := decr_pos hpos
  have hpl : bucket? (bhash (toInt32 (s.get (Ptr.buf k)).blockno)) = some n := inv.placed n k hk
  have hn1 : ((acquire (releasesleep s (Ptr.buf k)) n).modify (Ptr.buf k)
      (fun x => { x with refcnt := decr x.refcnt })).nxt = s.nxt := by
    rw [nxt_modify_of_next _ _ (fun x => { x with refcnt := decr x.refcnt }) (fun _ => rfl),
      nxt_acquire, releasesleep,
      nxt_modify_of_next _ _ (fun x => { x with locked := false }) (fun _ => rfl)]
  have hp1 : ((acquire (releasesleep s (Ptr.buf k)) n).modify (Ptr.buf k)
      (fun x => { x with refcnt := decr x.refcnt })).prv = s.prv := by
    rw [prv_modify_of_prev _ _ (fun x => { x with refcnt := decr x.refcnt }) (fun _ => rfl),
      prv_acquire, releasesleep,
      prv_modify_of_prev _ _ (fun x => { x with locked := false }) (fun _ => rfl)]
  have hbr : brelse s (Ptr.buf k) =
      if (s.buf k).refcnt - 1 = 0 then
        Outcome.ret () (release (insertHead (unlink ((acquire (releasesleep s (Ptr.buf k)) n).modify
          (Ptr.buf k) (fun x => { x with refcnt := decr x.refcnt })) (Ptr.buf k)) n (Ptr.buf k)) n)
      else
        Outcome.ret () (release ((acquire (releasesleep s (Ptr.buf k)) n).modify (Ptr.buf k)
          (fun x => { x with refcnt := decr x.refcnt })) n) := by
    unfold brelse holdingsleep
    rw [if_neg (by simp [hl'])]
    have : bucket? (bhash (toInt32 ((releasesleep s (Ptr.buf k)).get (Ptr.buf k)).blockno)) = some n := by
      simpa [releasesleep] using hpl
    simp only [this]
    have e : (((acquire (releasesleep s (Ptr.buf k)) n).modify (Ptr.buf k)
        (fun x => { x with refcnt := decr x.refcnt })).get (Ptr.buf k)).refcnt = (s.buf k).refcnt - 1 := by
      simp [releasesleep, buf_eq_get, hdec]
    rw [e]
  rw [hbr]
  by_cases h0 : (s.buf k).refcnt - 1 = 0
  · rw [if_pos h0, if_pos h0]
    refine ⟨_, rfl, ?_, ?_, ?_⟩
    · refine ⟨?_, ?_, ?_, ?_, ?_, ?_, ?_, ?_, ?_⟩
      · simp [buf_eq_get, releasesleep, hdec]
      · simp [buf_eq_get, releasesleep]
      · simp [buf_eq_get, releasesleep]
      · simp [buf_eq_get, releasesleep]
      · simp [buf_eq_get, releasesleep]
      · simp [buf_eq_get, releasesleep]
      · intro x hx
        have : Ptr.buf x ≠ Ptr.buf k := fun e => hx (buf_injective e)
        simp [SameFields, buf_eq_get, releasesleep, this]
      · simp [releasesleep]
      · simp [releasesleep]
    · refine inv.move n hk ?_ ?_ ?_ ?_
      · simp only [nxt_release, nxt_insertHead, nxt_unlink, prv_unlink]
        rw [hn1, hp1]
      · simp only [prv_release, prv_insertHead, nxt_unlink, prv_unlink]
        rw [hn1, hp1]
      · intro x hx
        have : Ptr.buf x ≠ Ptr.buf k := fun e => hx (buf_injective e)
        simp [buf_eq_get, releasesleep, this]
      · simpa [buf_eq_get, releasesleep] using hpl
    · simp [releasesleep]
  · rw [if_neg h0, if_neg h0]
    refine ⟨_, rfl, ?_, ?_, ?_⟩
    · refine ⟨?_, ?_, ?_, ?_, ?_, ?_, ?_, ?_, ?_⟩
      · simp [buf_eq_get, releasesleep, hdec]
      · simp [buf_eq_get, releasesleep]
      · simp [buf_eq_get, releasesleep]
      · simp [buf_eq_get, releasesleep]
      · simp [buf_eq_get, releasesleep]
      · simp [buf_eq_get, releasesleep]
      · intro x hx
        have : Ptr.buf x ≠ Ptr.buf k := fun e => hx (buf_injective e)
        simp [SameFields, buf_eq_get, releasesleep, this]
      · simp [releasesleep]
      · simp [releasesleep]
    · refine inv.of_same ?_ ?_ ?_
      · rw [nxt_release, hn1]
      · rw [prv_release, hp1]
      · intro x
        simp only [buf_eq_get, get_release, get_modify, get_acquire, releasesleep]
        split_ifs with h1 <;> simp [h1]
    · simp [releasesleep]

/-! ## The invariant on reachable states -/

theorem brelse_ret_locked {s s' : Bcache} {b : Ptr} (e : brelse s b = Outcome.ret () s') :
    (s.get b).locked = true := by
  unfold brelse holdingsleep at e
  split_ifs at e with h
  simpa using h

theorem bpin_inv {NBUF : Nat} {s s' : Bcache} {L : Fin 13 → List Nat} (inv : Inv NBUF s L)
    {b : Ptr} (e : bpin s b = Outcome.ret () s') : Inv NBUF s' L := by
  unfold bpin at e
  cases hb : bucket? (bhash (toInt32 (s.get b).blockno)) with
  | none => rw [hb] at e; simp at e
  | some h =>
    rw [hb] at e
    injection e with _ e2
    subst e2
    refine inv.of_same ?_ ?_ ?_
    · rw [nxt_release, nxt_modify_of_next _ _ (fun x => { x with refcnt := x.refcnt + 1 })
        (fun _ => rfl), nxt_acquire]
    · rw [prv_release, prv_modify_of_prev _ _ (fun x => { x with refcnt := x.refcnt + 1 })
        (fun _ => rfl), prv_acquire]
    · intro k
      simp only [buf_eq_get, get_release, get_modify, get_acquire]
      split_ifs with h1 <;> simp [h1]

theorem bunpin_inv {NBUF : Nat} {s s' : Bcache} {L : Fin 13 → List Nat} (inv : Inv NBUF s L)
    {b : Ptr} (e : bunpin s b = Outcome.ret () s') : Inv NBUF s' L := by
  unfold bunpin at e
  cases hb : bucket? (bhash (toInt32 (s.get b).blockno)) with
  | none => rw [hb] at e; simp at e
  | some h =>
    rw [hb] at e
    injection e with _ e2
    subst e2
    refine inv.of_same ?_ ?_ ?_
    · rw [nxt_release, nxt_modify_of_next _ _ (fun x => { x with refcnt := decr x.refcnt })
        (fun _ => rfl), nxt_acquire]
    · rw [prv_release, prv_modify_of_prev _ _ (fun x => { x with refcnt := decr x.refcnt })
        (fun _ => rfl), prv_acquire]
    · intro k
      simp only [buf_eq_get, get_release, get_modify, get_acquire]
      split_ifs with h1 <;> simp [h1]

theorem bwrite_inv {NBUF : Nat} {s s' : Bcache} {L : Fin 13 → List Nat} (inv : Inv NBUF s L)
    {b : Ptr} (e : bwrite s b = Outcome.ret () s') : Inv NBUF s' L := by
  unfold bwrite at e
  split_ifs at e
  injection e with _ e2
  subst e2
  exact inv.of_get_inv (get_virtio_write s _ b)

theorem bread_ret_inv {NBUF : Nat} {s s' : Bcache} {L : Fin 13 → List Nat} (inv : Inv NBUF s L)
    {fuel dev blockno : Nat} {b : Ptr} (e : bread fuel s dev blockno = Outcome.ret b s') :
    ∃ L', Inv NBUF s' L' := by
  obtain ⟨s1, e1, rfl⟩ := bread_ret.1 e
  obtain ⟨L', inv'⟩ := bget_ret_inv inv e1
  exact ⟨L', inv'.bread_tail b⟩

theorem brelse_ret_inv {NBUF : Nat} {s s' : Bcache} {L : Fin 13 → List Nat} (inv : Inv NBUF s L)
    {k : Nat} (hk : k < NBUF) (hpos : 0 < (s.buf k).refcnt)
    (e : brelse s (Ptr.buf k) = Outcome.ret () s') :
    ∃ L', Inv NBUF s' L' := by
  obtain ⟨n, hn⟩ := (inv.cover k).1 hk
  obtain ⟨s'', e', _, inv', _⟩ := brelse_spec inv hn (brelse_ret_locked e) hpos
  rw [e'] at e
  injection e with _ e2
  subst e2
  exact ⟨_, inv'⟩

/-- Every reachable state satisfies the invariant for some bucket lists. -/
theorem reachable_inv {NBUF : Nat} {s : Bcache} (r : Reachable NBUF s) : ∃ L, Inv NBUF s L := by
  induction r with
  | binit disk => exact ⟨_, binit_inv NBUF disk⟩
  | bget _ e ih => obtain ⟨L, inv⟩ := ih; exact bget_ret_inv inv e
  | bread _ e ih => obtain ⟨L, inv⟩ := ih; exact bread_ret_inv inv e
  | bwrite _ _ e ih => obtain ⟨L, inv⟩ := ih; exact ⟨L, bwrite_inv inv e⟩
  | brelse _ hk hp e ih => obtain ⟨L, inv⟩ := ih; exact brelse_ret_inv inv hk hp e
  | bpin _ _ e ih => obtain ⟨L, inv⟩ := ih; exact ⟨L, bpin_inv inv e⟩
  | bunpin _ _ _ e ih => obtain ⟨L, inv⟩ := ih; exact ⟨L, bunpin_inv inv e⟩

/-! ## First match and first unused buffer, spelled out -/

theorem find?_reverse_split {test : Nat → Bool} {l1 l2 : List Nat} {k : Nat} (hk : test k = true)
    (h2 : ∀ x ∈ l2, test x = false) : (l1 ++ k :: l2).reverse.find? test = some k := by
  rw [List.reverse_append, List.reverse_cons, List.append_assoc, List.find?_append]
  have : l2.reverse.find? test = none := by
    rw [List.find?_eq_none]
    intro x hx
    simp [h2 x (List.mem_reverse.1 hx)]
  rw [this]
  simp [hk]

theorem find?_reverse_none {test : Nat → Bool} {l : List Nat} (h : ∀ x ∈ l, test x = false) :
    l.reverse.find? test = none := by
  rw [List.find?_eq_none]
  intro x hx
  simp [h x (List.mem_reverse.1 hx)]

theorem find?_none_of {test : Nat → Bool} {l : List Nat} (h : ∀ x ∈ l, test x = false) :
    l.find? test = none := by
  rw [List.find?_eq_none]
  intro x hx
  simp [h x hx]

/-- Cache miss with a known first unused buffer: `bget` returns that buffer. -/
theorem bget_miss_first {NBUF : Nat} {s : Bcache} {L : Fin 13 → List Nat} (inv : Inv NBUF s L)
    {h : Fin 13} {dev blockno fuel j0 k : Nat} (hh : bucket? (bhash (toInt32 blockno)) = some h)
    (hf : NBUF < fuel) (h13 : 12 < fuel)
    (hmiss : (L h).find? (isCached s dev blockno) = none) (hj : j0 < 12)
    (hbefore : ∀ j, j < j0 → (L (neighbour h j)).reverse.find? (isUnused s) = none)
    (hk : (L (neighbour h j0)).reverse.find? (isUnused s) = some k)
    (hl : (s.buf k).locked = false) :
    ∃ s', bget fuel s dev blockno = Outcome.ret (Ptr.buf k) s' ∧
      ClaimPost NBUF s L dev blockno h (neighbour h j0) k s' := by
  have hscan : scanList (isCached s dev blockno) fuel (L h) = some none := by
    rw [scanList_of_lt _ _ _ (lt_of_le_of_lt (inv.length_le h) hf), hmiss]
  rcases bget_miss inv hh hf h13 hscan with ⟨h1, _⟩ | ⟨j1, k1, h1, h2, h3, h4⟩
  · rw [h1 j0 hj] at hk; simp at hk
  · have hj01 : j1 = j0 := by
      rcases Nat.lt_trichotomy j1 j0 with c | c | c
      · rw [hbefore j1 c] at h3; simp at h3
      · exact c
      · rw [h2 j0 c] at hk; simp at hk
    subst hj01
    rw [hk] at h3
    injection h3 with h3
    subst h3
    rcases h4 with ⟨h5, _⟩ | ⟨_, h6⟩
    · rw [hl] at h5; simp at h5
    · exact h6

/-! ## C1: the panic of bget -/

theorem binit_refcnt (NBUF : Nat) (disk : Nat → Nat → List Nat) (k : Nat) :
    ((binit NBUF (bcache0 disk)).buf k).refcnt = 0 :=
  (binit_fields NBUF disk (Ptr.buf k)).2.2.2.2.1

theorem binit_dev (NBUF : Nat) (disk : Nat → Nat → List Nat) (k : Nat) :
    ((binit NBUF (bcache0 disk)).buf k).dev = 0 :=
  (binit_fields NBUF disk (Ptr.buf k)).2.1

theorem binit_blockno (NBUF : Nat) (disk : Nat → Nat → List Nat) (k : Nat) :
    ((binit NBUF (bcache0 disk)).buf k).blockno = 0 :=
  (binit_fields NBUF disk (Ptr.buf k)).2.2.1

theorem binit_locked (NBUF : Nat) (disk : Nat → Nat → List Nat) (k : Nat) :
    ((binit NBUF (bcache0 disk)).buf k).locked = false :=
  (binit_fields NBUF disk (Ptr.buf k)).2.2.2.1

theorem binit_valid (NBUF : Nat) (disk : Nat → Nat → List Nat) (k : Nat) :
    ((binit NBUF (bcache0 disk)).buf k).valid = false :=
  (binit_fields NBUF disk (Ptr.buf k)).1

theorem initLists_ne_zero (NBUF : Nat) {i : Fin 13} (hi : i ≠ 0) : initLists NBUF i = [] := by
  simp [initLists, hi]

/-- Right after `binit`, a block of device 1 whose number hashes to bucket 0 is
not cached and every buffer is unused, in bucket 0: `bget` panics. -/
theorem bget_after_binit_home_zero (NBUF : Nat) (disk : Nat → Nat → List Nat) (fuel blockno : Nat)
    (hh : bucket? (bhash (toInt32 blockno)) = some 0) (hf : NBUF < fuel) (h13 : 12 < fuel) :
    bget fuel (binit NBUF (bcache0 disk)) 1 blockno = Outcome.panic "bget: no buffers" := by
  have inv := binit_inv NBUF disk
  have hscan : scanList (isCached (binit NBUF (bcache0 disk)) 1 blockno) fuel (initLists NBUF 0) =
      some none := by
    rw [scanList_of_lt _ _ _ (lt_of_le_of_lt (inv.length_le 0) hf), find?_none_of]
    intro x _
    simp [isCached, binit_dev]
  rcases bget_miss inv hh hf h13 hscan with ⟨_, h2⟩ | ⟨j0, k, h1, _, h3, _⟩
  · exact h2
  · rw [initLists_ne_zero NBUF (neighbour_ne_home 0 h1)] at h3
    simp at h3

/-- C1 (defect of the code): in the state right after `binit` with 30 buffers,
block 13 of device 1 is not cached and all 30 buffers have `refcnt == 0`; they
are in bucket 0, the home bucket of block 13, which the recycling loop of
`bget` never scans, and `bget(1, 13)` panics with "bget: no buffers". -/
theorem bget_panics_despite_unused_buffers :
    Reachable 30 (binit 30 (bcache0 (fun _ _ => []))) ∧
      (∀ k, ((binit 30 (bcache0 (fun _ _ => []))).buf k).refcnt = 0) ∧
      (∀ k, ¬ (((binit 30 (bcache0 (fun _ _ => []))).buf k).dev = 1 ∧
        ((binit 30 (bcache0 (fun _ _ => []))).buf k).blockno = 13)) ∧
      Bucket (binit 30 (bcache0 (fun _ _ => []))) 0 (List.range 30).reverse ∧
      bucket? (bhash (toInt32 13)) = some 0 ∧
      bget 31 (binit 30 (bcache0 (fun _ _ => []))) 1 13 = Outcome.panic "bget: no buffers" := by
  refine ⟨Reachable.binit _, fun k => binit_refcnt _ _ k, fun k => ?_, ?_, by decide, ?_⟩
  · rw [binit_dev]; simp
  · have := (binit_inv 30 (fun _ _ => [])).linked 0
    simpa [initLists] using this
  · exact bget_after_binit_home_zero 30 _ 31 13 (by decide) (by omega) (by omega)

/-! ## C3: bhash -/

/-- For block numbers below 2^31 the bucket index is `blockno mod 13`. -/
theorem bhash_small (blockno : Nat) (h : blockno < 2 ^ 31) :
    bhash (toInt32 blockno) = ((blockno % 13 : Nat) : Int) ∧
      bucket? (bhash (toInt32 blockno)) = some ⟨blockno % 13, Nat.mod_lt _ (by decide)⟩ := by
  have e : toInt32 blockno = (blockno : Int) := by
    unfold toInt32
    have : blockno % 2 ^ 32 = blockno := Nat.mod_eq_of_lt (by omega)
    rw [this, if_pos h]
  rw [e, bhash_natCast]
  exact ⟨rfl, bucket?_natCast _ _⟩

/-- C3 (defect of the code): `bhash` takes its argument as a signed `int`; for
the 32-bit unsigned block number 2147483648 = 2^31 the argument is negative and
the C remainder is -11, which is not `2147483648 mod 13 = 11` and not an index
into the 13 buckets and locks: `bget` indexes `bcache.lock` out of bounds. -/
theorem bhash_negative_for_large_blockno :
    (2147483648 : Nat) < 2 ^ 32 ∧ bhash (toInt32 2147483648) = -11 ∧
      (2147483648 : Nat) % 13 = 11 ∧ bucket? (bhash (toInt32 2147483648)) = none ∧
      ∀ (fuel : Nat) (s : Bcache) (dev : Nat), bget fuel s dev 2147483648 = Outcome.undefined := by
  refine ⟨by decide, by decide, by decide, by decide, fun fuel s dev => ?_⟩
  have : bucket? (bhash (toInt32 2147483648)) = none := by decide
  unfold bget
  rw [this]

/-! ## C2: the bucket locks held during bget -/

/-- A run that returned the value `a` is `ret a` with its final state. -/
theorem Outcome.eq_ret {α : Type} (o : Outcome α) (a : α) (h : o.value? = some a) :
    o = Outcome.ret a o.state := by
  cases o <;> simp_all [Outcome.value?, Outcome.state]

theorem trace_acquiresleep {s s' : Bcache} {b b' : Ptr} (e : acquiresleep s b = Outcome.ret b' s') :
    s'.trace = s.trace := by
  unfold acquiresleep at e
  split_ifs at e
  injection e with _ e2
  subst e2
  simp

theorem trace_bget_claim {s s' : Bcache} {dev blockno : Nat} {h nh : Fin 13} {b b' : Ptr}
    (e : bget_claim s dev blockno h nh b = Outcome.ret b' s') :
    s'.trace = s.trace ++ [LockEvent.release nh, LockEvent.release h] := by
  unfold bget_claim at e
  rw [trace_acquiresleep e]
  simp

theorem trace_bget_recycle (fuel dev blockno : Nat) (h : Fin 13) :
    ∀ (n : Nat) (s : Bcache) (cur : Int) (b : Ptr) (s' : Bcache),
      bget_recycle fuel dev blockno h n s cur = Outcome.ret b s' →
      ∃ visited, h ∉ visited ∧ visited ≠ [] ∧
        s'.trace = s.trace ++ (visitEvents visited ++ [LockEvent.release h])
  | 0, _, _, _, _, e => by simp [bget_recycle] at e
  | n + 1, s, cur, b, s', e => by
    rw [bget_recycle] at e
    split_ifs at e with h1
    cases hb : bucket? cur with
    | none => rw [hb] at e; simp at e
    | some nh =>
      rw [hb] at e
      simp only at e
      have hne : h ≠ nh := by
        intro c
        apply h1
        rw [bucket?_eq_some hb, c]
      cases hs : bget_unused (acquire s nh) (Ptr.hashbucket nh) fuel
          ((acquire s nh).hashbucket nh).prev with
      | none => rw [hs] at e; simp at e
      | some r =>
        rw [hs] at e
        cases r with
        | some x =>
          refine ⟨[nh], by simpa using hne, by simp, ?_⟩
          rw [trace_bget_claim e]
          simp [visitEvents]
        | none =>
          obtain ⟨visited, h2, _, h3⟩ := trace_bget_recycle fuel dev blockno h n _ _ b s' e
          refine ⟨nh :: visited, ?_, by simp, ?_⟩
          · simp only [List.mem_cons, not_or]
            exact ⟨hne, h2⟩
          · rw [h3]
            simp [visitEvents]

/-- The lock events of a returning `bget`: the home lock is acquired first and
released last; in between, the neighbour buckets that were scanned (none on a
cache hit) are acquired and released one after the other. -/
theorem trace_bget {fuel : Nat} {s s' : Bcache} {dev blockno : Nat} {b : Ptr}
    (e : bget fuel s dev blockno = Outcome.ret b s') :
    ∃ h visited, bucket? (bhash (toInt32 blockno)) = some h ∧ h ∉ visited ∧
      s'.trace = s.trace ++ (LockEvent.acquire h :: (visitEvents visited ++ [LockEvent.release h])) := by
  unfold bget at e
  cases hb : bucket? (bhash (toInt32 blockno)) with
  | none => rw [hb] at e; simp at e
  | some h =>
    rw [hb] at e
    simp only at e
    cases hs : bget_cached (acquire s h) (Ptr.hashbucket h) dev blockno fuel
        ((acquire s h).hashbucket h).next with
    | none => rw [hs] at e; simp at e
    | some r =>
      rw [hs] at e
      cases r with
      | some x =>
        refine ⟨h, [], rfl, by simp, ?_⟩
        rw [trace_acquiresleep e]
        simp [visitEvents]
      | none =>
        obtain ⟨visited, h2, _, h3⟩ := trace_bget_recycle fuel dev blockno h fuel _ _ b s' e
        refine ⟨h, visited, rfl, h2, ?_⟩
        rw [h3]
        simp

theorem foldl_visit_take (h : Fin 13) :
    ∀ (visited : List (Fin 13)) (n : Nat),
      List.foldl holdStep [h] ((visitEvents visited).take n) = [h] ∨
        ∃ v, v ∈ visited ∧ List.foldl holdStep [h] ((visitEvents visited).take n) = [v, h]
  | [], n => by simp [visitEvents]
  | v :: visited, 0 => by simp
  | v :: visited, 1 => by
    right
    exact ⟨v, by simp, by simp [visitEvents, holdStep]⟩
  | v :: visited, n + 2 => by
    have e : List.foldl holdStep [h] ((visitEvents (v :: visited)).take (n + 2)) =
        List.foldl holdStep [h] ((visitEvents visited).take n) := by
      simp [visitEvents, holdStep]
    rw [e]
    rcases foldl_visit_take h visited n with h1 | ⟨w, h1, h2⟩
    · exact Or.inl h1
    · exact Or.inr ⟨w, List.mem_cons_of_mem _ h1, h2⟩

theorem foldl_visit_all (h : Fin 13) :
    ∀ visited : List (Fin 13), List.foldl holdStep [h] (visitEvents visited) = [h]
  | [] => rfl
  | v :: visited => by
    have e : List.foldl holdStep [h] (visitEvents (v :: visited)) =
        List.foldl holdStep [h] (visitEvents visited) := by
      simp [visitEvents, holdStep]
    rw [e]
    exact foldl_visit_all h visited

theorem length_visitEvents : ∀ visited : List (Fin 13), (visitEvents visited).length = 2 * visited.length
  | [] => rfl
  | v :: visited => by simp [visitEvents, length_visitEvents visited]; omega

/-- The locks held after each prefix of the lock events of one `bget`. -/
theorem held_during_bget (h : Fin 13) (visited : List (Fin 13)) (n : Nat) :
    (n = 0 ∧ heldAfter ((LockEvent.acquire h :: (visitEvents visited ++ [LockEvent.release h])).take n) = []) ∨
    (0 < n ∧ n ≤ 2 * visited.length + 1 ∧
      (heldAfter ((LockEvent.acquire h :: (visitEvents visited ++ [LockEvent.release h])).take n) = [h] ∨
       ∃ v, v ∈ visited ∧
        heldAfter ((LockEvent.acquire h :: (visitEvents visited ++ [LockEvent.release h])).take n) = [v, h])) ∨
    (2 * visited.length + 1 < n ∧
      heldAfter ((LockEvent.acquire h :: (visitEvents visited ++ [LockEvent.release h])).take n) = []) := by
  cases n with
  | zero => left; exact ⟨rfl, rfl⟩
  | succ n =>
    right
    have e0 : heldAfter ((LockEvent.acquire h :: (visitEvents visited ++ [LockEvent.release h])).take (n + 1)) =
        List.foldl holdStep [h] ((visitEvents visited ++ [LockEvent.release h]).take n) := by
      simp [heldAfter, holdStep]
    rw [e0]
    by_cases hn : n ≤ 2 * visited.length
    · left
      refine ⟨by omega, by omega, ?_⟩
      rw [List.take_append_of_le_length (by rw [length_visitEvents]; exact hn)]
      exact foldl_visit_take h visited n
    · right
      refine ⟨by omega, ?_⟩
      rw [List.take_of_length_le (by simp [length_visitEvents]; omega), List.foldl_append,
        foldl_visit_all]
      simp [holdStep]

/-- In the state right after `binit` (30 buffers), the call `bget(1, 5)` returns,
and after its first two lock operations the caller holds the locks of bucket 5
(home) and bucket 6 (neighbour) at the same time. -/
theorem bget_holds_two_bucket_locks :
    bootState.trace = [] ∧ (bget 31 bootState 1 5).value? = some (Ptr.buf 0) ∧
      (bget 31 bootState 1 5).state.trace.take 2 = [LockEvent.acquire 5, LockEvent.acquire 6] ∧
      heldAfter ((bget 31 bootState 1 5).state.trace.take 2) = [6, 5] := by
  decide

/-- The lock operations of a returning `bget` are: acquire the home lock; then,
for each neighbour bucket scanned, acquire and release its lock; then release
the home lock.  So at every point of the call the caller holds at
most two bucket locks, the home lock from the first operation until the last and
at most one neighbour lock besides it; the neighbour lock is released before the
home lock, which is never released and acquired again in between, and no lock is
held when `bget` returns. -/
theorem bget_lock_discipline (fuel : Nat) (s s' : Bcache) (dev blockno : Nat) (b : Ptr)
    (e : bget fuel s dev blockno = Outcome.ret b s') :
    ∃ h visited evs, bucket? (bhash (toInt32 blockno)) = some h ∧ h ∉ visited ∧
      evs = LockEvent.acquire h :: (visitEvents visited ++ [LockEvent.release h]) ∧
      s'.trace = s.trace ++ evs ∧
      (∀ n, (heldAfter (evs.take n)).length ≤ 2) ∧
      (∀ n, 0 < n → n < evs.length → h ∈ heldAfter (evs.take n)) ∧
      (∀ n, ∀ i ∈ heldAfter (evs.take n), i = h ∨ i ∈ visited) ∧
      heldAfter evs = [] := by
  obtain ⟨h, visited, hb, hv, ht⟩ := trace_bget e
  refine ⟨h, visited, _, hb, hv, rfl, ht, ?_, ?_, ?_, ?_⟩
  · intro n
    rcases held_during_bget h visited n with ⟨_, h1⟩ | ⟨_, _, h1 | ⟨v, _, h1⟩⟩ | ⟨_, h1⟩ <;>
      rw [h1] <;> simp
  · intro n h0 hn
    have hlen : (LockEvent.acquire h :: (visitEvents visited ++ [LockEvent.release h])).length =
        2 * visited.length + 2 := by
      simp [length_visitEvents]
    rw [hlen] at hn
    rcases held_during_bget h visited n with ⟨h1, _⟩ | ⟨_, _, h1 | ⟨v, _, h1⟩⟩ | ⟨h1, _⟩
    · omega
    · rw [h1]; simp
    · rw [h1]; simp
    · omega
  · intro n i hi
    rcases held_during_bget h visited n with ⟨_, h1⟩ | ⟨_, _, h1 | ⟨v, hv', h1⟩⟩ | ⟨_, h1⟩ <;>
      rw [h1] at hi
    · simp at hi
    · left; simpa using hi
    · simp only [List.mem_cons, List.mem_singleton, List.not_mem_nil, or_false] at hi
      rcases hi with rfl | rfl
      · exact Or.inr hv'
      · exact Or.inl rfl
    · simp at hi
  · rcases held_during_bget h visited (2 * visited.length + 2) with ⟨h1, _⟩ | ⟨_, h1, _⟩ | ⟨_, h1⟩
    · omega
    · omega
    · rw [List.take_of_length_le (by simp [length_visitEvents])] at h1
      exact h1

/-- Example of `bget_lock_discipline`: the call `bget(1, 5)` right after `binit`
(30 buffers). -/
theorem bget_lock_discipline_witness :
    ∃ h visited evs, bucket? (bhash (toInt32 5)) = some h ∧ h ∉ visited ∧
      evs = LockEvent.acquire h :: (visitEvents visited ++ [LockEvent.release h]) ∧
      (bget 31 bootState 1 5).state.trace = bootState.trace ++ evs ∧
      (∀ n, (heldAfter (evs.take n)).length ≤ 2) ∧
      (∀ n, 0 < n → n < evs.length → h ∈ heldAfter (evs.take n)) ∧
      (∀ n, ∀ i ∈ heldAfter (evs.take n), i = h ∨ i ∈ visited) ∧
      heldAfter evs = [] :=
  bget_lock_discipline 31 bootState (bget 31 bootState 1 5).state 1 5 (Ptr.buf 0)
    (Outcome.eq_ret _ _ (by decide))

/-! ## C4: cache hit after a release -/

theorem moveToHead_home (L : Fin 13 → List Nat) (n h : Fin 13) (k : Nat) :
    moveToHead L n h k h = k :: Function.update L n ((L n).erase k) h := by
  simp [moveToHead]

theorem moveToHead_other (L : Fin 13 → List Nat) (n h : Fin 13) (k : Nat) {i : Fin 13}
    (hi : i ≠ h) : moveToHead L n h k i = Function.update L n ((L n).erase k) i := by
  simp [moveToHead, hi]

/-- The fields of the buffers after the part of `bread` that follows `bget`. -/
theorem bread_tail_fields (s : Bcache) (b x : Ptr) :
    let s' := if (s.get b).valid = false then
        (virtio_disk_rw s (s.get b).dev b false).modify b (fun y => { y with valid := true })
      else s
    (s'.get x).dev = (s.get x).dev ∧ (s'.get x).blockno = (s.get x).blockno ∧
      (s'.get x).locked = (s.get x).locked ∧ (s'.get x).refcnt = (s.get x).refcnt ∧
      (s'.get x).valid = (if x = b then true else (s.get x).valid) := by
  intro s'
  by_cases hv : (s.get b).valid = false
  · have e : s' = (virtio_disk_rw s (s.get b).dev b false).modify b
        (fun y => { y with valid := true }) := if_pos hv
    rw [e]
    simp only [get_modify, get_virtio_read]
    by_cases hx : x = b
    · subst hx; simp
    · simp [hx]
  · have e : s' = s := if_neg hv
    rw [e]
    by_cases hx : x = b
    · subst hx; simpa using hv
    · simp [hx]

theorem bget_zero (s : Bcache) (dev blockno : Nat) (b : Ptr) (s' : Bcache) :
    bget 0 s dev blockno ≠ Outcome.ret b s' := by
  intro e
  unfold bget at e
  cases hb : bucket? (bhash (toInt32 blockno)) with
  | none => rw [hb] at e; simp at e
  | some h => rw [hb] at e; simp [bget_cached] at e

/-- A second `bread` of a block whose buffer `k` is in the home bucket `h`, not
locked and valid, and is found by the scan of the home bucket: it returns `k`
without a disk read. -/
theorem bread_hit_valid {NBUF : Nat} {s : Bcache} {L : Fin 13 → List Nat} (inv : Inv NBUF s L)
    {h : Fin 13} {dev blockno fuel k : Nat} (hh : bucket? (bhash (toInt32 blockno)) = some h)
    (hscan : scanList (isCached s dev blockno) fuel (L h) = some (some k))
    (hl : (s.buf k).locked = false) (hv : (s.buf k).valid = true) :
    ∃ s', bread fuel s dev blockno = Outcome.ret (Ptr.buf k) s' ∧ s'.diskLog = s.diskLog := by
  rcases bget_hit inv hh hscan with ⟨h1, _⟩ | ⟨_, s', h2, h3⟩
  · rw [hl] at h1; simp at h1
  · refine ⟨s', ?_, h3.2.2.2.2.2.2.2.2.2⟩
    have hv' : (s'.get (Ptr.buf k)).valid = true := by
      have := h3.2.2.2.2.2.1
      rw [hv] at this
      exact this
    unfold bread
    rw [h2]
    simp [hv']

/-- C4: in every state reachable from `binit`, if `bread(dev, blockno)` returns
the buffer `b`, then `brelse(b)` returns, and a following `bread(dev, blockno)`
(no other call in between, same fuel) returns the same buffer `b` and sends no
request to the disk driver. -/
theorem bread_brelse_bread_same_buffer (NBUF fuel : Nat) (s s1 : Bcache) (dev blockno : Nat)
    (b : Ptr) (r : Reachable NBUF s) (e : bread fuel s dev blockno = Outcome.ret b s1) :
    ∃ s2, brelse s1 b = Outcome.ret () s2 ∧
      ∃ s3, bread fuel s2 dev blockno = Outcome.ret b s3 ∧ s3.diskLog = s2.diskLog := by
  obtain ⟨L, inv⟩ := reachable_inv r
  obtain ⟨sg, eg, rfl⟩ := bread_ret.1 e
  obtain ⟨fuel, rfl⟩ : ∃ f, fuel = f + 1 := by
    cases fuel with
    | zero => exact absurd eg (bget_zero _ _ _ _ _)
    | succ f => exact ⟨f, rfl⟩
  obtain ⟨h, hh, hcase⟩ := bget_ret_cases inv eg
  -- what both ways of returning have in common
  have common : ∃ k L1, b = Ptr.buf k ∧ Inv NBUF sg L1 ∧ k ∈ L1 h ∧ (sg.buf k).locked = true ∧
      (sg.buf k).dev = dev ∧ (sg.buf k).blockno = blockno ∧ 0 < (sg.buf k).refcnt ∧
      ((sg.buf k).refcnt - 1 ≠ 0 →
        scanList (isCached sg dev blockno) (fuel + 1) (L1 h) = some (some k)) := by
    rcases hcase with ⟨k, hfind, rfl, _, hp⟩ | ⟨hfind, j0, k, hj, _, hk, rfl, _, hp⟩
    · have hmem : k ∈ L h := List.mem_of_find?_eq_some hfind
      have htest : isCached s dev blockno k = true := List.find?_some hfind
      simp only [isCached, decide_eq_true_eq] at htest
      refine ⟨k, L, rfl, hp.1, hmem, hp.2.2.1, hp.2.2.2.1.trans htest.1,
        hp.2.2.2.2.1.trans htest.2, by rw [hp.2.1]; omega, fun _ => ?_⟩
      have hc : isCached sg dev blockno = isCached s dev blockno := by
        funext x
        by_cases hx : x = k
        · subst hx
          simp [isCached, hp.2.2.2.1, hp.2.2.2.2.1]
        · have := hp.2.2.2.2.2.2.2.1 x hx
          simp [isCached, this.2.1, this.2.2.1]
      rw [hc]
      have hb := bget_home inv.toWF dev blockno (fuel + 1) hh
      cases hs : scanList (isCached s dev blockno) (fuel + 1) (L h) with
      | none => rw [hs, eg] at hb; simp at hb
      | some r =>
        have := scanList_some _ _ _ _ hs
        rw [hfind] at this
        rw [← this]
    · have hne : neighbour h j0 ≠ h := neighbour_ne_home h hj
      have hmem : k ∈ moveToHead L (neighbour h j0) h k h := by
        rw [moveToHead_home]; simp
      refine ⟨k, _, rfl, hp.1, hmem, hp.2.2.2.2.2.1, hp.2.1, hp.2.2.1,
        by rw [hp.2.2.2.2.1]; omega, fun hc => ?_⟩
      rw [hp.2.2.2.2.1] at hc
      exact absurd rfl hc
  obtain ⟨k, L1, rfl, inv1, hk1, hl1, hd1, hb1, hposg, hstay⟩ := common
  -- the state in which the first bread returned
  have tf := bread_tail_fields sg (Ptr.buf k)
  have inv1' := inv1.bread_tail (Ptr.buf k)
  set s1 := (if (sg.get (Ptr.buf k)).valid = false then
      (virtio_disk_rw sg (sg.get (Ptr.buf k)).dev (Ptr.buf k) false).modify (Ptr.buf k)
        (fun y => { y with valid := true })
    else sg) with hs1
  have hl1' : (s1.buf k).locked = true := (tf (Ptr.buf k)).2.2.1.trans hl1
  have hpos1 : 0 < (s1.buf k).refcnt := by
    have h2 : (s1.buf k).refcnt = (sg.buf k).refcnt := (tf (Ptr.buf k)).2.2.2.1
    rw [h2]; exact hposg
  obtain ⟨s2, e2, post2, inv2, _⟩ := brelse_spec inv1' hk1 hl1' hpos1
  refine ⟨s2, e2, ?_⟩
  have hd2 : (s2.buf k).dev = dev := (post2.2.2.1.trans (tf (Ptr.buf k)).1).trans hd1
  have hb2 : (s2.buf k).blockno = blockno := (post2.2.2.2.1.trans (tf (Ptr.buf k)).2.1).trans hb1
  have hv2 : (s2.buf k).valid = true := by
    rw [post2.2.2.2.2.1]
    have := (tf (Ptr.buf k)).2.2.2.2
    simpa using this
  have htest2 : isCached s2 dev blockno k = true := by simp [isCached, hd2, hb2]
  have hr1 : (s1.buf k).refcnt = (sg.buf k).refcnt := (tf (Ptr.buf k)).2.2.2.1
  by_cases hz : (s1.buf k).refcnt - 1 = 0
  · rw [if_pos hz] at inv2
    have hscan : scanList (isCached s2 dev blockno) (fuel + 1) (moveToHead L1 h h k h) =
        some (some k) := by
      rw [moveToHead_home]
      simp [scanList, htest2]
    exact bread_hit_valid inv2 hh hscan post2.2.1 hv2
  · rw [if_neg hz] at inv2
    have hc : isCached s2 dev blockno = isCached sg dev blockno := by
      funext x
      by_cases hx : x = k
      · subst hx
        simp [isCached, hd2, hb2, hd1, hb1]
      · have h1 := post2.2.2.2.2.2.2.1 x hx
        have h2 := tf (Ptr.buf x)
        simp only [isCached, h1.2.1, h1.2.2.1]
        rw [buf_eq_get s1, h2.1, h2.2.1]
        rfl
    have hscan : scanList (isCached s2 dev blockno) (fuel + 1) (L1 h) = some (some k) := by
      rw [hc]
      exact hstay (by rw [← hr1]; exact hz)
    exact bread_hit_valid inv2 hh hscan post2.2.1 hv2

/-- C4, witness: `bread(1, 5)` right after `binit` with 30 buffers returns
buffer 0. -/
theorem bread_brelse_bread_same_buffer_witness :
    ∃ s2, brelse afterRead (Ptr.buf 0) = Outcome.ret () s2 ∧
      ∃ s3, bread 31 s2 1 5 = Outcome.ret (Ptr.buf 0) s3 ∧ s3.diskLog = s2.diskLog :=
  bread_brelse_bread_same_buffer 30 31 bootState afterRead 1 5 (Ptr.buf 0)
    (Reachable.binit _) (Outcome.eq_ret _ _ (by decide))

/-! ## C5: the partition of the buffers into bucket lists -/

theorem Linked.local_links {nx pv : Ptr → Ptr} {a z : Ptr} {l : List Ptr}
    (h : Linked nx pv a l z) :
    (∀ x ∈ a :: l, pv (nx x) = x) ∧ (∀ y ∈ l ++ [z], nx (pv y) = y) := by
  induction l generalizing a with
  | nil =>
    obtain ⟨h1, h2⟩ := h
    constructor
    · intro x hx
      simp only [List.mem_singleton] at hx
      subst hx
      rw [h1, h2]
    · intro y hy
      simp only [List.nil_append, List.mem_singleton] at hy
      subst hy
      rw [h2, h1]
  | cons c l ih =>
    obtain ⟨h1, h2, h3⟩ := h
    obtain ⟨i1, i2⟩ := ih h3
    constructor
    · intro x hx
      rcases List.mem_cons.1 hx with rfl | hx
      · rw [h1, h2]
      · exact i1 x hx
    · intro y hy
      rw [List.cons_append] at hy
      rcases List.mem_cons.1 hy with rfl | hy
      · rw [h2, h1]
      · exact i2 y hy

/-- The pointers determine the list of a bucket. -/
theorem Linked.buf_list_unique {nx pv : Ptr → Ptr} {i : Fin 13} :
    ∀ {l l' : List Nat} {a : Ptr}, Linked nx pv a (l.map Ptr.buf) (Ptr.hashbucket i) →
      Linked nx pv a (l'.map Ptr.buf) (Ptr.hashbucket i) → l = l'
  | [], [], _, _, _ => rfl
  | [], k :: l', a, h, h' => by
    have h1 : nx a = Ptr.hashbucket i := h.1
    have h2 : nx a = Ptr.buf k := h'.1
    rw [h1] at h2
    cases h2
  | k :: l, [], a, h, h' => by
    have h1 : nx a = Ptr.hashbucket i := h'.1
    have h2 : nx a = Ptr.buf k := h.1
    rw [h1] at h2
    cases h2
  | k :: l, k' :: l', a, h, h' => by
    have h1 : nx a = Ptr.buf k := h.1
    have h2 : nx a = Ptr.buf k' := h'.1
    rw [h1] at h2
    injection h2 with h2
    subst h2
    rw [Linked.buf_list_unique h.2.2 h'.2.2]

theorem Bucket.list_unique {s : Bcache} {i : Fin 13} {l l' : List Nat} (h : Bucket s i l)
    (h' : Bucket s i l') : l = l' :=
  Linked.buf_list_unique h h'

/-- C5: in every state reachable from `binit` by returning calls of
`bget` / `bread`, `bwrite`, `brelse`, `bpin` and `bunpin`, there are thirteen
lists `L 0 .. L 12` of buffers such that bucket `i` is linked, through its
sentinel, as the circular doubly-linked list `L i` (and `L i` is the only such
list); each of the `NBUF` buffers occurs exactly once in exactly one list, and
nothing else occurs; and `x.next.prev = x`, `x.prev.next = x` for every sentinel
and every buffer. -/
theorem partition_invariant (NBUF : Nat) (s : Bcache) (r : Reachable NBUF s) :
    ∃ L : Fin 13 → List Nat,
      (∀ i, Bucket s i (L i) ∧ ∀ l, Bucket s i l → l = L i) ∧
      (∀ k, k < NBUF → ∃ i, (L i).count k = 1 ∧ ∀ j, j ≠ i → (L j).count k = 0) ∧
      (∀ i k, k ∈ L i → k < NBUF) ∧
      (∀ i, s.prv (s.nxt (Ptr.hashbucket i)) = Ptr.hashbucket i ∧
        s.nxt (s.prv (Ptr.hashbucket i)) = Ptr.hashbucket i) ∧
      (∀ k, k < NBUF → s.prv (s.nxt (Ptr.buf k)) = Ptr.buf k ∧
        s.nxt (s.prv (Ptr.buf k)) = Ptr.buf k) := by
  obtain ⟨L, inv⟩ := reachable_inv r
  refine ⟨L, fun i => ⟨inv.linked i, fun l hl => Bucket.list_unique hl (inv.linked i)⟩, ?_,
    fun i k hk => (inv.cover k).2 ⟨i, hk⟩, ?_, ?_⟩
  · intro k hk
    obtain ⟨i, hi⟩ := (inv.cover k).1 hk
    refine ⟨i, List.count_eq_one_of_mem (inv.nodup i) hi, fun j hj => ?_⟩
    exact List.count_eq_zero_of_not_mem (inv.disjoint i j (Ne.symm hj) k hi)
  · intro i
    have := (inv.linked i).local_links
    exact ⟨this.1 _ (by simp), this.2 _ (by simp)⟩
  · intro k hk
    obtain ⟨i, hi⟩ := (inv.cover k).1 hk
    have := (inv.linked i).local_links
    have hm : Ptr.buf k ∈ (L i).map Ptr.buf := List.mem_map_of_mem _ hi
    exact ⟨this.1 _ (List.mem_cons_of_mem _ hm), this.2 _ (List.mem_append_left _ hm)⟩

theorem bootState_reachable : Reachable 30 bootState := Reachable.binit _

theorem afterRead_reachable : Reachable 30 afterRead :=
  Reachable.bread bootState_reachable
    (Outcome.eq_ret (bread 31 bootState 1 5) (Ptr.buf 0) (by decide))

theorem afterRelease_reachable : Reachable 30 afterRelease :=
  Reachable.brelse afterRead_reachable (by decide) (by decide)
    (Outcome.eq_ret (brelse afterRead (Ptr.buf 0)) () (by decide))

/-- C5, witness: the state after `binit`, `bread(1, 5)` and `brelse` on a cache
of 30 buffers. -/
theorem partition_invariant_witness :
    ∃ L : Fin 13 → List Nat,
      (∀ i, Bucket afterRelease i (L i) ∧ ∀ l, Bucket afterRelease i l → l = L i) ∧
      (∀ k, k < 30 → ∃ i, (L i).count k = 1 ∧ ∀ j, j ≠ i → (L j).count k = 0) ∧
      (∀ i k, k ∈ L i → k < 30) ∧
      (∀ i, afterRelease.prv (afterRelease.nxt (Ptr.hashbucket i)) = Ptr.hashbucket i ∧
        afterRelease.nxt (afterRelease.prv (Ptr.hashbucket i)) = Ptr.hashbucket i) ∧
      (∀ k, k < 30 → afterRelease.prv (afterRelease.nxt (Ptr.buf k)) = Ptr.buf k ∧
        afterRelease.nxt (afterRelease.prv (Ptr.buf k)) = Ptr.buf k) :=
  partition_invariant 30 afterRelease afterRelease_reachable

/-! ## C6: bget leaves referenced buffers alone -/

theorem bget_unused_refcnt (s : Bcache) (head : Ptr) :
    ∀ (fuel : Nat) (p b : Ptr), bget_unused s head fuel p = some (some b) → (s.get b).refcnt = 0
  | 0, _, _, h => by simp [bget_unused] at h
  | fuel + 1, p, b, h => by
    simp only [bget_unused] at h
    split_ifs at h with h1 h2
    · simp at h
    · simp only [Option.some.injEq] at h
      subst h
      exact h2
    · exact bget_unused_refcnt s head fuel _ b h

theorem bget_cached_match (s : Bcache) (head : Ptr) (dev blockno : Nat) :
    ∀ (fuel : Nat) (p b : Ptr), bget_cached s head dev blockno fuel p = some (some b) →
      (s.get b).dev = dev ∧ (s.get b).blockno = blockno
  | 0, _, _, h => by simp [bget_cached] at h
  | fuel + 1, p, b, h => by
    simp only [bget_cached] at h
    split_ifs at h with h1 h2
    · simp at h
    · simp only [Option.some.injEq] at h
      subst h
      exact h2
    · exact bget_cached_match s head dev blockno fuel _ b h

/-- What the body of the recycling loop does to the fields of the descriptors:
the claimed one gets the new identity, count 1 and the sleep-lock; all others
keep their fields. -/
theorem bget_claim_fields {s s' : Bcache} {dev blockno : Nat} {h nh : Fin 13} {b b' : Ptr}
    (e : bget_claim s dev blockno h nh b = Outcome.ret b' s') :
    b' = b ∧ (s'.get b).dev = dev ∧ (s'.get b).blockno = blockno ∧ (s'.get b).valid = false ∧
      (s'.get b).refcnt = 1 ∧ (s'.get b).locked = true ∧ s'.diskLog = s.diskLog ∧
      ∀ x, x ≠ b → SameFields (s'.get x) (s.get x) := by
  unfold bget_claim acquiresleep at e
  simp only at e
  split_ifs at e
  injection e with e1 e2
  subst e1 e2
  refine ⟨rfl, by simp, by simp, by simp, by simp, by simp, by simp, fun x hx => ?_⟩
  simp [SameFields, hx]

theorem bget_recycle_fields (fuel dev blockno : Nat) (h : Fin 13) :
    ∀ (n : Nat) (s : Bcache) (cur : Int) (b : Ptr) (s' : Bcache),
      bget_recycle fuel dev blockno h n s cur = Outcome.ret b s' →
      (s.get b).refcnt = 0 ∧ (s'.get b).dev = dev ∧ (s'.get b).blockno = blockno ∧
        (s'.get b).valid = false ∧ (s'.get b).refcnt = 1 ∧ (s'.get b).locked = true ∧
        s'.diskLog = s.diskLog ∧ ∀ x, x ≠ b → SameFields (s'.get x) (s.get x)
  | 0, _, _, _, _, e => by simp [bget_recycle] at e
  | n + 1, s, cur, b, s', e => by
    rw [bget_recycle] at e
    split_ifs at e with h1
    cases hb : bucket? cur with
    | none => rw [hb] at e; simp at e
    | some nh =>
      rw [hb] at e
      simp only at e
      cases hs : bget_unused (acquire s nh) (Ptr.hashbucket nh) fuel
          ((acquire s nh).hashbucket nh).prev with
      | none => rw [hs] at e; simp at e
      | some r =>
        rw [hs] at e
        cases r with
        | some x =>
          simp only at e
          have h0 := bget_unused_refcnt _ _ _ _ _ hs
          obtain ⟨rfl, f⟩ := bget_claim_fields e
          simp only [get_acquire, diskLog_acquire] at h0 f
          exact ⟨h0, f⟩
        | none =>
          have := bget_recycle_fields fuel dev blockno h n _ _ b s' e
          simpa using this

/-- The fields of the descriptors after a returning `bget`. -/
theorem bget_fields {fuel : Nat} {s s' : Bcache} {dev blockno : Nat} {b : Ptr}
    (e : bget fuel s dev blockno = Outcome.ret b s') :
    (s'.get b).dev = dev ∧ (s'.get b).blockno = blockno ∧ 1 ≤ (s'.get b).refcnt ∧
      (s'.get b).locked = true ∧ s'.diskLog = s.diskLog ∧
      (∀ x, x ≠ b → SameFields (s'.get x) (s.get x)) ∧
      ((s.get b).refcnt ≠ 0 → (s'.get b).dev = (s.get b).dev ∧
        (s'.get b).blockno = (s.get b).blockno ∧ (s'.get b).valid = (s.get b).valid) := by
  unfold bget at e
  cases hb : bucket? (bhash (toInt32 blockno)) with
  | none => rw [hb] at e; simp at e
  | some h =>
    rw [hb] at e
    simp only at e
    cases hs : bget_cached (acquire s h) (Ptr.hashbucket h) dev blockno fuel
        ((acquire s h).hashbucket h).next with
    | none => rw [hs] at e; simp at e
    | some r =>
      rw [hs] at e
      cases r with
      | some x =>
        simp only at e
        have hm := bget_cached_match _ _ _ _ _ _ _ hs
        simp only [get_acquire] at hm
        unfold acquiresleep at e
        split_ifs at e
        injection e with e1 e2
        subst e1 e2
        refine ⟨by simpa using hm.1, by simpa using hm.2, by simp, by simp, by simp,
          fun y hy => by simp [SameFields, hy], fun _ => by simp⟩
      | none =>
        simp only at e
        obtain ⟨h0, f1, f2, _, f4, f5, f6, f7⟩ := bget_recycle_fields fuel dev blockno h fuel _ _ b s' e
        simp only [get_acquire, diskLog_acquire] at h0 f6 f7
        exact ⟨f1, f2, by omega, f5, f6, f7, fun hne => absurd h0 hne⟩

/-- C6: for every cache state and every returning call `bget(dev, blockno)`,
every buffer that had `refcnt > 0` before the call has the same `dev`,
`blockno` and `valid` after the call; a buffer whose `dev` or `blockno` is
changed by the call had `refcnt == 0`. -/
theorem bget_keeps_referenced_buffers (fuel : Nat) (s s' : Bcache) (dev blockno : Nat) (b : Ptr)
    (e : bget fuel s dev blockno = Outcome.ret b s') :
    (∀ k, 0 < (s.buf k).refcnt → (s'.buf k).dev = (s.buf k).dev ∧
      (s'.buf k).blockno = (s.buf k).blockno ∧ (s'.buf k).valid = (s.buf k).valid) ∧
    (∀ k, ((s'.buf k).dev ≠ (s.buf k).dev ∨ (s'.buf k).blockno ≠ (s.buf k).blockno) →
      (s.buf k).refcnt = 0) := by
  have f := bget_fields e
  have key : ∀ k, (s.buf k).refcnt ≠ 0 → (s'.buf k).dev = (s.buf k).dev ∧
      (s'.buf k).blockno = (s.buf k).blockno ∧ (s'.buf k).valid = (s.buf k).valid := by
    intro k hk
    by_cases hx : Ptr.buf k = b
    · subst hx
      exact f.2.2.2.2.2.2 hk
    · have := f.2.2.2.2.2.1 (Ptr.buf k) hx
      exact ⟨this.2.1, this.2.2.1, this.1⟩
  refine ⟨fun k hk => key k (by omega), fun k hk => ?_⟩
  by_contra hne
  have := key k hne
  rcases hk with hk | hk
  · exact hk this.1
  · exact hk this.2.1

/-- C6, witness: `bget(1, 18)` in the state where buffer 0 holds block (1, 5)
with `refcnt = 1`; buffer 1 is recycled and buffer 0 keeps its identity. -/
theorem bget_keeps_referenced_buffers_witness :
    0 < (afterRead.buf 0).refcnt ∧ (bget 31 afterRead 1 18).value? = some (Ptr.buf 1) ∧
    (∀ k, 0 < (afterRead.buf k).refcnt →
      ((bget 31 afterRead 1 18).state.buf k).dev = (afterRead.buf k).dev ∧
      ((bget 31 afterRead 1 18).state.buf k).blockno = (afterRead.buf k).blockno ∧
      ((bget 31 afterRead 1 18).state.buf k).valid = (afterRead.buf k).valid) ∧
    (∀ k, (((bget 31 afterRead 1 18).state.buf k).dev ≠ (afterRead.buf k).dev ∨
        ((bget 31 afterRead 1 18).state.buf k).blockno ≠ (afterRead.buf k).blockno) →
      (afterRead.buf k).refcnt = 0) :=
  ⟨by decide, by decide,
    bget_keeps_referenced_buffers 31 afterRead (bget 31 afterRead 1 18).state 1 18 (Ptr.buf 1)
      (Outcome.eq_ret _ _ (by decide))⟩

/-! ## C9: what bread returns -/

/-- C9: whenever `bread(dev, blockno)` returns a buffer `b`, `b` has `dev` and
`blockno` equal to the arguments, `valid = 1`, `refcnt >= 1`, and the caller
holds its sleep-lock; `bget` returned the same buffer, and the disk driver got
exactly one request, a read of `(dev, blockno)`, if that buffer had `valid == 0`
when `bget` returned, and no request if it had `valid == 1`. -/
theorem bread_post (fuel : Nat) (s s' : Bcache) (dev blockno : Nat) (b : Ptr)
    (e : bread fuel s dev blockno = Outcome.ret b s') :
    (s'.get b).dev = dev ∧ (s'.get b).blockno = blockno ∧ (s'.get b).valid = true ∧
      1 ≤ (s'.get b).refcnt ∧ holdingsleep s' b = true ∧
      ∃ sg, bget fuel s dev blockno = Outcome.ret b sg ∧
        ((sg.get b).valid = false → s'.diskLog = s.diskLog ++ [DiskReq.read dev blockno]) ∧
        ((sg.get b).valid = true → s'.diskLog = s.diskLog) := by
  obtain ⟨sg, eg, rfl⟩ := bread_ret.1 e
  have f := bget_fields eg
  have tf := bread_tail_fields sg b b
  simp only at tf
  refine ⟨tf.1.trans f.1, tf.2.1.trans f.2.1, by simpa using tf.2.2.2.2, ?_, ?_, sg, eg, ?_, ?_⟩
  · rw [tf.2.2.2.1]; exact f.2.2.1
  · unfold holdingsleep; rw [tf.2.2.1]; exact f.2.2.2.1
  · intro hv
    rw [if_pos hv]
    simp [virtio_disk_rw, f.1, f.2.1, f.2.2.2.2.1]
  · intro hv
    rw [if_neg (by simp [hv])]
    exact f.2.2.2.2.1

/-- C9, witness: the first `bread(1, 5)` after `binit` (30 buffers) returns
buffer 0, which `bget` left with `valid == 0`: one disk read. -/
theorem bread_post_witness :
    (afterRead.get (Ptr.buf 0)).dev = 1 ∧ (afterRead.get (Ptr.buf 0)).blockno = 5 ∧
      (afterRead.get (Ptr.buf 0)).valid = true ∧ 1 ≤ (afterRead.get (Ptr.buf 0)).refcnt ∧
      holdingsleep afterRead (Ptr.buf 0) = true ∧
      ∃ sg, bget 31 bootState 1 5 = Outcome.ret (Ptr.buf 0) sg ∧
        ((sg.get (Ptr.buf 0)).valid = false →
          afterRead.diskLog = bootState.diskLog ++ [DiskReq.read 1 5]) ∧
        ((sg.get (Ptr.buf 0)).valid = true → afterRead.diskLog = bootState.diskLog) :=
  bread_post 31 bootState afterRead 1 5 (Ptr.buf 0) (Outcome.eq_ret _ _ (by decide))

/-! ## C10: bwrite -/

/-- C10: `bwrite(b)` panics exactly when the caller does not hold the
sleep-lock of `b`; otherwise it returns after exactly one request to the disk
driver, a write of the data of `b` to block `b.blockno` of device `b.dev`, and
every descriptor (links, `refcnt`, `valid`, `dev`, `blockno`, all other fields),
every sentinel and the lock history are unchanged. -/
theorem bwrite_spec (s : Bcache) (b : Ptr) :
    ((∃ msg, bwrite s b = Outcome.panic msg) ↔ holdingsleep s b = false) ∧
    (bwrite s b = Outcome.panic "bwrite" ↔ holdingsleep s b = false) ∧
    (holdingsleep s b = true →
      ∃ s', bwrite s b = Outcome.ret () s' ∧
        s'.diskLog = s.diskLog ++ [DiskReq.write (s.get b).dev (s.get b).blockno (s.get b).data] ∧
        s'.buf = s.buf ∧ s'.hashbucket = s.hashbucket ∧ s'.trace = s.trace) := by
  unfold bwrite
  cases hl : holdingsleep s b with
  | true =>
    simp only [Bool.true_eq_false, ↓reduceIte, reduceCtorEq, exists_false, forall_true_left]
    simp [virtio_disk_rw]
  | false => simp

/-- C10, witness: writing buffer 0 while its sleep-lock is held (after
`bread(1, 5)`), and writing it after the lock has been released. -/
theorem bwrite_spec_witness :
    (∃ s', bwrite afterRead (Ptr.buf 0) = Outcome.ret () s' ∧
        s'.diskLog = afterRead.diskLog ++ [DiskReq.write (afterRead.get (Ptr.buf 0)).dev
          (afterRead.get (Ptr.buf 0)).blockno (afterRead.get (Ptr.buf 0)).data] ∧
        s'.buf = afterRead.buf ∧ s'.hashbucket = afterRead.hashbucket ∧
        s'.trace = afterRead.trace) ∧
      bwrite afterRelease (Ptr.buf 0) = Outcome.panic "bwrite" :=
  ⟨(bwrite_spec afterRead (Ptr.buf 0)).2.2 (by decide),
    (bwrite_spec afterRelease (Ptr.buf 0)).2.1.2 (by decide)⟩

/-! ## C7: order and effect of recycling -/

/-- In a reachable state the lists read off the pointers satisfy the invariant. -/
theorem inv_of_buckets {NBUF : Nat} {s : Bcache} {L : Fin 13 → List Nat} (r : Reachable NBUF s)
    (hL : ∀ i, Bucket s i (L i)) : Inv NBUF s L := by
  obtain ⟨L', inv⟩ := reachable_inv r
  have : L = L' := funext fun i => Bucket.list_unique (hL i) (inv.linked i)
  rw [this]
  exact inv

theorem moveToHead_source {L : Fin 13 → List Nat} {n h : Fin 13} {k : Nat} {l1 l2 : List Nat}
    (hne : n ≠ h) (hn : (L n).Nodup) (e : L n = l1 ++ k :: l2) :
    moveToHead L n h k n = l1 ++ l2 := by
  rw [moveToHead_other L n h k hne, Function.update_same]
  rw [e] at hn ⊢
  exact erase_split hn

theorem moveToHead_rest (L : Fin 13 → List Nat) (n h : Fin 13) (k : Nat) {i : Fin 13}
    (h1 : i ≠ h) (h2 : i ≠ n) : moveToHead L n h k i = L i := by
  rw [moveToHead_other L n h k h1, Function.update_noteq h2]

theorem moveToHead_target (L : Fin 13 → List Nat) {n h : Fin 13} (k : Nat) (hne : n ≠ h) :
    moveToHead L n h k h = k :: L h := by
  rw [moveToHead_home, Function.update_noteq (Ne.symm hne)]

theorem moveToHead_within (L : Fin 13 → List Nat) (h : Fin 13) (k : Nat) :
    moveToHead L h h k h = k :: (L h).erase k := by
  rw [moveToHead_home, Function.update_same]

/-- Cache miss of `bread` with a known first unused buffer. -/
theorem bread_miss_first {NBUF : Nat} {s : Bcache} {L : Fin 13 → List Nat} (inv : Inv NBUF s L)
    {h : Fin 13} {dev blockno fuel j0 k : Nat} (hh : bucket? (bhash (toInt32 blockno)) = some h)
    (hf : NBUF < fuel) (h13 : 12 < fuel)
    (hmiss : (L h).find? (isCached s dev blockno) = none) (hj : j0 < 12)
    (hbefore : ∀ j, j < j0 → (L (neighbour h j)).reverse.find? (isUnused s) = none)
    (hk : (L (neighbour h j0)).reverse.find? (isUnused s) = some k)
    (hl : (s.buf k).locked = false) :
    ∃ s', bread fuel s dev blockno = Outcome.ret (Ptr.buf k) s' ∧
      Inv NBUF s' (moveToHead L (neighbour h j0) h k) ∧
      (s'.buf k).dev = dev ∧ (s'.buf k).blockno = blockno ∧ (s'.buf k).valid = true ∧
      (s'.buf k).refcnt = 1 ∧ (s'.buf k).locked = true ∧
      (∀ x, x ≠ k → (s'.buf x).dev = (s.buf x).dev ∧ (s'.buf x).blockno = (s.buf x).blockno ∧
        (s'.buf x).locked = (s.buf x).locked ∧ (s'.buf x).refcnt = (s.buf x).refcnt ∧
        (s'.buf x).valid = (s.buf x).valid) := by
  obtain ⟨sg, eg, post⟩ := bget_miss_first inv hh hf h13 hmiss hj hbefore hk hl
  have tf := bread_tail_fields sg (Ptr.buf k)
  refine ⟨_, bread_ret.2 ⟨sg, eg, rfl⟩, post.1.bread_tail (Ptr.buf k), ?_, ?_, ?_, ?_, ?_, ?_⟩
  · exact (tf (Ptr.buf k)).1.trans post.2.1
  · exact (tf (Ptr.buf k)).2.1.trans post.2.2.1
  · simpa using (tf (Ptr.buf k)).2.2.2.2
  · exact (tf (Ptr.buf k)).2.2.2.1.trans post.2.2.2.2.1
  · exact (tf (Ptr.buf k)).2.2.1.trans post.2.2.2.2.2.1
  · intro x hx
    have h1 := tf (Ptr.buf x)
    have h2 := post.2.2.2.2.2.2.2.1 x hx
    have hne : Ptr.buf x ≠ Ptr.buf k := fun c => hx (buf_injective c)
    refine ⟨h1.1.trans h2.2.1, h1.2.1.trans h2.2.2.1, h1.2.2.1.trans h2.2.2.2.1,
      h1.2.2.2.1.trans h2.2.2.2.2.1, ?_⟩
    have := h1.2.2.2.2
    rw [if_neg hne] at this
    exact this.trans h2.1

theorem neighbour_five_seven : neighbour 5 7 = 0 := by decide

theorem neighbour_five_lt {j : Nat} (hj : j < 7) : neighbour 5 j ≠ 0 ∧ neighbour 5 j ≠ 5 := by
  interval_cases j <;> decide

/-- The first `bread(1, 5)` after `binit`: buffer 0, the tail of bucket 0, moves
to bucket 5. -/
theorem first_bread (NBUF : Nat) (disk : Nat → Nat → List Nat) (fuel : Nat) (h0 : 0 < NBUF)
    (hf : NBUF < fuel) (h13 : 12 < fuel) :
    ∃ s', bread fuel (binit NBUF (bcache0 disk)) 1 5 = Outcome.ret (Ptr.buf 0) s' ∧
      Inv NBUF s' (moveToHead (initLists NBUF) 0 5 0) ∧
      (s'.buf 0).dev = 1 ∧ (s'.buf 0).blockno = 5 ∧ (s'.buf 0).valid = true ∧
      (s'.buf 0).refcnt = 1 ∧ (s'.buf 0).locked = true ∧
      (∀ x, x ≠ 0 → (s'.buf x).refcnt = 0 ∧ (s'.buf x).locked = false) := by
  have inv := binit_inv NBUF disk
  have hfind : (initLists NBUF (neighbour 5 7)).reverse.find? (isUnused (binit NBUF (bcache0 disk))) =
      some 0 := by
    obtain ⟨m, rfl⟩ : ∃ m, NBUF = m + 1 := ⟨NBUF - 1, by omega⟩
    rw [neighbour_five_seven]
    simp [initLists, List.range_succ_eq_map, isUnused, binit_refcnt]
  have hh : bucket? (bhash (toInt32 5)) = some 5 := by decide
  have hmiss : (initLists NBUF 5).find? (isCached (binit NBUF (bcache0 disk)) 1 5) = none := by
    simp [initLists]
  obtain ⟨s', e, inv', p1, p2, p3, p4, p5, p6⟩ := bread_miss_first inv hh hf h13 hmiss
    (by omega : 7 < 12)
    (fun j hj => by rw [initLists_ne_zero NBUF (neighbour_five_lt hj).1]; rfl) hfind
    (binit_locked NBUF disk 0)
  rw [neighbour_five_seven] at inv'
  refine ⟨s', e, inv', p1, p2, p3, p4, p5, fun x hx => ?_⟩
  have := p6 x hx
  exact ⟨this.2.2.2.1.trans (binit_refcnt NBUF disk x), this.2.2.1.trans (binit_locked NBUF disk x)⟩

/-- C7: (1) Recycling order and effect.  In a reachable state with bucket
lists `L`, let `(dev, blockno)` not be in its home bucket `h`, let the
neighbours `h+1, ..., h+j0` (mod 13, `j0 < 12`) hold no buffer with `refcnt == 0`,
and let `k` be the buffer with `refcnt == 0` nearest the tail of the next
neighbour `n`, whose list is `l1 ++ k :: l2`.  Then `bget` returns `k` with `dev`,
`blockno` set, `valid = 0`, `refcnt = 1`; `k` is at the head of bucket `h`, bucket
`n` is `l1 ++ l2`, every other bucket and every other buffer is unchanged.
(2) Right after `binit` (at least one buffer), `bread(1, 5)` returns buffer 0, the
tail of bucket 0, which is then the only buffer of bucket 5, with `valid = 1` and
`refcnt = 1`. -/
theorem bget_recycling_order_and_effect :
    (∀ (NBUF fuel : Nat) (s : Bcache) (L : Fin 13 → List Nat) (dev blockno : Nat) (h : Fin 13)
        (j0 k : Nat) (l1 l2 : List Nat),
      Reachable NBUF s → (∀ i, Bucket s i (L i)) →
      bucket? (bhash (toInt32 blockno)) = some h →
      (∀ x ∈ L h, ¬ ((s.buf x).dev = dev ∧ (s.buf x).blockno = blockno)) →
      j0 < 12 → (∀ j, j < j0 → ∀ x ∈ L (neighbour h j), (s.buf x).refcnt ≠ 0) →
      L (neighbour h j0) = l1 ++ k :: l2 → (s.buf k).refcnt = 0 →
      (∀ x ∈ l2, (s.buf x).refcnt ≠ 0) → (s.buf k).locked = false →
      NBUF < fuel → 12 < fuel →
      ∃ s', bget fuel s dev blockno = Outcome.ret (Ptr.buf k) s' ∧
        (s'.buf k).dev = dev ∧ (s'.buf k).blockno = blockno ∧ (s'.buf k).valid = false ∧
        (s'.buf k).refcnt = 1 ∧
        Bucket s' h (k :: L h) ∧ Bucket s' (neighbour h j0) (l1 ++ l2) ∧
        (∀ i, i ≠ h → i ≠ neighbour h j0 → Bucket s' i (L i)) ∧
        (∀ x, x ≠ k → SameFields (s'.buf x) (s.buf x))) ∧
    (∀ (NBUF : Nat) (disk : Nat → Nat → List Nat) (fuel : Nat),
      0 < NBUF → NBUF < fuel → 12 < fuel →
      Bucket (binit NBUF (bcache0 disk)) 0 (List.range NBUF).reverse ∧
      ∃ s', bread fuel (binit NBUF (bcache0 disk)) 1 5 = Outcome.ret (Ptr.buf 0) s' ∧
        Bucket s' 5 [0] ∧ Bucket s' 0 ((List.range NBUF).reverse.erase 0) ∧
        (s'.buf 0).valid = true ∧ (s'.buf 0).refcnt = 1) := by
  constructor
  · intro NBUF fuel s L dev blockno h j0 k l1 l2 r hL hh hmiss hj hbefore hsplit hk0 hl2 hl hf h13
    have inv := inv_of_buckets r hL
    have hne : neighbour h j0 ≠ h := neighbour_ne_home h hj
    obtain ⟨s', e, post⟩ := bget_miss_first inv hh hf h13
      (find?_none_of (fun x hx => by simpa [isCached] using hmiss x hx)) hj
      (fun j hj' => find?_reverse_none (fun x hx => by simpa [isUnused] using hbefore j hj' x hx))
      (by
        rw [hsplit]
        exact find?_reverse_split (by simpa [isUnused] using hk0)
          (fun x hx => by simpa [isUnused] using hl2 x hx))
      hl
    refine ⟨s', e, post.2.1, post.2.2.1, post.2.2.2.1, post.2.2.2.2.1, ?_, ?_, ?_,
      post.2.2.2.2.2.2.2.1⟩
    · have := post.1.linked h
      rwa [moveToHead_target L k hne] at this
    · have := post.1.linked (neighbour h j0)
      rwa [moveToHead_source hne (inv.nodup _) hsplit] at this
    · intro i h1 h2
      have := post.1.linked i
      rwa [moveToHead_rest L _ _ k h1 h2] at this
  · intro NBUF disk fuel h0 hf h13
    refine ⟨?_, ?_⟩
    · have := (binit_inv NBUF disk).linked 0
      simpa [initLists] using this
    · obtain ⟨s', e, inv', _, _, p3, p4, _⟩ := first_bread NBUF disk fuel h0 hf h13
      refine ⟨s', e, ?_, ?_, p3, p4⟩
      · have := inv'.linked 5
        rw [moveToHead_target _ _ (by decide), initLists_ne_zero NBUF (by decide)] at this
        exact this
      · have := inv'.linked 0
        rw [moveToHead_other _ _ _ _ (by decide), Function.update_same] at this
        simpa [initLists] using this

set_option maxRecDepth 100000 in
/-- C7, witness: `bget(1, 18)` in the state after `bread(1, 5)`: block 18 hashes
to bucket 5, where only block 5 is; buckets 6 .. 12 are empty; buffer 1 is the
tail of bucket 0. -/
theorem bget_recycling_order_and_effect_witness :
    ∃ s', bget 31 afterRead 1 18 = Outcome.ret (Ptr.buf 1) s' ∧
      (s'.buf 1).dev = 1 ∧ (s'.buf 1).blockno = 18 ∧ (s'.buf 1).valid = false ∧
      (s'.buf 1).refcnt = 1 ∧
      Bucket s' 5 (1 :: afterReadLists 5) ∧
      Bucket s' (neighbour 5 7) ((List.range' 2 28).reverse ++ []) ∧
      (∀ i, i ≠ 5 → i ≠ neighbour 5 7 → Bucket s' i (afterReadLists i)) ∧
      (∀ x, x ≠ 1 → SameFields (s'.buf x) (afterRead.buf x)) :=
  bget_recycling_order_and_effect.1 30 31 afterRead afterReadLists 1 18 5 7 1
    (List.range' 2 28).reverse [] afterRead_reachable (by decide) (by decide) (by decide)
    (by decide) (by decide) (by decide) (by decide) (by decide) (by decide) (by decide) (by decide)

/-! ## C8: brelse -/

theorem range_reverse_erase_zero (m : Nat) :
    (List.range (m + 2)).reverse.erase 0 = ((List.range m).map (fun x => x + 2)).reverse ++ [1] := by
  have e : List.range (m + 2) = 0 :: 1 :: (List.range m).map (fun x => x + 2) := by
    rw [List.range_succ_eq_map, List.range_succ_eq_map]
    simp [List.map_map, Function.comp_def]
  rw [e]
  simp only [List.reverse_cons, List.append_assoc, List.singleton_append]
  rw [List.erase_append_right]
  · simp
  · simp

/-- The scenario `bread(1,5); brelse; bread(1,18); brelse` after `binit`. -/
theorem mru_scenario (NBUF : Nat) (disk : Nat → Nat → List Nat) (fuel : Nat) (h2 : 2 ≤ NBUF)
    (hf : NBUF < fuel) (h13 : 12 < fuel) :
    ∃ s1 s2 s3 s4,
      bread fuel (binit NBUF (bcache0 disk)) 1 5 = Outcome.ret (Ptr.buf 0) s1 ∧
      brelse s1 (Ptr.buf 0) = Outcome.ret () s2 ∧
      bread fuel s2 1 18 = Outcome.ret (Ptr.buf 1) s3 ∧
      brelse s3 (Ptr.buf 1) = Outcome.ret () s4 ∧
      Bucket s4 5 [1, 0] ∧ (s4.buf 1).dev = 1 ∧ (s4.buf 1).blockno = 18 ∧
      (s4.buf 0).dev = 1 ∧ (s4.buf 0).blockno = 5 := by
  -- bread(1, 5)
  obtain ⟨s1, e1, inv1, d1, b1, _, r1, l1, o1⟩ := first_bread NBUF disk fuel (by omega) hf h13
  have L1_5 : moveToHead (initLists NBUF) 0 5 0 5 = [0] := by
    rw [moveToHead_target _ _ (by decide), initLists_ne_zero NBUF (by decide)]
  have L1_0 : moveToHead (initLists NBUF) 0 5 0 0 = (List.range NBUF).reverse.erase 0 := by
    rw [moveToHead_other _ _ _ _ (by decide), Function.update_same]
    simp [initLists]
  have L1_i : ∀ i : Fin 13, i ≠ 0 → i ≠ 5 → moveToHead (initLists NBUF) 0 5 0 i = [] := by
    intro i h0 h5
    rw [moveToHead_rest _ _ _ _ h5 h0, initLists_ne_zero NBUF h0]
  -- brelse
  obtain ⟨s2, e2, post2, inv2, _⟩ := brelse_spec inv1 (n := 5) (by rw [L1_5]; simp) l1
    (by rw [r1]; omega)
  rw [if_pos (by rw [r1])] at inv2
  have L2_5 : moveToHead (moveToHead (initLists NBUF) 0 5 0) 5 5 0 5 = [0] := by
    rw [moveToHead_within, L1_5]
    simp
  have L2_i : ∀ i : Fin 13, i ≠ 5 → moveToHead (moveToHead (initLists NBUF) 0 5 0) 5 5 0 i =
      moveToHead (initLists NBUF) 0 5 0 i := fun i hi => moveToHead_rest _ _ _ _ hi hi
  have db2 : (s2.buf 0).dev = 1 ∧ (s2.buf 0).blockno = 5 := ⟨post2.2.2.1.trans d1, post2.2.2.2.1.trans b1⟩
  have o2 : ∀ x, x ≠ 0 → (s2.buf x).refcnt = 0 ∧ (s2.buf x).locked = false := by
    intro x hx
    have := post2.2.2.2.2.2.2.1 x hx
    exact ⟨this.2.2.2.2.1.trans (o1 x hx).1, this.2.2.2.1.trans (o1 x hx).2⟩
  -- bread(1, 18)
  have hh : bucket? (bhash (toInt32 18)) = some 5 := by decide
  have hmiss : (moveToHead (moveToHead (initLists NBUF) 0 5 0) 5 5 0 5).find?
      (isCached s2 1 18) = none := by
    rw [L2_5]
    simp [isCached, db2.2]
  have hfind : (moveToHead (moveToHead (initLists NBUF) 0 5 0) 5 5 0 (neighbour 5 7)).reverse.find?
      (isUnused s2) = some 1 := by
    obtain ⟨m, rfl⟩ : ∃ m, NBUF = m + 2 := ⟨NBUF - 2, by omega⟩
    rw [neighbour_five_seven, L2_i 0 (by decide), L1_0, range_reverse_erase_zero]
    exact find?_reverse_split (by simp [isUnused, (o2 1 (by decide)).1]) (by simp)
  obtain ⟨s3, e3, inv3, d3, b3, _, r3, l3, o3⟩ := bread_miss_first inv2 hh hf h13 hmiss
    (by omega : 7 < 12)
    (fun j hj => by
      rw [L2_i _ (neighbour_five_lt hj).2, L1_i _ (neighbour_five_lt hj).1 (neighbour_five_lt hj).2]
      rfl)
    hfind (o2 1 (by decide)).2
  rw [neighbour_five_seven] at inv3
  have L3_5 : moveToHead (moveToHead (moveToHead (initLists NBUF) 0 5 0) 5 5 0) 0 5 1 5 = [1, 0] := by
    rw [moveToHead_target _ _ (by decide), L2_5]
  -- brelse
  obtain ⟨s4, e4, post4, inv4, _⟩ := brelse_spec inv3 (n := 5) (by rw [L3_5]; simp) l3
    (by rw [r3]; omega)
  rw [if_pos (by rw [r3])] at inv4
  refine ⟨s1, s2, s3, s4, e1, e2, e3, e4, ?_, post4.2.2.1.trans d3, post4.2.2.2.1.trans b3, ?_, ?_⟩
  · have := inv4.linked 5
    rw [moveToHead_within, L3_5] at this
    simpa using this
  · have h4 := post4.2.2.2.2.2.2.1 0 (by decide)
    have h3 := o3 0 (by decide)
    exact (h4.2.1.trans h3.1).trans db2.1
  · have h4 := post4.2.2.2.2.2.2.1 0 (by decide)
    have h3 := o3 0 (by decide)
    exact (h4.2.2.1.trans h3.2.1).trans db2.2

/-- C8: (1) In a reachable state with bucket lists `L`, let buffer `k` have
its sleep-lock held and `refcnt > 0`.  Then `k` is in the bucket `n` of its block
number, `brelse` returns, releases the sleep-lock and `refcnt` is one less; if
the new `refcnt` is 0, `k` is the first element of bucket `n`, followed by the
other buffers of the bucket in their old order, and the other buckets are
unchanged; if the new `refcnt` is greater than 0, every bucket list is unchanged.
No other field of any buffer changes.
(2) After `binit` (at least two buffers), `bread(1,5); brelse; bread(1,18); brelse`
leave bucket 5 ordered from the head as block 18 (buffer 1), then block 5
(buffer 0). -/
theorem brelse_moves_to_head_on_last_release :
    (∀ (NBUF : Nat) (s : Bcache) (L : Fin 13 → List Nat) (k : Nat),
      Reachable NBUF s → (∀ i, Bucket s i (L i)) → k < NBUF →
      (s.buf k).locked = true → 0 < (s.buf k).refcnt →
      ∃ n s', k ∈ L n ∧ bucket? (bhash (toInt32 (s.buf k).blockno)) = some n ∧
        brelse s (Ptr.buf k) = Outcome.ret () s' ∧
        (s'.buf k).refcnt + 1 = (s.buf k).refcnt ∧ (s'.buf k).locked = false ∧
        ((s'.buf k).refcnt = 0 →
          Bucket s' n (k :: (L n).erase k) ∧ ∀ i, i ≠ n → Bucket s' i (L i)) ∧
        (0 < (s'.buf k).refcnt → ∀ i, Bucket s' i (L i)) ∧
        (s'.buf k).dev = (s.buf k).dev ∧ (s'.buf k).blockno = (s.buf k).blockno ∧
        (s'.buf k).valid = (s.buf k).valid ∧
        (∀ x, x ≠ k → SameFields (s'.buf x) (s.buf x))) ∧
    (∀ (NBUF : Nat) (disk : Nat → Nat → List Nat) (fuel : Nat),
      2 ≤ NBUF → NBUF < fuel → 12 < fuel →
      ∃ s1 s2 s3 s4,
        bread fuel (binit NBUF (bcache0 disk)) 1 5 = Outcome.ret (Ptr.buf 0) s1 ∧
        brelse s1 (Ptr.buf 0) = Outcome.ret () s2 ∧
        bread fuel s2 1 18 = Outcome.ret (Ptr.buf 1) s3 ∧
        brelse s3 (Ptr.buf 1) = Outcome.ret () s4 ∧
        Bucket s4 5 [1, 0] ∧ (s4.buf 1).dev = 1 ∧ (s4.buf 1).blockno = 18 ∧
        (s4.buf 0).dev = 1 ∧ (s4.buf 0).blockno = 5) := by
  refine ⟨?_, mru_scenario⟩
  intro NBUF s L k r hL hk hl hr
  have inv := inv_of_buckets r hL
  obtain ⟨n, hn⟩ := (inv.cover k).1 hk
  obtain ⟨s', e, post, inv', _⟩ := brelse_spec inv hn hl hr
  refine ⟨n, s', hn, inv.placed n k hn, e, by rw [post.1]; omega, post.2.1, ?_, ?_, post.2.2.1,
    post.2.2.2.1, post.2.2.2.2.1, post.2.2.2.2.2.2.1⟩
  · intro h0
    rw [if_pos (by rw [← post.1]; exact h0)] at inv'
    refine ⟨?_, fun i hi => ?_⟩
    · have := inv'.linked n
      rwa [moveToHead_within] at this
    · have := inv'.linked i
      rwa [moveToHead_rest _ _ _ _ hi hi] at this
  · intro h0
    rw [if_neg (by rw [← post.1]; omega)] at inv'
    exact inv'.linked

set_option maxRecDepth 100000 in
/-- C8, witness: releasing buffer 0 in the state after `bread(1, 5)`; the
reference count drops from 1 to 0. -/
theorem brelse_moves_to_head_on_last_release_witness :
    ∃ n s', 0 ∈ afterReadLists n ∧ bucket? (bhash (toInt32 (afterRead.buf 0).blockno)) = some n ∧
      brelse afterRead (Ptr.buf 0) = Outcome.ret () s' ∧
      (s'.buf 0).refcnt + 1 = (afterRead.buf 0).refcnt ∧ (s'.buf 0).locked = false ∧
      ((s'.buf 0).refcnt = 0 →
        Bucket s' n (0 :: (afterReadLists n).erase 0) ∧
          ∀ i, i ≠ n → Bucket s' i (afterReadLists i)) ∧
      (0 < (s'.buf 0).refcnt → ∀ i, Bucket s' i (afterReadLists i)) ∧
      (s'.buf 0).dev = (afterRead.buf 0).dev ∧ (s'.buf 0).blockno = (afterRead.buf 0).blockno ∧
      (s'.buf 0).valid = (afterRead.buf 0).valid ∧
      (∀ x, x ≠ 0 → SameFields (s'.buf x) (afterRead.buf x)) :=
  brelse_moves_to_head_on_last_release.1 30 afterRead afterReadLists 0 afterRead_reachable
    (by decide) (by decide) (by decide) (by decide)

/-! ## First matches in lists -/

theorem find?_congr_mem {p q : Nat → Bool} : ∀ {l : List Nat}, (∀ x ∈ l, p x = q x) →
    l.find? p = l.find? q
  | [], _ => rfl
  | a :: l, h => by
    rw [List.find?_cons, List.find?_cons, h a (List.mem_cons_self _ _),
      find?_congr_mem (fun x hx => h x (List.mem_cons_of_mem _ hx))]

theorem find?_erase_of_ne {p : Nat → Bool} {x y : Nat} : ∀ {l : List Nat},
    l.find? p = some x → y ≠ x → (l.erase y).find? p = some x
  | [], h, _ => by simp at h
  | a :: l, h, hne => by
    rw [List.find?_cons] at h
    by_cases hay : a = y
    · subst hay
      rw [List.erase_cons_head]
      cases hp : p a with
      | true => rw [hp] at h; simp only [Option.some.injEq] at h; exact absurd h hne
      | false => rw [hp] at h; exact h
    · rw [List.erase_cons_tail (by simpa using hay), List.find?_cons]
      cases hp : p a with
      | true => rw [hp] at h; exact h
      | false => rw [hp] at h; exact find?_erase_of_ne h hne

theorem find?_moved {p q : Nat → Bool} {l : List Nat} {x k : Nat} (hl : l.Nodup)
    (h : l.find? p = some x) (hne : x ≠ k) (hpq : ∀ y ∈ l, y ≠ k → q y = p y) :
    (l.erase k).find? q = some x := by
  rw [find?_congr_mem (q := p)]
  · exact find?_erase_of_ne h (Ne.symm hne)
  · intro y hy
    have := (List.Nodup.mem_erase_iff hl).1 hy
    exact hpq y this.2 this.1

theorem isCached_iff (s : Bcache) (dev blockno k : Nat) :
    isCached s dev blockno k = true ↔ (s.buf k).dev = dev ∧ (s.buf k).blockno = blockno := by
  simp [isCached]

theorem isCached_self (s : Bcache) (k : Nat) :
    isCached s (s.buf k).dev (s.buf k).blockno k = true := by
  simp [isCached]

theorem isCached_of_ident {s s' : Bcache} {x : Nat} (hd : (s'.buf x).dev = (s.buf x).dev)
    (hb : (s'.buf x).blockno = (s.buf x).blockno) (dev blockno : Nat) :
    isCached s' dev blockno x = isCached s dev blockno x := by
  simp [isCached, hd, hb]

theorem update_erase_eq {L : Fin 13 → List Nat} {n : Fin 13} {k : Nat}
    (hd : ∀ i j, i ≠ j → ∀ x, x ∈ L i → x ∉ L j) (hk : k ∈ L n) (i : Fin 13) :
    Function.update L n ((L n).erase k) i = (L i).erase k := by
  by_cases hi : i = n
  · subst hi; rw [Function.update_same]
  · rw [Function.update_noteq hi, List.erase_of_not_mem (hd n i (Ne.symm hi) k hk)]

/-! ## The invariant of a run -/

theorem Tracked.congr {NBUF : Nat} {s : Bcache} {L : Fin 13 → List Nat} {R R' : List Ptr}
    (t : Tracked NBUF s L R) (hR : ∀ b, b ∈ R' ↔ b ∈ R) : Tracked NBUF s L R' :=
  { inv := t.inv
    first := fun i k hk hr => t.first i k hk ((hR _).1 hr)
    fresh := fun k hk hr => t.fresh k hk (fun h => hr ((hR _).2 h))
    bufs := fun b hb => t.bufs b ((hR _).1 hb) }

theorem Tracked.same {NBUF : Nat} {s s' : Bcache} {L : Fin 13 → List Nat} {R : List Ptr}
    (t : Tracked NBUF s L R) (inv' : Inv NBUF s' L)
    (hid : ∀ k, (s'.buf k).dev = (s.buf k).dev ∧ (s'.buf k).blockno = (s.buf k).blockno)
    (hz : ∀ k, Ptr.buf k ∉ R →
      (s'.buf k).valid = (s.buf k).valid ∧ (s'.buf k).locked = (s.buf k).locked) :
    Tracked NBUF s' L R :=
  { inv := inv'
    first := fun i k hk hr => by
      rw [(hid k).1, (hid k).2, find?_congr_mem (q := isCached s (s.buf k).dev (s.buf k).blockno)]
      · exact t.first i k hk hr
      · intro x _
        exact isCached_of_ident (hid x).1 (hid x).2 _ _
    fresh := fun k hk hr => by
      rw [(hid k).1, (hid k).2, (hz k hr).1, (hz k hr).2]
      exact t.fresh k hk hr
    bufs := t.bufs }

theorem Tracked.add_hit {NBUF : Nat} {s : Bcache} {L : Fin 13 → List Nat} {R : List Ptr}
    (t : Tracked NBUF s L R) {h : Fin 13} {k : Nat}
    (hk : (L h).find? (isCached s (s.buf k).dev (s.buf k).blockno) = some k) :
    Tracked NBUF s L (Ptr.buf k :: R) :=
  have hmem : k ∈ L h := List.mem_of_find?_eq_some hk
  { inv := t.inv
    first := fun i x hx hr => by
      rcases List.mem_cons.1 hr with e | hr
      · have e' : x = k := by injection e
        subst e'
        have hi : i = h := by
          by_contra hne
          exact t.inv.disjoint i h hne x hx hmem
        subst hi
        exact hk
      · exact t.first i x hx hr
    fresh := fun x hx hr => t.fresh x hx (fun h' => hr (List.mem_cons_of_mem _ h'))
    bufs := fun b hb => by
      rcases List.mem_cons.1 hb with e | hb
      · exact ⟨k, (t.inv.cover k).2 ⟨h, hmem⟩, e⟩
      · exact t.bufs b hb }

theorem Tracked.move_head {NBUF : Nat} {s s' : Bcache} {L : Fin 13 → List Nat} {R : List Ptr}
    (t : Tracked NBUF s L R) {n h : Fin 13} {k : Nat} (hk : k ∈ L n)
    (inv' : Inv NBUF s' (moveToHead L n h k))
    (hid : ∀ x, x ≠ k →
      (s'.buf x).dev = (s.buf x).dev ∧ (s'.buf x).blockno = (s.buf x).blockno)
    (hz : ∀ x, x ≠ k → Ptr.buf x ∉ R →
      (s'.buf x).valid = (s.buf x).valid ∧ (s'.buf x).locked = (s.buf x).locked)
    (hnew : ∀ x, x ∈ L h → x ≠ k → Ptr.buf x ∈ R →
      isCached s' (s.buf x).dev (s.buf x).blockno k = false) :
    Tracked NBUF s' (moveToHead L n h k) (Ptr.buf k :: R) :=
  have hmm := mem_moveToHead t.inv.nodup t.inv.disjoint hk (h := h)
  { inv := inv'
    first := fun i x hx hr => by
      by_cases hxk : x = k
      · subst hxk
        have hi : i = h := by
          rcases (hmm i x).1 hx with ⟨_, hi⟩ | ⟨hne, _⟩
          · exact hi
          · exact absurd rfl hne
        subst hi
        rw [moveToHead_home, List.find?_cons, isCached_self]
      · have hxR : Ptr.buf x ∈ R := by
          rcases List.mem_cons.1 hr with e | hr
          · exact absurd (by injection e) hxk
          · exact hr
        have hxL : x ∈ L i := by
          rcases (hmm i x).1 hx with ⟨e, _⟩ | ⟨_, hx⟩
          · exact absurd e hxk
          · exact hx
        have hf := t.first i x hxL hxR
        have hgo : ((L i).erase k).find? (isCached s' (s'.buf x).dev (s'.buf x).blockno) =
            some x := by
          rw [(hid x hxk).1, (hid x hxk).2]
          exact find?_moved (t.inv.nodup i) hf hxk
            (fun y _ hy => isCached_of_ident (hid y hy).1 (hid y hy).2 _ _)
        by_cases hi : i = h
        · subst hi
          rw [moveToHead_home, update_erase_eq t.inv.disjoint hk, List.find?_cons]
          have := hnew x hxL hxk hxR
          rw [← (hid x hxk).1, ← (hid x hxk).2] at this
          rw [this]
          exact hgo
        · rw [moveToHead_other L n h k hi, update_erase_eq t.inv.disjoint hk]
          exact hgo
    fresh := fun x hx hr => by
      have hxk : x ≠ k := by
        rintro rfl
        exact hr (List.mem_cons_self _ _)
      have hxR : Ptr.buf x ∉ R := fun h' => hr (List.mem_cons_of_mem _ h')
      rw [(hid x hxk).1, (hid x hxk).2, (hz x hxk hxR).1, (hz x hxk hxR).2]
      exact t.fresh x hx hxR
    bufs := fun b hb => by
      rcases List.mem_cons.1 hb with e | hb
      · exact ⟨k, (t.inv.cover k).2 ⟨n, hk⟩, e⟩
      · exact t.bufs b hb }

theorem tracked_binit (NBUF : Nat) (disk : Nat → Nat → List Nat) :
    Tracked NBUF (binit NBUF (bcache0 disk)) (initLists NBUF) [] :=
  { inv := binit_inv NBUF disk
    first := fun _ _ _ hr => by cases hr
    fresh := fun k _ _ =>
      ⟨binit_dev NBUF disk k, binit_blockno NBUF disk k, binit_valid NBUF disk k,
        binit_locked NBUF disk k⟩
    bufs := fun _ hb => by cases hb }

theorem tracked_bget {NBUF : Nat} {s s' : Bcache} {L : Fin 13 → List Nat} {R : List Ptr}
    {fuel dev blockno : Nat} {b : Ptr} (t : Tracked NBUF s L R)
    (e : bget fuel s dev blockno = Outcome.ret b s') : ∃ L', Tracked NBUF s' L' (b :: R) := by
  obtain ⟨h, _, ⟨k, hfind, rfl, _, hp⟩ | ⟨hmiss, j0, k, _, _, hfind, rfl, _, hp⟩⟩ :=
    bget_ret_cases t.inv e
  · obtain ⟨inv', _, _, hd, hb, _, _, hoth, _, _⟩ := hp
    have hid0 := (isCached_iff s dev blockno k).1 (List.find?_some hfind)
    have t1 := t.add_hit (h := h) (k := k) (by rw [hid0.1, hid0.2]; exact hfind)
    refine ⟨L, t1.same inv' ?_ ?_⟩
    · intro x
      by_cases hx : x = k
      · subst hx; exact ⟨hd, hb⟩
      · exact ⟨(hoth x hx).2.1, (hoth x hx).2.2.1⟩
    · intro x hx
      have hxk : x ≠ k := by
        rintro rfl
        exact hx (List.mem_cons_self _ _)
      exact ⟨(hoth x hxk).1, (hoth x hxk).2.2.2.1⟩
  · obtain ⟨inv', hd, hb, _, _, _, _, hoth, _, _⟩ := hp
    have hk : k ∈ L (neighbour h j0) := List.mem_reverse.1 (List.mem_of_find?_eq_some hfind)
    refine ⟨_, t.move_head hk inv' (fun x hx => ⟨(hoth x hx).2.1, (hoth x hx).2.2.1⟩)
      (fun x hx _ => ⟨(hoth x hx).1, (hoth x hx).2.2.2.1⟩) ?_⟩
    intro x hxL hxk _
    by_contra hc
    have hc' : isCached s' (s.buf x).dev (s.buf x).blockno k = true := by
      cases hv : isCached s' (s.buf x).dev (s.buf x).blockno k with
      | true => rfl
      | false => exact absurd hv hc
    have hid := (isCached_iff _ _ _ _).1 hc'
    rw [hd, hb] at hid
    have hx : isCached s dev blockno x = true :=
      (isCached_iff _ _ _ _).2 ⟨hid.1.symm, hid.2.symm⟩
    have := List.find?_eq_none.1 hmiss x hxL
    exact this hx

theorem tracked_bread {NBUF : Nat} {s s' : Bcache} {L : Fin 13 → List Nat} {R : List Ptr}
    {fuel dev blockno : Nat} {b : Ptr} (t : Tracked NBUF s L R)
    (e : bread fuel s dev blockno = Outcome.ret b s') : ∃ L', Tracked NBUF s' L' (b :: R) := by
  obtain ⟨s1, e1, rfl⟩ := bread_ret.1 e
  obtain ⟨L', t1⟩ := tracked_bget t e1
  refine ⟨L', t1.same (t1.inv.bread_tail b) ?_ ?_⟩
  · intro k
    have := bread_tail_fields s1 b (Ptr.buf k)
    exact ⟨this.1, this.2.1⟩
  · intro k hk
    have := bread_tail_fields s1 b (Ptr.buf k)
    have hne : Ptr.buf k ≠ b := by
      rintro rfl
      exact hk (List.mem_cons_self _ _)
    refine ⟨?_, this.2.2.1⟩
    have hv := this.2.2.2.2
    rw [if_neg hne] at hv
    exact hv

theorem tracked_locked {NBUF : Nat} {s : Bcache} {L : Fin 13 → List Nat} {R : List Ptr}
    (t : Tracked NBUF s L R) {k : Nat} (hk : k < NBUF) (hl : (s.buf k).locked = true) :
    Ptr.buf k ∈ R := by
  by_contra hc
  have := (t.fresh k hk hc).2.2.2
  rw [hl] at this
  cases this

theorem tracked_brelse {NBUF : Nat} {s s' : Bcache} {L : Fin 13 → List Nat} {R : List Ptr}
    {k : Nat} (t : Tracked NBUF s L R) (hk : k < NBUF) (hpos : 0 < (s.buf k).refcnt)
    (e : brelse s (Ptr.buf k) = Outcome.ret () s') : ∃ L', Tracked NBUF s' L' R := by
  obtain ⟨n, hn⟩ := (t.inv.cover k).1 hk
  have hl : (s.buf k).locked = true := brelse_ret_locked e
  have hkR := tracked_locked t hk hl
  obtain ⟨s'', e', hp, inv', _⟩ := brelse_spec t.inv hn hl hpos
  rw [e'] at e
  injection e with _ e2
  subst e2
  obtain ⟨_, _, hd, hb, _, _, hoth, _, _⟩ := hp
  have hid : ∀ x, (s''.buf x).dev = (s.buf x).dev ∧ (s''.buf x).blockno = (s.buf x).blockno := by
    intro x
    by_cases hx : x = k
    · subst hx; exact ⟨hd, hb⟩
    · exact ⟨(hoth x hx).2.1, (hoth x hx).2.2.1⟩
  have hz : ∀ x, x ≠ k → (s''.buf x).valid = (s.buf x).valid ∧
      (s''.buf x).locked = (s.buf x).locked := fun x hx => ⟨(hoth x hx).1, (hoth x hx).2.2.2.1⟩
  by_cases hr : (s.buf k).refcnt - 1 = 0
  · rw [if_pos hr] at inv'
    have t1 := t.move_head hn inv' (fun x _ => hid x) (fun x hx _ => hz x hx) (by
      intro x hxL hxk hxR
      rw [isCached_of_ident hd hb]
      by_contra hc
      have hc' : isCached s (s.buf x).dev (s.buf x).blockno k = true := by
        cases hv : isCached s (s.buf x).dev (s.buf x).blockno k with
        | true => rfl
        | false => exact absurd hv hc
      have hidk := (isCached_iff _ _ _ _).1 hc'
      have f1 := t.first n k hn hkR
      have f2 := t.first n x hxL hxR
      rw [hidk.1, hidk.2, f2] at f1
      injection f1 with f1
      exact hxk f1)
    refine ⟨_, t1.congr ?_⟩
    intro b
    constructor
    · intro hb'; exact List.mem_cons_of_mem _ hb'
    · intro hb'
      rcases List.mem_cons.1 hb' with rfl | hb'
      · exact hkR
      · exact hb'
  · rw [if_neg hr] at inv'
    refine ⟨L, t.same inv' hid ?_⟩
    intro x hx
    have hxk : x ≠ k := by
      rintro rfl
      exact hx hkR
    exact hz x hxk

theorem bpin_fields {s s' : Bcache} {b : Ptr} (e : bpin s b = Outcome.ret () s') (x : Ptr) :
    (s'.get x).valid = (s.get x).valid ∧ (s'.get x).dev = (s.get x).dev ∧
      (s'.get x).blockno = (s.get x).blockno ∧ (s'.get x).locked = (s.get x).locked ∧
      (s'.get x).data = (s.get x).data ∧ s'.disk = s.disk := by
  unfold bpin at e
  cases hb : bucket? (bhash (toInt32 (s.get b).blockno)) with
  | none => rw [hb] at e; simp at e
  | some h =>
    rw [hb] at e
    injection e with _ e2
    subst e2
    simp only [get_release, get_modify, get_acquire]
    refine ⟨?_, ?_, ?_, ?_, ?_, by simp [release, acquire]⟩ <;> split_ifs with h1 <;> simp [h1]

theorem bunpin_fields {s s' : Bcache} {b : Ptr} (e : bunpin s b = Outcome.ret () s') (x : Ptr) :
    (s'.get x).valid = (s.get x).valid ∧ (s'.get x).dev = (s.get x).dev ∧
      (s'.get x).blockno = (s.get x).blockno ∧ (s'.get x).locked = (s.get x).locked ∧
      (s'.get x).data = (s.get x).data ∧ s'.disk = s.disk := by
  unfold bunpin at e
  cases hb : bucket? (bhash (toInt32 (s.get b).blockno)) with
  | none => rw [hb] at e; simp at e
  | some h =>
    rw [hb] at e
    injection e with _ e2
    subst e2
    simp only [get_release, get_modify, get_acquire]
    refine ⟨?_, ?_, ?_, ?_, ?_, by simp [release, acquire]⟩ <;> split_ifs with h1 <;> simp [h1]

theorem bwrite_fields {s s' : Bcache} {b : Ptr} (e : bwrite s b = Outcome.ret () s') :
    s'.get = s.get ∧ (s.get b).locked = true ∧
      s'.disk = fun d n =>
        if d = (s.get b).dev ∧ n = (s.get b).blockno then (s.get b).data else s.disk d n := by
  unfold bwrite holdingsleep at e
  split_ifs at e with hl
  injection e with _ e2
  subst e2
  refine ⟨get_virtio_write s _ b, by simpa using hl, ?_⟩
  simp [virtio_disk_rw]

theorem setData_inv {NBUF : Nat} {s : Bcache} {L : Fin 13 → List Nat} (inv : Inv NBUF s L)
    (b : Ptr) (x : List Nat) : Inv NBUF (setData s b x) L := by
  refine inv.of_same ?_ ?_ ?_
  · unfold setData
    rw [nxt_modify_of_next _ _ (fun y => { y with data := x }) (fun _ => rfl)]
  · unfold setData
    rw [prv_modify_of_prev _ _ (fun y => { y with data := x }) (fun _ => rfl)]
  · intro k
    simp only [setData, buf_eq_get, get_modify]
    split_ifs with h1 <;> simp [h1]

theorem setData_fields (s : Bcache) (b : Ptr) (x : List Nat) (y : Ptr) :
    ((setData s b x).get y).valid = (s.get y).valid ∧ ((setData s b x).get y).dev = (s.get y).dev ∧
      ((setData s b x).get y).blockno = (s.get y).blockno ∧
      ((setData s b x).get y).locked = (s.get y).locked ∧
      ((setData s b x).get y).refcnt = (s.get y).refcnt ∧
      ((setData s b x).get y).data = (if y = b then x else (s.get y).data) ∧
      (setData s b x).disk = s.disk := by
  simp only [setData, get_modify, disk_modify]
  refine ⟨?_, ?_, ?_, ?_, ?_, ?_, trivial⟩ <;> split_ifs with h1 <;> simp [h1]

/-- The invariant holds along every run. -/
theorem run_tracked {NBUF : Nat} {W : Nat → Nat → Prop} {s0 s : Bcache} {R0 R : List Ptr}
    {L0 : Fin 13 → List Nat} (t0 : Tracked NBUF s0 L0 R0) (r : Run NBUF W s0 R0 s R) :
    ∃ L, Tracked NBUF s L R := by
  induction r with
  | refl => exact ⟨L0, t0⟩
  | bget _ e ih => obtain ⟨L, t⟩ := ih; exact tracked_bget t e
  | bread _ e ih => obtain ⟨L, t⟩ := ih; exact tracked_bread t e
  | bwrite _ _ _ e ih =>
    obtain ⟨L, t⟩ := ih
    have hg := (bwrite_fields e).1
    exact ⟨L, t.same (bwrite_inv t.inv e) (fun k => by simp [buf_eq_get, hg])
      (fun k _ => by simp [buf_eq_get, hg])⟩
  | brelse _ hk hp e ih => obtain ⟨L, t⟩ := ih; exact tracked_brelse t hk hp e
  | bpin _ _ e ih =>
    obtain ⟨L, t⟩ := ih
    exact ⟨L, t.same (bpin_inv t.inv e)
      (fun k => ⟨(bpin_fields e (Ptr.buf k)).2.1, (bpin_fields e (Ptr.buf k)).2.2.1⟩)
      (fun k _ => ⟨(bpin_fields e (Ptr.buf k)).1, (bpin_fields e (Ptr.buf k)).2.2.2.1⟩)⟩
  | bunpin _ _ _ e ih =>
    obtain ⟨L, t⟩ := ih
    exact ⟨L, t.same (bunpin_inv t.inv e)
      (fun k => ⟨(bunpin_fields e (Ptr.buf k)).2.1, (bunpin_fields e (Ptr.buf k)).2.2.1⟩)
      (fun k _ => ⟨(bunpin_fields e (Ptr.buf k)).1, (bunpin_fields e (Ptr.buf k)).2.2.2.1⟩)⟩
  | setData x _ _ _ _ ih =>
    obtain ⟨L, t⟩ := ih
    exact ⟨L, t.same (setData_inv t.inv _ x)
      (fun k => ⟨(setData_fields _ _ x (Ptr.buf k)).2.1, (setData_fields _ _ x (Ptr.buf k)).2.2.1⟩)
      (fun k _ => ⟨(setData_fields _ _ x (Ptr.buf k)).1,
        (setData_fields _ _ x (Ptr.buf k)).2.2.2.1⟩)⟩

/-- The invariant of the states of `Live`: the run invariant for some set `R` of
returned buffers, a zero reference count for the buffers never returned, and
the held buffers are distinct buffers of the cache, locked and referenced. -/
theorem live_tracked {NBUF : Nat} {s : Bcache} {H : List Ptr} (r : Live NBUF s H) :
    ∃ L R, Tracked NBUF s L R ∧ (∀ k, k < NBUF → Ptr.buf k ∉ R → (s.buf k).refcnt = 0) ∧
      H.Nodup ∧
      ∀ b, b ∈ H → ∃ k, k < NBUF ∧ b = Ptr.buf k ∧ (s.buf k).locked = true ∧
        0 < (s.buf k).refcnt := by
  have hget : ∀ {s s' : Bcache} {H : List Ptr} {fuel dev blockno : Nat} {b : Ptr},
      (∃ L R, Tracked NBUF s L R ∧ (∀ k, k < NBUF → Ptr.buf k ∉ R → (s.buf k).refcnt = 0) ∧
        H.Nodup ∧ ∀ b, b ∈ H → ∃ k, k < NBUF ∧ b = Ptr.buf k ∧ (s.buf k).locked = true ∧
          0 < (s.buf k).refcnt) →
      bget fuel s dev blockno = Outcome.ret b s' →
      ∃ L R, Tracked NBUF s' L R ∧ b ∈ R ∧
        (∀ k, k < NBUF → Ptr.buf k ∉ R → (s'.buf k).refcnt = 0) ∧
        (b :: H).Nodup ∧ ∀ b', b' ∈ b :: H → ∃ k, k < NBUF ∧ b' = Ptr.buf k ∧
          (s'.buf k).locked = true ∧ 0 < (s'.buf k).refcnt := by
    intro s s' H fuel dev blockno b ih e
    obtain ⟨L, R, t, hfree, hnd, hH⟩ := ih
    obtain ⟨L', t'⟩ := tracked_bget t e
    obtain ⟨_, _, hrc, hlk, _, hoth, _⟩ := bget_fields e
    have hunl : (s.get b).locked = false := by
      obtain ⟨h, _, ⟨k, _, rfl, hl, _⟩ | ⟨_, j0, k, _, _, _, rfl, hl, _⟩⟩ := bget_ret_cases t.inv e
      · exact hl
      · exact hl
    have hbH : b ∉ H := by
      intro hb
      obtain ⟨k, _, rfl, hl, _⟩ := hH b hb
      have : (s.buf k).locked = false := hunl
      rw [hl] at this
      cases this
    refine ⟨L', b :: R, t', List.mem_cons_self _ _, ?_, List.nodup_cons.2 ⟨hbH, hnd⟩, ?_⟩
    · intro k hk hR
      have hne : Ptr.buf k ≠ b := by
        rintro rfl
        exact hR (List.mem_cons_self _ _)
      have := (hoth _ hne).2.2.2.2.1
      rw [buf_eq_get, this]
      exact hfree k hk (fun h' => hR (List.mem_cons_of_mem _ h'))
    · intro b' hb'
      rcases List.mem_cons.1 hb' with rfl | hb2
      · obtain ⟨k, hk, rfl⟩ := t'.bufs _ (List.mem_cons_self _ _)
        exact ⟨k, hk, rfl, hlk, hrc⟩
      · have hne0 : b' ≠ b := by
          rintro rfl
          exact hbH hb2
        obtain ⟨k, hk, rfl, hl, hr⟩ := hH b' hb2
        have hne : Ptr.buf k ≠ b := hne0
        have hs := hoth _ hne
        refine ⟨k, hk, rfl, ?_, ?_⟩
        · rw [buf_eq_get, hs.2.2.2.1]; exact hl
        · rw [buf_eq_get, hs.2.2.2.2.1]; exact hr
  induction r with
  | binit disk =>
    exact ⟨_, [], tracked_binit NBUF disk, fun k _ _ => binit_refcnt NBUF disk k,
      List.nodup_nil, fun b hb => by cases hb⟩
  | bget _ e ih =>
    obtain ⟨L, R, t, _, hfree, hnd, hH⟩ := hget ih e
    exact ⟨L, R, t, hfree, hnd, hH⟩
  | @bread s s' H fuel dev blockno b _ e ih =>
    obtain ⟨s1, e1, rfl⟩ := bread_ret.1 e
    obtain ⟨L, R, t, hbR, hfree, hnd, hH⟩ := hget ih e1
    have hf := fun x => bread_tail_fields s1 b (Ptr.buf x)
    refine ⟨L, R, t.same (t.inv.bread_tail b) (fun x => ⟨(hf x).1, (hf x).2.1⟩) ?_, ?_, hnd, ?_⟩
    · intro x hx
      have hne : Ptr.buf x ≠ b := by
        rintro rfl
        exact hx hbR
      refine ⟨?_, (hf x).2.2.1⟩
      have hv := (hf x).2.2.2.2
      rw [if_neg hne] at hv
      exact hv
    · intro k hk hR
      have := (hf k).2.2.2.1
      rw [buf_eq_get, this]
      exact hfree k hk hR
    · intro b' hb'
      obtain ⟨k, hk, rfl, hl, hr⟩ := hH b' hb'
      refine ⟨k, hk, rfl, ?_, ?_⟩
      · rw [buf_eq_get, (hf k).2.2.1]; exact hl
      · rw [buf_eq_get, (hf k).2.2.2.1]; exact hr
  | @brelse s s' H b _ hb e ih =>
    obtain ⟨L, R, t, hfree, hnd, hH⟩ := ih
    obtain ⟨k, hk, rfl, hl, hpos⟩ := hH b hb
    obtain ⟨L', t'⟩ := tracked_brelse t hk hpos e
    obtain ⟨n, hn⟩ := (t.inv.cover k).1 hk
    obtain ⟨s'', e', hp, _, _⟩ := brelse_spec t.inv hn hl hpos
    rw [e'] at e
    injection e with _ e2
    subst e2
    obtain ⟨_, _, _, _, _, _, hoth, _, _⟩ := hp
    have hkR := tracked_locked t hk hl
    refine ⟨L', R, t', ?_, hnd.erase _, ?_⟩
    · intro x hx hR
      have hne : x ≠ k := by
        rintro rfl
        exact hR hkR
      rw [(hoth x hne).2.2.2.2.1]
      exact hfree x hx hR
    · intro b' hb'
      have hm := (List.Nodup.mem_erase_iff hnd).1 hb'
      obtain ⟨x, hx, rfl, hlx, hrx⟩ := hH b' hm.2
      have hne : x ≠ k := by
        rintro rfl
        exact hm.1 rfl
      refine ⟨x, hx, rfl, ?_, ?_⟩
      · rw [(hoth x hne).2.2.2.1]; exact hlx
      · rw [(hoth x hne).2.2.2.2.1]; exact hrx

/-! ## The contents of one block along a run -/

theorem Coherent.step {NBUF dev blockno : Nat} {x : List Nat} {s s' : Bcache}
    (c : Coherent NBUF dev blockno x s) (hdisk : s'.disk dev blockno = s.disk dev blockno)
    (h : ∀ j, j < NBUF → (s'.buf j).dev = dev → (s'.buf j).blockno = blockno →
      (s'.buf j).valid = true →
      ((s.buf j).dev = dev ∧ (s.buf j).blockno = blockno ∧ (s.buf j).valid = true ∧
        (s'.buf j).data = (s.buf j).data) ∨ (s'.buf j).data = x) :
    Coherent NBUF dev blockno x s' := by
  refine ⟨hdisk.trans c.1, ?_⟩
  intro j hj hd hb hv
  rcases h j hj hd hb hv with ⟨h1, h2, h3, h4⟩ | h5
  · rw [h4]; exact c.2 j hj h1 h2 h3
  · exact h5

theorem Coherent.of_fields {NBUF dev blockno : Nat} {x : List Nat} {s s' : Bcache}
    (c : Coherent NBUF dev blockno x s) (hdisk : s'.disk dev blockno = s.disk dev blockno)
    (h : ∀ j, (s'.buf j).dev = (s.buf j).dev ∧ (s'.buf j).blockno = (s.buf j).blockno ∧
      (s'.buf j).valid = (s.buf j).valid ∧ (s'.buf j).data = (s.buf j).data) :
    Coherent NBUF dev blockno x s' :=
  c.step hdisk (fun j _ hd hb hv => Or.inl
    ⟨by rw [← (h j).1]; exact hd, by rw [← (h j).2.1]; exact hb,
      by rw [← (h j).2.2.1]; exact hv, (h j).2.2.2⟩)

theorem coherent_bget {NBUF dev blockno : Nat} {x : List Nat} {s s' : Bcache}
    {L : Fin 13 → List Nat} (inv : Inv NBUF s L) (c : Coherent NBUF dev blockno x s)
    {fuel d n : Nat} {b : Ptr} (e : bget fuel s d n = Outcome.ret b s') :
    Coherent NBUF dev blockno x s' := by
  obtain ⟨h, _, ⟨k, _, rfl, _, hp⟩ | ⟨_, j0, k, _, _, _, rfl, _, hp⟩⟩ := bget_ret_cases inv e
  · obtain ⟨_, _, _, hd, hb, hv, hdata, hoth, hdisk, _⟩ := hp
    refine c.of_fields (by rw [hdisk]) ?_
    intro j
    by_cases hj : j = k
    · subst hj; exact ⟨hd, hb, hv, hdata⟩
    · exact ⟨(hoth j hj).2.1, (hoth j hj).2.2.1, (hoth j hj).1, (hoth j hj).2.2.2.2.2⟩
  · obtain ⟨_, _, _, hv, _, _, _, hoth, hdisk, _⟩ := hp
    refine c.step (by rw [hdisk]) ?_
    intro j _ hd hb hvj
    by_cases hj : j = k
    · subst hj
      rw [hv] at hvj
      cases hvj
    · left
      have hs := hoth j hj
      exact ⟨by rw [← hs.2.1]; exact hd, by rw [← hs.2.2.1]; exact hb, by rw [← hs.1]; exact hvj,
        hs.2.2.2.2.2⟩

theorem disk_virtio_read (s : Bcache) (dev : Nat) (b : Ptr) :
    (virtio_disk_rw s dev b false).disk = s.disk := by
  simp [virtio_disk_rw]

theorem bread_tail_data (s : Bcache) (b x : Ptr) :
    (((virtio_disk_rw s (s.get b).dev b false).modify b
      (fun y => { y with valid := true })).get x).data =
      if x = b then s.disk (s.get b).dev (s.get b).blockno else (s.get x).data := by
  simp only [get_modify, get_virtio_read]
  split_ifs with h1 <;> simp

theorem coherent_bread_tail {NBUF dev blockno : Nat} {x : List Nat} {s : Bcache}
    (c : Coherent NBUF dev blockno x s) (b : Ptr) :
    Coherent NBUF dev blockno x (if (s.get b).valid = false then
        (virtio_disk_rw s (s.get b).dev b false).modify b (fun y => { y with valid := true })
      else s) := by
  by_cases hv : (s.get b).valid = false
  · have hf := fun j => bread_tail_fields s b (Ptr.buf j)
    simp only [if_pos hv] at hf ⊢
    refine c.step (by rw [disk_modify, disk_virtio_read]) ?_
    intro j _ hd hb hvj
    have hdat := bread_tail_data s b (Ptr.buf j)
    by_cases hj : Ptr.buf j = b
    · right
      rw [if_pos hj] at hdat
      have h1 : (s.get b).dev = dev := by
        rw [← hj]; exact ((hf j).1).symm.trans hd
      have h2 : (s.get b).blockno = blockno := by
        rw [← hj]; exact ((hf j).2.1).symm.trans hb
      have h3 : s.disk (s.get b).dev (s.get b).blockno = x := by
        rw [h1, h2]; exact c.1
      exact hdat.trans h3
    · left
      rw [if_neg hj] at hdat
      have h3 := (hf j).2.2.2.2
      rw [if_neg hj] at h3
      exact ⟨((hf j).1).symm.trans hd, ((hf j).2.1).symm.trans hb, h3.symm.trans hvj, hdat⟩
  · rw [if_neg hv]; exact c

theorem coherent_bread {NBUF dev blockno : Nat} {x : List Nat} {s s' : Bcache}
    {L : Fin 13 → List Nat} (inv : Inv NBUF s L) (c : Coherent NBUF dev blockno x s)
    {fuel d n : Nat} {b : Ptr} (e : bread fuel s d n = Outcome.ret b s') :
    Coherent NBUF dev blockno x s' := by
  obtain ⟨s1, e1, rfl⟩ := bread_ret.1 e
  exact coherent_bread_tail (coherent_bget inv c e1) b

theorem coherent_brelse {NBUF dev blockno : Nat} {x : List Nat} {s s' : Bcache}
    {L : Fin 13 → List Nat} (inv : Inv NBUF s L) (c : Coherent NBUF dev blockno x s)
    {k : Nat} (hk : k < NBUF) (hpos : 0 < (s.buf k).refcnt)
    (e : brelse s (Ptr.buf k) = Outcome.ret () s') :
    Coherent NBUF dev blockno x s' := by
  obtain ⟨n, hn⟩ := (inv.cover k).1 hk
  obtain ⟨s'', e', hp, _, _⟩ := brelse_spec inv hn (brelse_ret_locked e) hpos
  rw [e'] at e
  injection e with _ e2
  subst e2
  obtain ⟨_, _, hd, hb, hv, hdata, hoth, hdisk, _⟩ := hp
  refine c.of_fields (by rw [hdisk]) ?_
  intro j
  by_cases hj : j = k
  · subst hj; exact ⟨hd, hb, hv, hdata⟩
  · exact ⟨(hoth j hj).2.1, (hoth j hj).2.2.1, (hoth j hj).1, (hoth j hj).2.2.2.2.2⟩

/-- Along a run that does not write block `(dev, blockno)` the invariant of the
run and the contents of the block are kept. -/
theorem run_coherent {NBUF dev blockno : Nat} {x : List Nat} {s0 s : Bcache} {R0 R : List Ptr}
    {L0 : Fin 13 → List Nat} (t0 : Tracked NBUF s0 L0 R0) (c0 : Coherent NBUF dev blockno x s0)
    (r : Run NBUF (theBlock dev blockno) s0 R0 s R) :
    (∃ L, Tracked NBUF s L R) ∧ Coherent NBUF dev blockno x s := by
  induction r with
  | refl => exact ⟨⟨L0, t0⟩, c0⟩
  | bget r e ih =>
    obtain ⟨⟨L, t⟩, c⟩ := ih
    exact ⟨tracked_bget t e, coherent_bget t.inv c e⟩
  | bread r e ih =>
    obtain ⟨⟨L, t⟩, c⟩ := ih
    exact ⟨tracked_bread t e, coherent_bread t.inv c e⟩
  | @bwrite s s' R k r hk hW e ih =>
    obtain ⟨⟨L, t⟩, c⟩ := ih
    have hg := bwrite_fields e
    refine ⟨run_tracked t (Run.bwrite (W := noBlock) Run.refl hk (fun h => h) e), ?_⟩
    refine c.of_fields ?_ (fun j => by simp [buf_eq_get, hg.1])
    rw [hg.2.2]
    have hW' : ¬ (dev = (s.get (Ptr.buf k)).dev ∧ blockno = (s.get (Ptr.buf k)).blockno) := by
      rintro ⟨h1, h2⟩
      exact hW ⟨h1.symm, h2.symm⟩
    simp only [if_neg hW']
  | @brelse s s' R k r hk hr e ih =>
    obtain ⟨⟨L, t⟩, c⟩ := ih
    exact ⟨tracked_brelse t hk hr e, coherent_brelse t.inv c hk hr e⟩
  | @bpin s s' R k r hk e ih =>
    obtain ⟨⟨L, t⟩, c⟩ := ih
    refine ⟨run_tracked t (Run.bpin (W := noBlock) Run.refl hk e), ?_⟩
    have hf := fun j => bpin_fields e (Ptr.buf j)
    exact c.of_fields (by rw [(hf 0).2.2.2.2.2])
      (fun j => ⟨(hf j).2.1, (hf j).2.2.1, (hf j).1, (hf j).2.2.2.2.1⟩)
  | @bunpin s s' R k r hk hr e ih =>
    obtain ⟨⟨L, t⟩, c⟩ := ih
    refine ⟨run_tracked t (Run.bunpin (W := noBlock) Run.refl hk hr e), ?_⟩
    have hf := fun j => bunpin_fields e (Ptr.buf j)
    exact c.of_fields (by rw [(hf 0).2.2.2.2.2])
      (fun j => ⟨(hf j).2.1, (hf j).2.2.1, (hf j).1, (hf j).2.2.2.2.1⟩)
  | @setData s R k y r hk hl hW ih =>
    obtain ⟨⟨L, t⟩, c⟩ := ih
    refine ⟨run_tracked t (Run.setData (W := noBlock) y Run.refl hk hl (fun h => h)), ?_⟩
    have hf := fun j => setData_fields s (Ptr.buf k) y (Ptr.buf j)
    refine c.step (by rw [(hf 0).2.2.2.2.2.2]) ?_
    intro j _ hd hb hv
    by_cases hj : j = k
    · subst hj
      exfalso
      apply hW
      exact ⟨((hf j).2.1).symm.trans hd, ((hf j).2.2.1).symm.trans hb⟩
    · left
      have hne : Ptr.buf j ≠ Ptr.buf k := fun h => hj (by injection h)
      have hdat := (hf j).2.2.2.2.2.1
      rw [if_neg hne] at hdat
      exact ⟨((hf j).2.1).symm.trans hd, ((hf j).2.2.1).symm.trans hb,
        ((hf j).1).symm.trans hv, hdat⟩

/-- C18 (as amended): for a buffer `b` whose block number hashes to a bucket `h`
and whose count is below the maximum 4294967295 of the 32-bit counter:
`bpin(b)` returns and `b->refcnt` is one more; `bunpin(b)` returns and
`b->refcnt` is one less when it was positive, and 4294967295 when it was 0; in
both no other field of `b`, no other buffer (list heads included, so no `next`
or `prev` pointer), and nothing of the disk changes, hence every bucket list is
the same sequence as before; `bunpin` after `bpin` gives back the buffers and
list heads of the start. -/
theorem bpin_bunpin_change_refcnt_only (s : Bcache) (b : Ptr) (h : Fin 13)
    (hb : bucket? (bhash (toInt32 (s.get b).blockno)) = some h)
    (hmax : (s.get b).refcnt < 4294967295) :
    (∃ s1, bpin s b = Outcome.ret () s1 ∧
      s1.get b = { s.get b with refcnt := (s.get b).refcnt + 1 } ∧
      (∀ x, x ≠ b → s1.get x = s.get x) ∧ s1.disk = s.disk ∧ s1.diskLog = s.diskLog ∧
      (∀ i l, Bucket s1 i l ↔ Bucket s i l) ∧
      ∃ s2, bunpin s1 b = Outcome.ret () s2 ∧ s2.buf = s.buf ∧ s2.hashbucket = s.hashbucket ∧
        s2.disk = s.disk ∧ s2.diskLog = s.diskLog) ∧
    (∃ s1, bunpin s b = Outcome.ret () s1 ∧
      s1.get b = { s.get b with refcnt := decr (s.get b).refcnt } ∧
      (0 < (s.get b).refcnt → (s1.get b).refcnt + 1 = (s.get b).refcnt) ∧
      ((s.get b).refcnt = 0 → (s1.get b).refcnt = 4294967295) ∧
      (∀ x, x ≠ b → s1.get x = s.get x) ∧ s1.disk = s.disk ∧ s1.diskLog = s.diskLog ∧
      (∀ i l, Bucket s1 i l ↔ Bucket s i l)) := by
  have hlists : ∀ (f : Buf → Buf), (∀ x, (f x).next = x.next) → (∀ x, (f x).prev = x.prev) →
      ∀ i l, Bucket (release ((acquire s h).modify b f) h) i l ↔ Bucket s i l := by
    intro f h1 h2 i l
    unfold Bucket
    rw [nxt_release, prv_release, nxt_modify_of_next _ _ f h1, prv_modify_of_prev _ _ f h2,
      nxt_acquire, prv_acquire]
  have hd1 : ∀ n : Nat, decr (n + 1) = n := fun n => by
    rw [decr_pos (by omega)]; rfl
  constructor
  · refine ⟨release ((acquire s h).modify b (fun x => { x with refcnt := x.refcnt + 1 })) h,
      ?_, ?_, ?_, ?_, ?_, ?_, ?_⟩
    · unfold bpin; rw [hb]
    · simp
    · intro x hx; simp [hx]
    · simp [release, acquire]
    · simp [release, acquire]
    · exact hlists _ (fun _ => rfl) (fun _ => rfl)
    · have hb1 : bucket? (bhash (toInt32 ((release ((acquire s h).modify b
          (fun x => { x with refcnt := x.refcnt + 1 })) h).get b).blockno)) = some h := by
        simpa using hb
      refine ⟨release ((acquire (release ((acquire s h).modify b
          (fun x => { x with refcnt := x.refcnt + 1 })) h) h).modify b
          (fun x => { x with refcnt := decr x.refcnt })) h, by unfold bunpin; rw [hb1], ?_, ?_, ?_, ?_⟩
      · cases b with
        | hashbucket i => rfl
        | buf k =>
          funext x
          simp [release, acquire, Bcache.modify, Function.update_apply, hd1]
      · cases b with
        | hashbucket i =>
          funext x
          simp [release, acquire, Bcache.modify, Function.update_apply, hd1]
        | buf k => rfl
      · simp [release, acquire]
      · simp [release, acquire]
  · refine ⟨release ((acquire s h).modify b (fun x => { x with refcnt := decr x.refcnt })) h,
      ?_, ?_, ?_, ?_, ?_, ?_, ?_, ?_⟩
    · unfold bunpin; rw [hb]
    · simp
    · intro hpos; simp [decr_pos hpos]; omega
    · intro hz; simp [hz, decr]
    · intro x hx; simp [hx]
    · simp [release, acquire]
    · simp [release, acquire]
    · exact hlists _ (fun _ => rfl) (fun _ => rfl)

/-- C18, witness: pinning and unpinning buffer 0 in the state after `bread(1, 5)`. -/
theorem bpin_bunpin_change_refcnt_only_witness :
    (∃ s1, bpin afterRead (Ptr.buf 0) = Outcome.ret () s1 ∧
      s1.get (Ptr.buf 0) =
        { afterRead.get (Ptr.buf 0) with refcnt := (afterRead.get (Ptr.buf 0)).refcnt + 1 } ∧
      (∀ x, x ≠ Ptr.buf 0 → s1.get x = afterRead.get x) ∧ s1.disk = afterRead.disk ∧
      s1.diskLog = afterRead.diskLog ∧
      (∀ i l, Bucket s1 i l ↔ Bucket afterRead i l) ∧
      ∃ s2, bunpin s1 (Ptr.buf 0) = Outcome.ret () s2 ∧ s2.buf = afterRead.buf ∧
        s2.hashbucket = afterRead.hashbucket ∧
        s2.disk = afterRead.disk ∧ s2.diskLog = afterRead.diskLog) ∧
    (∃ s1, bunpin afterRead (Ptr.buf 0) = Outcome.ret () s1 ∧
      s1.get (Ptr.buf 0) =
        { afterRead.get (Ptr.buf 0) with refcnt := decr (afterRead.get (Ptr.buf 0)).refcnt } ∧
      (0 < (afterRead.get (Ptr.buf 0)).refcnt →
        (s1.get (Ptr.buf 0)).refcnt + 1 = (afterRead.get (Ptr.buf 0)).refcnt) ∧
      ((afterRead.get (Ptr.buf 0)).refcnt = 0 → (s1.get (Ptr.buf 0)).refcnt = 4294967295) ∧
      (∀ x, x ≠ Ptr.buf 0 → s1.get x = afterRead.get x) ∧ s1.disk = afterRead.disk ∧
      s1.diskLog = afterRead.diskLog ∧
      (∀ i l, Bucket s1 i l ↔ Bucket afterRead i l)) :=
  bpin_bunpin_change_refcnt_only afterRead (Ptr.buf 0) 5 (by decide) (by decide)

/-- C18, counterexample: right after `binit` (30 buffers) buffer 0 has the count
0; `bunpin` of it returns and the count is 4294967295, not one less: no number
plus one is 0, and the count is not unchanged either. -/
theorem bunpin_of_zero_count_wraps :
    (bootState.buf 0).refcnt = 0 ∧
    (bunpin bootState (Ptr.buf 0)).value? = some () ∧
    ((bunpin bootState (Ptr.buf 0)).state.buf 0).refcnt = 4294967295 ∧
    ((bunpin bootState (Ptr.buf 0)).state.buf 0).refcnt + 1 ≠ (bootState.buf 0).refcnt := by
  decide

/-- C16: in every state reached from `binit` by returning calls (`bget`, `bread`,
`brelse`, `bpin`, `bunpin`, also `bwrite` and assignments to the data of a held
buffer), with `R` the pointers that `bget` has returned: the buckets are lists
`L`, every buffer of the cache is in exactly one of them, namely in the bucket
whose index is `bhash` of its current block number (`blockno mod 13` for a
block number below 2^31), every buffer that `bget` has never returned is in
bucket 0, and what `bget` returned are buffers of the cache. -/
theorem bucket_placement (NBUF : Nat) (disk : Nat → Nat → List Nat) (s : Bcache) (R : List Ptr)
    (r : Run NBUF noBlock (binit NBUF (bcache0 disk)) [] s R) :
    ∃ L : Fin 13 → List Nat, (∀ i, Bucket s i (L i)) ∧
      (∀ k, k < NBUF → ∃ i, k ∈ L i ∧ (∀ j, k ∈ L j → j = i) ∧
        bucket? (bhash (toInt32 (s.buf k).blockno)) = some i ∧
        ((s.buf k).blockno < 2 ^ 31 → (i : Nat) = (s.buf k).blockno % 13)) ∧
      (∀ k, k < NBUF → Ptr.buf k ∉ R → k ∈ L 0) ∧
      (∀ b, b ∈ R → ∃ k, k < NBUF ∧ b = Ptr.buf k) := by
  obtain ⟨L, t⟩ := run_tracked (tracked_binit NBUF disk) r
  have hplace : ∀ k, k < NBUF → ∃ i, k ∈ L i ∧ (∀ j, k ∈ L j → j = i) ∧
      bucket? (bhash (toInt32 (s.buf k).blockno)) = some i := by
    intro k hk
    obtain ⟨i, hi⟩ := (t.inv.cover k).1 hk
    refine ⟨i, hi, ?_, t.inv.placed i k hi⟩
    intro j hj
    by_contra hne
    exact t.inv.disjoint j i hne k hj hi
  refine ⟨L, t.inv.linked, ?_, ?_, t.bufs⟩
  · intro k hk
    obtain ⟨i, hi, huniq, hp⟩ := hplace k hk
    refine ⟨i, hi, huniq, hp, ?_⟩
    intro hsmall
    have := (bhash_small _ hsmall).2
    rw [hp] at this
    injection this with this
    rw [this]
  · intro k hk hR
    obtain ⟨i, hi, _, hp⟩ := hplace k hk
    rw [(t.fresh k hk hR).2.1] at hp
    have h0 : bucket? (bhash (toInt32 0)) = some 0 := by decide
    rw [h0] at hp
    injection hp with hp
    rw [hp]
    exact hi

/-- C16, witness: the state after `binit` and `bread(1, 5)` on a cache of 30
buffers. -/
theorem bucket_placement_witness :
    ∃ L : Fin 13 → List Nat, (∀ i, Bucket afterRead i (L i)) ∧
      (∀ k, k < 30 → ∃ i, k ∈ L i ∧ (∀ j, k ∈ L j → j = i) ∧
        bucket? (bhash (toInt32 (afterRead.buf k).blockno)) = some i ∧
        ((afterRead.buf k).blockno < 2 ^ 31 → (i : Nat) = (afterRead.buf k).blockno % 13)) ∧
      (∀ k, k < 30 → Ptr.buf k ∉ [Ptr.buf 0] → k ∈ L 0) ∧
      (∀ b, b ∈ [Ptr.buf 0] → ∃ k, k < 30 ∧ b = Ptr.buf k) :=
  bucket_placement 30 (fun _ _ => []) afterRead [Ptr.buf 0]
    (Run.bread Run.refl (Outcome.eq_ret (bread 31 bootState 1 5) (Ptr.buf 0) (by decide)))

/-- C20: in every state reached from `binit` by returning calls of `bget`,
`bread` and `brelse`, `brelse` only for buffers obtained from `bget` and not
released since (`H` are the buffers held), no two distinct buffers with a
positive reference count have the same device and block number; in the lists
`L` of the buckets, a buffer with a positive reference count is the first of
its bucket with its device and block number, so of the buffers of a bucket
with one identity only the one nearest the head can be referenced.  Every
buffer held is a buffer of the cache, locked and with a positive reference
count. -/
theorem live_identities_unique (NBUF : Nat) (s : Bcache) (H : List Ptr) (r : Live NBUF s H) :
    (∀ k1 k2, k1 < NBUF → k2 < NBUF → 0 < (s.buf k1).refcnt → 0 < (s.buf k2).refcnt →
      (s.buf k1).dev = (s.buf k2).dev → (s.buf k1).blockno = (s.buf k2).blockno → k1 = k2) ∧
    (∃ L : Fin 13 → List Nat, (∀ i, Bucket s i (L i)) ∧
      ∀ i k, k ∈ L i → 0 < (s.buf k).refcnt →
        (L i).find? (isCached s (s.buf k).dev (s.buf k).blockno) = some k) ∧
    (∀ b, b ∈ H → ∃ k, k < NBUF ∧ b = Ptr.buf k ∧ (s.buf k).locked = true ∧
      0 < (s.buf k).refcnt) := by
  obtain ⟨L, R, t, hfree, _, hH⟩ := live_tracked r
  have hR : ∀ k, k < NBUF → 0 < (s.buf k).refcnt → Ptr.buf k ∈ R := by
    intro k hk hpos
    by_contra hc
    have := hfree k hk hc
    omega
  have hfirst : ∀ i k, k ∈ L i → 0 < (s.buf k).refcnt →
      (L i).find? (isCached s (s.buf k).dev (s.buf k).blockno) = some k :=
    fun i k hk hpos => t.first i k hk (hR k ((t.inv.cover k).2 ⟨i, hk⟩) hpos)
  refine ⟨?_, ⟨L, t.inv.linked, hfirst⟩, hH⟩
  intro k1 k2 h1 h2 hp1 hp2 hd hb
  obtain ⟨i1, hi1⟩ := (t.inv.cover k1).1 h1
  obtain ⟨i2, hi2⟩ := (t.inv.cover k2).1 h2
  have e1 := t.inv.placed i1 k1 hi1
  have e2 := t.inv.placed i2 k2 hi2
  rw [hb, e2] at e1
  injection e1 with e1
  subst e1
  have f1 := hfirst _ k1 hi1 hp1
  have f2 := hfirst _ k2 hi2 hp2
  rw [hd, hb, f2] at f1
  injection f1 with f1
  exact f1.symm

set_option maxRecDepth 100000 in
/-- C20, witness: the state after `binit`, `bread(1, 5)` and `bread(1, 18)` on a
cache of 30 buffers; buffers 0 and 1 are held. -/
theorem live_identities_unique_witness :
    (∃ L : Fin 13 → List Nat, (∀ i, Bucket (bread 31 afterRead 1 18).state i (L i)) ∧
      ∀ i k, k ∈ L i → 0 < ((bread 31 afterRead 1 18).state.buf k).refcnt →
        (L i).find? (isCached (bread 31 afterRead 1 18).state
          ((bread 31 afterRead 1 18).state.buf k).dev
          ((bread 31 afterRead 1 18).state.buf k).blockno) = some k) ∧
    (∀ b, b ∈ [Ptr.buf 1, Ptr.buf 0] → ∃ k, k < 30 ∧ b = Ptr.buf k ∧
      ((bread 31 afterRead 1 18).state.buf k).locked = true ∧
      0 < ((bread 31 afterRead 1 18).state.buf k).refcnt) :=
  (live_identities_unique 30 (bread 31 afterRead 1 18).state [Ptr.buf 1, Ptr.buf 0]
    (Live.bread (Live.bread (Live.binit (fun _ _ => []))
      (Outcome.eq_ret (bread 31 bootState 1 5) (Ptr.buf 0) (by decide)))
      (Outcome.eq_ret (bread 31 afterRead 1 18) (Ptr.buf 1) (by decide)))).2

/-- C17: in a state `s0` reached from `binit` by returning calls let the holder
of buffer `k` (it has the sleep-lock, else `bwrite` panics) set `b->data = x`
and call `bwrite`, which returns in state `s1`; the disk then has `x` at the
block `(dev, blockno)` of buffer `k`.  After any run of returning calls from
`s1` in which nobody else writes this block (no `bwrite` of a buffer of the
block, no assignment to the data of such a buffer), whether the buffer was
released and recycled in between or not, a `bread(dev, blockno)` that returns
gives a buffer of this block whose data is `x`. -/
theorem bwrite_then_bread_returns_written_data (NBUF : Nat) (disk : Nat → Nat → List Nat)
    (s0 : Bcache) (R0 : List Ptr) (r0 : Run NBUF noBlock (binit NBUF (bcache0 disk)) [] s0 R0)
    (k : Nat) (hk : k < NBUF) (x : List Nat) (s1 : Bcache)
    (e1 : bwrite (setData s0 (Ptr.buf k) x) (Ptr.buf k) = Outcome.ret () s1)
    (s2 : Bcache) (R2 : List Ptr)
    (r : Run NBUF (theBlock (s0.buf k).dev (s0.buf k).blockno) s1 R0 s2 R2)
    (fuel : Nat) (b : Ptr) (s3 : Bcache)
    (e3 : bread fuel s2 (s0.buf k).dev (s0.buf k).blockno = Outcome.ret b s3) :
    (s3.get b).data = x ∧ (s3.get b).dev = (s0.buf k).dev ∧
      (s3.get b).blockno = (s0.buf k).blockno ∧ (s3.get b).valid = true ∧
      s1.disk (s0.buf k).dev (s0.buf k).blockno = x ∧ (s0.buf k).locked = true := by
  obtain ⟨L0, t0⟩ := run_tracked (tracked_binit NBUF disk) r0
  have hsd := fun j => setData_fields s0 (Ptr.buf k) x (Ptr.buf j)
  have hw := bwrite_fields e1
  have hl : (s0.buf k).locked = true := ((hsd k).2.2.2.1).symm.trans hw.2.1
  have hkR := tracked_locked t0 hk hl
  have hget : ∀ j, s1.buf j = (setData s0 (Ptr.buf k) x).buf j := fun j => by
    rw [buf_eq_get, hw.1]; rfl
  have hid : ∀ j, (s1.buf j).dev = (s0.buf j).dev ∧ (s1.buf j).blockno = (s0.buf j).blockno ∧
      (s1.buf j).valid = (s0.buf j).valid ∧ (s1.buf j).locked = (s0.buf j).locked := fun j => by
    rw [hget j]
    exact ⟨(hsd j).2.1, (hsd j).2.2.1, (hsd j).1, (hsd j).2.2.2.1⟩
  have t1 : Tracked NBUF s1 L0 R0 :=
    t0.same (bwrite_inv (setData_inv t0.inv _ x) e1) (fun j => ⟨(hid j).1, (hid j).2.1⟩)
      (fun j _ => ⟨(hid j).2.2.1, (hid j).2.2.2⟩)
  have hdk : (s1.buf k).data = x := by
    rw [hget k]
    have := (hsd k).2.2.2.2.2.1
    rw [if_pos rfl] at this
    exact this
  have hdisk : s1.disk (s0.buf k).dev (s0.buf k).blockno = x := by
    rw [hw.2.2]
    have h1 : ((setData s0 (Ptr.buf k) x).get (Ptr.buf k)).dev = (s0.buf k).dev := (hsd k).2.1
    have h2 : ((setData s0 (Ptr.buf k) x).get (Ptr.buf k)).blockno = (s0.buf k).blockno :=
      (hsd k).2.2.1
    simp only [h1, h2, and_self, if_true]
    have := (hsd k).2.2.2.2.2.1
    rw [if_pos rfl] at this
    exact this
  have c1 : Coherent NBUF (s0.buf k).dev (s0.buf k).blockno x s1 := by
    refine ⟨hdisk, ?_⟩
    intro j hj hd hb hv
    rw [(hid j).1] at hd
    rw [(hid j).2.1] at hb
    rw [(hid j).2.2.1] at hv
    have hjR : Ptr.buf j ∈ R0 := by
      by_contra hc
      have := (t0.fresh j hj hc).2.2.1
      rw [hv] at this
      cases this
    obtain ⟨ij, hij⟩ := (t0.inv.cover j).1 hj
    obtain ⟨ik, hik⟩ := (t0.inv.cover k).1 hk
    have p1 := t0.inv.placed ij j hij
    have p2 := t0.inv.placed ik k hik
    rw [hb, p2] at p1
    injection p1 with p1
    subst p1
    have f1 := t0.first _ j hij hjR
    have f2 := t0.first _ k hik hkR
    rw [hd, hb, f2] at f1
    injection f1 with f1
    rw [← f1]
    exact hdk
  obtain ⟨⟨L2, t2⟩, c2⟩ := run_coherent t1 c1 r
  have c3 := coherent_bread t2.inv c2 e3
  obtain ⟨L3, t3⟩ := tracked_bread t2 e3
  obtain ⟨j, hj, rfl⟩ := t3.bufs b (List.mem_cons_self _ _)
  obtain ⟨s', eg, rfl⟩ := bread_ret.1 e3
  have hf := bget_fields eg
  have ht := bread_tail_fields s' (Ptr.buf j) (Ptr.buf j)
  have hd3 := ht.1.trans hf.1
  have hb3 := ht.2.1.trans hf.2.1
  have hv3 := ht.2.2.2.2
  rw [if_pos rfl] at hv3
  exact ⟨c3.2 j hj hd3 hb3 hv3, hd3, hb3, hv3, hdisk, hl⟩

set_option maxRecDepth 100000 in
/-- C17, witness: on a cache of 30 buffers, after `binit` and `bread(1, 5)` the
holder of buffer 0 sets its data to `[7]`, calls `bwrite` and `brelse`; the
next `bread(1, 5)` returns buffer 0 with data `[7]`. -/
theorem bwrite_then_bread_returns_written_data_witness :
    ((bread 31 afterWriteRelease 1 5).state.get (Ptr.buf 0)).data = [7] ∧
    ((bread 31 afterWriteRelease 1 5).state.get (Ptr.buf 0)).dev = (afterRead.buf 0).dev ∧
    ((bread 31 afterWriteRelease 1 5).state.get (Ptr.buf 0)).blockno = (afterRead.buf 0).blockno ∧
    ((bread 31 afterWriteRelease 1 5).state.get (Ptr.buf 0)).valid = true ∧
    afterReadWritten.disk (afterRead.buf 0).dev (afterRead.buf 0).blockno = [7] ∧
    (afterRead.buf 0).locked = true :=
  bwrite_then_bread_returns_written_data 30 (fun _ _ => []) afterRead [Ptr.buf 0]
    (Run.bread Run.refl (Outcome.eq_ret (bread 31 bootState 1 5) (Ptr.buf 0) (by decide)))
    0 (by decide) [7] afterReadWritten
    (Outcome.eq_ret (bwrite (setData afterRead (Ptr.buf 0) [7]) (Ptr.buf 0)) () (by decide))
    afterWriteRelease [Ptr.buf 0]
    (Run.brelse Run.refl (by decide) (by decide)
      (Outcome.eq_ret (brelse afterReadWritten (Ptr.buf 0)) () (by decide)))
    31 (Ptr.buf 0) (bread 31 afterWriteRelease 1 5).state
    (Outcome.eq_ret (bread 31 afterWriteRelease 1 5) (Ptr.buf 0) (by decide))

theorem twoFree_reachable : Reachable 2 twoFree :=
  Reachable.brelse
    (Reachable.brelse
      (Reachable.bread
        (Reachable.bread (Reachable.binit (fun _ _ => []))
          (Outcome.eq_ret (bread 15 twoBoot 1 5) (Ptr.buf 0) (by decide)))
        (Outcome.eq_ret (bread 15 (bread 15 twoBoot 1 5).state 1 6) (Ptr.buf 1) (by decide)))
      (by decide) (by decide)
      (Outcome.eq_ret (brelse twoHeld (Ptr.buf 0)) () (by decide)))
    (by decide) (by decide)
    (Outcome.eq_ret (brelse (brelse twoHeld (Ptr.buf 0)).state (Ptr.buf 1)) () (by decide))

set_option maxRecDepth 100000 in
/-- C2 (defect of the code): `bget` holds the lock of the home bucket while it
takes the lock of a neighbour bucket, and two calls take the same two locks in
opposite orders.  On a cache of two buffers, in the state reached by `binit`,
`bread(1, 5)`, `bread(1, 6)` and the release of both buffers (buffer 0 alone in
bucket 5, buffer 1 alone in bucket 6), `bget(1, 200)` returns with the lock
events acquire 5, acquire 6, release 6, release 5: after the second event the
caller holds the locks of buckets 5 and 6 at once, and the neighbour lock is
released while the home lock is held, not before it is acquired.  In the same
state `bget(1, 201)` returns; it first acquires lock 6 and, after the sweep of
the empty buckets 7, ..., 12, 0, ..., 4, acquires lock 5 while it still holds
lock 6. -/
theorem bget_takes_bucket_locks_in_opposite_orders :
    Reachable 2 twoFree ∧ Bucket twoFree 5 [0] ∧ Bucket twoFree 6 [1] ∧
    (bget 15 twoFree 1 200).value? = some (Ptr.buf 1) ∧
    (bget 15 twoFree 1 200).state.trace.drop twoFree.trace.length =
      [LockEvent.acquire 5, LockEvent.acquire 6, LockEvent.release 6, LockEvent.release 5] ∧
    heldAfter (((bget 15 twoFree 1 200).state.trace.drop twoFree.trace.length).take 2) = [6, 5] ∧
    (bget 15 twoFree 1 201).value? = some (Ptr.buf 0) ∧
    ((bget 15 twoFree 1 201).state.trace.drop twoFree.trace.length).take 1 =
      [LockEvent.acquire 6] ∧
    ((bget 15 twoFree 1 201).state.trace.drop twoFree.trace.length).drop 23 =
      [LockEvent.acquire 5, LockEvent.release 5, LockEvent.release 6] ∧
    heldAfter (((bget 15 twoFree 1 201).state.trace.drop twoFree.trace.length).take 24) =
      [5, 6] :=
  ⟨twoFree_reachable, by decide, by decide, by decide, by decide, by decide, by decide,
    by decide, by decide, by decide⟩

end Bio

namespace Kalloc

/-! ## Free lists -/

theorem freeList_nil (next : Nat → Nat) (h : Nat) : FreeList next h [] ↔ h = 0 := Iff.rfl

theorem freeList_cons (next : Nat → Nat) (h p : Nat) (l : List Nat) :
    FreeList next h (p :: l) ↔ h = p ∧ p ≠ 0 ∧ FreeList next (next p) l := Iff.rfl

theorem freeList_unique {next : Nat → Nat} : ∀ (l l' : List Nat) (h : Nat),
    FreeList next h l → FreeList next h l' → l = l'
  | [], [], _, _, _ => rfl
  | [], q :: l', h, h1, h2 => by
    rw [freeList_nil] at h1; rw [freeList_cons] at h2
    exact absurd (h2.1.symm.trans h1) h2.2.1
  | p :: l, [], h, h1, h2 => by
    rw [freeList_nil] at h2; rw [freeList_cons] at h1
    exact absurd (h1.1.symm.trans h2) h1.2.1
  | p :: l, q :: l', h, h1, h2 => by
    rw [freeList_cons] at h1 h2
    have hpq : p = q := h1.1.symm.trans h2.1
    subst hpq
    rw [freeList_unique l l' _ h1.2.2 h2.2.2]

theorem freeList_frame {next next' : Nat → Nat} : ∀ (l : List Nat) (h : Nat),
    (∀ p ∈ l, next' p = next p) → FreeList next h l → FreeList next' h l
  | [], _, _, h1 => h1
  | p :: l, h, hl, h1 => by
    rw [freeList_cons] at h1 ⊢
    refine ⟨h1.1, h1.2.1, ?_⟩
    rw [hl p (List.mem_cons_self _ _)]
    exact freeList_frame l _ (fun q hq => hl q (List.mem_cons_of_mem _ hq)) h1.2.2

theorem freeList_head_zero {next : Nat → Nat} {h : Nat} {l : List Nat}
    (hl : FreeList next h l) : h = 0 ↔ l = [] := by
  cases l with
  | nil => exact ⟨fun _ => rfl, fun _ => hl⟩
  | cons p l =>
    rw [freeList_cons] at hl
    constructor
    · intro h0; exact absurd (hl.1.symm.trans h0) hl.2.1
    · intro h0; cases h0

theorem freeList_ne_zero {next : Nat → Nat} {h : Nat} {l : List Nat}
    (hl : FreeList next h l) : ∀ p ∈ l, p ≠ 0 := by
  induction l generalizing h with
  | nil => intro p hp; cases hp
  | cons q l ih =>
    rw [freeList_cons] at hl
    intro p hp
    rcases List.mem_cons.1 hp with rfl | hp
    · exact hl.2.1
    · exact ih hl.2.2 p hp

/-! ## `kfree` -/

theorem kfree_invalid (P : Layout) (s : Kmem) (c pa : Nat) (h : ¬ ValidPage P pa) :
    kfree P s c pa = KResult.panic "kfree" s := by
  unfold kfree
  rw [if_pos]
  unfold ValidPage at h
  by_contra hc
  push_neg at hc
  exact h ⟨hc.1, hc.2.1, hc.2.2⟩

theorem kfree_valid (P : Layout) (s : Kmem) (c pa : Nat) (h : ValidPage P pa) :
    ∃ s', kfree P s c pa = KResult.ok s' ∧
      s'.freelist = Function.update s.freelist c pa ∧
      s'.next = Function.update s.next pa (s.freelist c) ∧
      s'.trace = s.trace ++ [KEvent.acquire c, KEvent.release c] ∧
      s'.freed = s.freed ++ [pa] := by
  unfold kfree
  rw [if_neg]
  · refine ⟨_, rfl, rfl, ?_, ?_, rfl⟩
    · simp [release, acquire, memset]
    · simp [release, acquire, memset]
  · unfold ValidPage at h
    push_neg
    exact ⟨h.1, h.2.1, h.2.2⟩

/-! ## `steal` -/

theorem steal_loop_none : ∀ (n i : Nat) (s : Kmem),
    (∀ j, i ≤ j → j < i + n → s.freelist j = 0) →
    (steal_loop n i s).1 = 0 ∧ (steal_loop n i s).2.freelist = s.freelist ∧
      (steal_loop n i s).2.next = s.next ∧ (steal_loop n i s).2.freed = s.freed ∧
      (steal_loop n i s).2.trace = s.trace ++ sweep n i
  | 0, i, s, _ => by simp [steal_loop, sweep]
  | n + 1, i, s, h => by
    have hi : s.freelist i = 0 := h i (le_refl _) (by omega)
    have ih := steal_loop_none n (i + 1) (release (acquire s i) i)
      (fun j h1 h2 => h j (by omega) (by omega))
    have e : steal_loop (n + 1) i s = steal_loop n (i + 1) (release (acquire s i) i) := by
      rw [steal_loop]; simp only [acquire]; rw [if_neg (by simpa using hi)]
    rw [e]
    refine ⟨ih.1, ih.2.1, ih.2.2.1, ih.2.2.2.1, ?_⟩
    rw [ih.2.2.2.2]; simp [release, acquire, sweep]

theorem steal_loop_found : ∀ (n i : Nat) (s : Kmem) (k : Nat), i ≤ k → k < i + n →
    s.freelist k ≠ 0 → (∀ j, i ≤ j → j < k → s.freelist j = 0) →
    (steal_loop n i s).1 = s.freelist k ∧
      (steal_loop n i s).2.freelist = Function.update s.freelist k (s.next (s.freelist k)) ∧
      (steal_loop n i s).2.next = s.next ∧ (steal_loop n i s).2.freed = s.freed ∧
      (steal_loop n i s).2.trace = s.trace ++ sweep (k - i + 1) i
  | 0, i, s, k, h1, h2, _, _ => by omega
  | n + 1, i, s, k, h1, h2, h3, h4 => by
    by_cases hik : i = k
    · subst hik
      rw [steal_loop]; simp only [acquire]; rw [if_pos (by simpa using h3)]
      refine ⟨rfl, rfl, rfl, rfl, ?_⟩
      simp [release, sweep]
    · have hi : s.freelist i = 0 := h4 i (le_refl _) (by omega)
      have ih := steal_loop_found n (i + 1) (release (acquire s i) i) k (by omega) (by omega) h3
        (fun j h5 h6 => h4 j (by omega) h6)
      have e : steal_loop (n + 1) i s = steal_loop n (i + 1) (release (acquire s i) i) := by
        rw [steal_loop]; simp only [acquire]; rw [if_neg (by simpa using hi)]
      rw [e]
      refine ⟨ih.1, ih.2.1, ih.2.2.1, ih.2.2.2.1, ?_⟩
      rw [ih.2.2.2.2]
      have hk : k - i + 1 = (k - (i + 1) + 1) + 1 := by omega
      rw [hk]; simp [release, acquire, sweep]

theorem locksHeld_sweep_take : ∀ (n i m : Nat), (locksHeld ((sweep n i).take m)).length ≤ 1
  | 0, i, m => by simp [sweep, locksHeld]
  | n + 1, i, 0 => by simp [locksHeld]
  | n + 1, i, 1 => by simp [sweep, locksHeld, lockStep]
  | n + 1, i, m + 2 => by
    have ih := locksHeld_sweep_take n (i + 1) m
    simpa [sweep, locksHeld, lockStep] using ih

theorem KResult.eq_ok (r : KResult) (h : r.isOk = true) : r = KResult.ok r.state := by
  cases r <;> simp [KResult.isOk, KResult.state] at h ⊢

/-! ## `kalloc` on the pointers -/

theorem kalloc_own (P : Layout) (s : Kmem) (c : Nat) (h : s.freelist c ≠ 0) :
    (kalloc P s c).1 = s.freelist c ∧
      (kalloc P s c).2.freelist = Function.update s.freelist c (s.next (s.freelist c)) ∧
      (kalloc P s c).2.next = Function.update s.next (s.freelist c) (filled 5) ∧
      (kalloc P s c).2.freed = s.freed ∧
      (kalloc P s c).2.trace = s.trace ++ [KEvent.acquire c, KEvent.release c] := by
  unfold kalloc
  simp [acquire, release, memset, h]

theorem kalloc_steal (P : Layout) (s : Kmem) (c : Nat) (h : s.freelist c = 0) :
    kalloc P s c =
      if (steal P (release (acquire s c) c)).1 ≠ 0 then
        ((steal P (release (acquire s c) c)).1,
          memset (steal P (release (acquire s c) c)).2 (steal P (release (acquire s c) c)).1 5)
      else steal P (release (acquire s c) c) := by
  have h1 : (acquire s c).freelist c = 0 := h
  unfold kalloc
  simp only [h1, ne_eq, not_true_eq_false, if_false, if_true]

theorem kalloc_none (P : Layout) (s : Kmem) (c : Nat) (hc : s.freelist c = 0)
    (h : ∀ i, i < P.NCPU → s.freelist i = 0) :
    (kalloc P s c).1 = 0 ∧ (kalloc P s c).2.freelist = s.freelist ∧
      (kalloc P s c).2.next = s.next ∧ (kalloc P s c).2.freed = s.freed ∧
      (kalloc P s c).2.trace =
        s.trace ++ [KEvent.acquire c, KEvent.release c] ++ sweep P.NCPU 0 := by
  have hs := steal_loop_none P.NCPU 0 (release (acquire s c) c)
    (fun j _ h2 => h j (by omega))
  rw [kalloc_steal P s c hc]
  unfold steal
  rw [if_neg (by simpa using hs.1)]
  refine ⟨hs.1, hs.2.1, hs.2.2.1, hs.2.2.2.1, ?_⟩
  rw [hs.2.2.2.2]; simp [release, acquire]

theorem kalloc_stolen (P : Layout) (s : Kmem) (c k : Nat) (hc : s.freelist c = 0)
    (hk : k < P.NCPU) (hne : s.freelist k ≠ 0) (hlow : ∀ j, j < k → s.freelist j = 0) :
    (kalloc P s c).1 = s.freelist k ∧
      (kalloc P s c).2.freelist = Function.update s.freelist k (s.next (s.freelist k)) ∧
      (kalloc P s c).2.next = Function.update s.next (s.freelist k) (filled 5) ∧
      (kalloc P s c).2.freed = s.freed ∧
      (kalloc P s c).2.trace =
        s.trace ++ [KEvent.acquire c, KEvent.release c] ++ sweep (k + 1) 0 := by
  have hs := steal_loop_found P.NCPU 0 (release (acquire s c) c) k (Nat.zero_le _) (by omega)
    hne (fun j _ h2 => hlow j h2)
  rw [kalloc_steal P s c hc]
  unfold steal
  have h1 : (steal_loop P.NCPU 0 (release (acquire s c) c)).1 ≠ 0 := by
    rw [hs.1]; exact hne
  rw [if_pos h1]
  refine ⟨hs.1, ?_, ?_, ?_, ?_⟩
  · simp only [memset]; rw [hs.2.1]; rfl
  · simp only [memset]; rw [hs.2.2.1, hs.1]; rfl
  · simp only [memset]; rw [hs.2.2.2.1]; rfl
  · simp only [memset]; rw [hs.2.2.2.2]; simp [release, acquire]

/-- Among the CPUs below `n`, some list is non-empty: there is a lowest such CPU. -/
theorem exists_lowest (f : Nat → Nat) (n : Nat) (h : ∃ i, i < n ∧ f i ≠ 0) :
    ∃ k, k < n ∧ f k ≠ 0 ∧ ∀ j, j < k → f j = 0 := by
  classical
  refine ⟨Nat.find h, (Nat.find_spec h).1, (Nat.find_spec h).2, ?_⟩
  intro j hj
  by_contra hne
  exact Nat.find_min h hj ⟨lt_trans hj (Nat.find_spec h).1, hne⟩

theorem kalloc_null_iff (P : Layout) (s : Kmem) (c : Nat) (hc : c < P.NCPU) :
    (kalloc P s c).1 = 0 ↔ ∀ i, i < P.NCPU → s.freelist i = 0 := by
  constructor
  · intro h0
    by_contra hne
    push_neg at hne
    by_cases hown : s.freelist c = 0
    · obtain ⟨k, hk, hkne, hlow⟩ := exists_lowest s.freelist P.NCPU hne
      have := (kalloc_stolen P s c k hown hk hkne hlow).1
      rw [h0] at this
      exact hkne this.symm
    · have := (kalloc_own P s c hown).1
      rw [h0] at this
      exact hown this.symm
  · intro h
    exact (kalloc_none P s c (h c hc) h).1

/-! ## The lists after a push or a pop -/

theorem pool_frame {s s' : Kmem} {i : Nat} {l : List Nat} (hl : Pool s i l)
    (hf : s'.freelist i = s.freelist i) (hn : ∀ q ∈ l, s'.next q = s.next q) : Pool s' i l := by
  unfold Pool at hl ⊢
  rw [hf]
  exact freeList_frame l _ hn hl

theorem pool_push {s s' : Kmem} {c pa : Nat} {l : List Nat} (hl : Pool s c l)
    (hf : s'.freelist = Function.update s.freelist c pa)
    (hn : s'.next = Function.update s.next pa (s.freelist c))
    (h0 : pa ≠ 0) (hpa : pa ∉ l) : Pool s' c (pa :: l) := by
  unfold Pool at hl ⊢
  rw [freeList_cons, hf, hn]
  refine ⟨by simp, h0, ?_⟩
  rw [Function.update_same]
  refine freeList_frame l _ ?_ hl
  intro q hq
  rw [Function.update_noteq]
  rintro rfl
  exact hpa hq

theorem pool_pop {s s' : Kmem} {k p v : Nat} {l : List Nat} (hl : Pool s k (p :: l))
    (hf : s'.freelist = Function.update s.freelist k (s.next p))
    (hn : s'.next = Function.update s.next p v) (hp : p ∉ l) : Pool s' k l := by
  unfold Pool at hl ⊢
  rw [freeList_cons] at hl
  rw [hf, hn, Function.update_same]
  refine freeList_frame l _ ?_ hl.2.2
  intro q hq
  rw [Function.update_noteq]
  rintro rfl
  exact hp hq

theorem pool_other {s s' : Kmem} {c j p v w : Nat} {l : List Nat} (hl : Pool s j l)
    (hj : j ≠ c) (hf : s'.freelist = Function.update s.freelist c w)
    (hn : s'.next = Function.update s.next p v) (hp : p ∉ l) : Pool s' j l := by
  refine pool_frame hl ?_ ?_
  · rw [hf, Function.update_noteq hj]
  · intro q hq
    rw [hn, Function.update_noteq]
    rintro rfl
    exact hp hq

theorem pool_head {s : Kmem} {i p : Nat} {l : List Nat} (hl : Pool s i (p :: l)) :
    s.freelist i = p ∧ p ≠ 0 := by
  unfold Pool at hl
  rw [freeList_cons] at hl
  exact ⟨hl.1, hl.2.1⟩

theorem pool_nil_iff {s : Kmem} {i : Nat} {l : List Nat} (hl : Pool s i l) :
    s.freelist i = 0 ↔ l = [] := freeList_head_zero hl

/-! ## `PGROUNDUP` and `freerange` -/

theorem PGROUNDUP_mod (P : Layout) (a : Nat) : PGROUNDUP P a % P.PGSIZE = 0 := by
  unfold PGROUNDUP; exact Nat.mul_mod_left _ _

theorem PGROUNDUP_ge (P : Layout) (a : Nat) (hpg : 0 < P.PGSIZE) : a ≤ PGROUNDUP P a := by
  unfold PGROUNDUP
  have h1 := Nat.div_add_mod (a + P.PGSIZE - 1) P.PGSIZE
  have h2 := Nat.mod_lt (a + P.PGSIZE - 1) hpg
  rw [Nat.mul_comm] at h1
  omega

theorem PGROUNDUP_lt (P : Layout) (a : Nat) (hpg : 0 < P.PGSIZE) :
    PGROUNDUP P a < a + P.PGSIZE := by
  unfold PGROUNDUP
  have h1 := Nat.div_mul_le_self (a + P.PGSIZE - 1) P.PGSIZE
  omega

theorem pageRange_zero (P : Layout) (a : Nat) : pageRange P a 0 = [] := rfl

theorem pageRange_succ (P : Layout) (a n : Nat) :
    pageRange P a (n + 1) = a :: pageRange P (a + P.PGSIZE) n := by
  unfold pageRange
  rw [List.range_succ_eq_map, List.map_cons, List.map_map]
  congr 1
  · simp
  · apply List.map_congr_left
    intro k _
    simp only [Function.comp, Nat.succ_eq_add_one]
    ring

theorem mem_pageRange (P : Layout) (a n q : Nat) :
    q ∈ pageRange P a n ↔ ∃ k, k < n ∧ q = a + k * P.PGSIZE := by
  unfold pageRange
  simp only [List.mem_map, List.mem_range]
  constructor
  · rintro ⟨k, hk, rfl⟩; exact ⟨k, hk, rfl⟩
  · rintro ⟨k, hk, rfl⟩; exact ⟨k, hk, rfl⟩

theorem pageRange_ge (P : Layout) (a n q : Nat) (h : q ∈ pageRange P a n) : a ≤ q := by
  obtain ⟨k, _, rfl⟩ := (mem_pageRange P a n q).1 h
  exact Nat.le_add_right _ _

theorem pageRange_length (P : Layout) (a n : Nat) : (pageRange P a n).length = n := by
  simp [pageRange]

theorem pageRange_sorted (P : Layout) (hpg : 0 < P.PGSIZE) : ∀ (n a : Nat),
    (pageRange P a n).Pairwise (fun x y => x < y)
  | 0, a => by rw [pageRange_zero]; exact List.Pairwise.nil
  | n + 1, a => by
    rw [pageRange_succ]
    refine List.Pairwise.cons ?_ (pageRange_sorted P hpg n _)
    intro q hq
    have := pageRange_ge P _ _ q hq
    omega

/-- The pages of `pageRange` are the aligned addresses of the range, when the
first is aligned and `n` is the number of whole pages before `pa_end`. -/
theorem mem_pageRange_iff (P : Layout) (hpg : 0 < P.PGSIZE) (a n pa_end q : Nat)
    (ha : a % P.PGSIZE = 0) (h1 : n * P.PGSIZE ≤ pa_end - a)
    (h2 : pa_end - a < (n + 1) * P.PGSIZE) :
    q ∈ pageRange P a n ↔ (q % P.PGSIZE = 0 ∧ a ≤ q ∧ q + P.PGSIZE ≤ pa_end) := by
  rw [mem_pageRange]
  constructor
  · rintro ⟨k, hk, rfl⟩
    have hk1 : (k + 1) * P.PGSIZE ≤ n * P.PGSIZE := Nat.mul_le_mul_right _ hk
    have e1 : (k + 1) * P.PGSIZE = k * P.PGSIZE + P.PGSIZE := by ring
    refine ⟨?_, Nat.le_add_right _ _, by omega⟩
    rw [Nat.add_mul_mod_self_right]; exact ha
  · rintro ⟨hq, haq, hqe⟩
    obtain ⟨x, hx⟩ := Nat.dvd_of_mod_eq_zero ha
    obtain ⟨y, hy⟩ := Nat.dvd_of_mod_eq_zero hq
    have hxy : x ≤ y := by
      by_contra hlt
      push_neg at hlt
      have := Nat.mul_lt_mul_of_pos_left hlt hpg
      omega
    refine ⟨y - x, ?_, ?_⟩
    · by_contra hge
      push_neg at hge
      have h3 : (n + 1) * P.PGSIZE ≤ (y - x + 1) * P.PGSIZE :=
        Nat.mul_le_mul_right _ (by omega)
      have e2 : (y - x + 1) * P.PGSIZE = (y - x) * P.PGSIZE + P.PGSIZE := by ring
      have e3 : (y - x) * P.PGSIZE = P.PGSIZE * y - P.PGSIZE * x := by
        rw [Nat.sub_mul, Nat.mul_comm y, Nat.mul_comm x]
      omega
    · have e3 : (y - x) * P.PGSIZE = P.PGSIZE * y - P.PGSIZE * x := by
        rw [Nat.sub_mul, Nat.mul_comm y, Nat.mul_comm x]
      have := Nat.mul_le_mul_left P.PGSIZE hxy
      omega

theorem freerange_loop_spec (P : Layout) (c pa_end : Nat) (hpg : 0 < P.PGSIZE)
    (h0 : 0 < P.kend) (hend : pa_end ≤ P.PHYSTOP) :
    ∀ (n fuel p : Nat) (s : Kmem), n < fuel → p % P.PGSIZE = 0 → P.kend ≤ p →
      n * P.PGSIZE ≤ pa_end - p → pa_end - p < (n + 1) * P.PGSIZE →
      ∃ s', freerange_loop P c pa_end fuel p s = KResult.ok s' ∧
        s'.freed = s.freed ++ pageRange P p n ∧
        (∀ l, Pool s c l → (∀ q ∈ pageRange P p n, q ∉ l) →
          Pool s' c ((pageRange P p n).reverse ++ l)) ∧
        (∀ j l, j ≠ c → Pool s j l → (∀ q ∈ pageRange P p n, q ∉ l) → Pool s' j l)
  | 0, 0, _, _, hf, _, _, _, _ => by omega
  | 0, fuel + 1, p, s, _, _, _, _, h2 => by
    refine ⟨s, ?_, by simp [pageRange_zero], ?_, ?_⟩
    · rw [freerange_loop, if_neg (by omega)]
    · intro l hl _; simpa [pageRange_zero] using hl
    · intro j l _ hl _; exact hl
  | n + 1, 0, _, _, hf, _, _, _, _ => by omega
  | n + 1, fuel + 1, p, s, hf, hp, hk, h1, h2 => by
    have e1 : (n + 1) * P.PGSIZE = n * P.PGSIZE + P.PGSIZE := by ring
    have e2 : (n + 1 + 1) * P.PGSIZE = n * P.PGSIZE + P.PGSIZE + P.PGSIZE := by ring
    have hle : p + P.PGSIZE ≤ pa_end := by omega
    have hv : ValidPage P p := ⟨hp, hk, by omega⟩
    obtain ⟨s1, hs1, hfl, hnx, _, hfr⟩ := kfree_valid P s c p hv
    obtain ⟨s', hs', hfr', hself, hother⟩ := freerange_loop_spec P c pa_end hpg h0 hend n fuel
      (p + P.PGSIZE) s1 (by omega) (by rw [Nat.add_mod_right]; exact hp) (by omega)
      (by omega) (by omega)
    refine ⟨s', ?_, ?_, ?_, ?_⟩
    · rw [freerange_loop, if_pos hle, hs1]; exact hs'
    · rw [hfr', hfr, pageRange_succ]; simp
    · intro l hl hnot
      rw [pageRange_succ] at hnot ⊢
      have hpl : p ∉ l := hnot p (List.mem_cons_self _ _)
      have hpush : Pool s1 c (p :: l) := pool_push hl hfl hnx (by omega) hpl
      have := hself (p :: l) hpush (by
        intro q hq hmem
        rcases List.mem_cons.1 hmem with rfl | hmem
        · have := pageRange_ge P _ _ _ hq; omega
        · exact hnot q (List.mem_cons_of_mem _ hq) hmem)
      simpa using this
    · intro j l hj hl hnot
      rw [pageRange_succ] at hnot
      have hpl : p ∉ l := hnot p (List.mem_cons_self _ _)
      exact hother j l hj (pool_other hl hj hfl hnx hpl)
        (fun q hq => hnot q (List.mem_cons_of_mem _ hq))

/-! ## The invariant after a push or a pop -/

theorem kinv_pop {P : Layout} {s s' : Kmem} {F : Nat → List Nat} {k p v : Nat} {l : List Nat}
    (h : KInv P s F) (hk : k < P.NCPU) (hkl : F k = p :: l)
    (hf : s'.freelist = Function.update s.freelist k (s.next p))
    (hn : s'.next = Function.update s.next p v) : KInv P s' (Function.update F k l) := by
  have hnd := h.nodup k hk
  rw [hkl] at hnd
  have hpl : p ∉ l := (List.nodup_cons.1 hnd).1
  have hpk : p ∈ F k := by rw [hkl]; exact List.mem_cons_self _ _
  have hsub : ∀ q, q ∈ l → q ∈ F k := fun q hq => by rw [hkl]; exact List.mem_cons_of_mem _ hq
  constructor
  · intro i hi
    by_cases hik : i = k
    · subst hik
      rw [Function.update_same]
      have hp := h.pool i hi
      rw [hkl] at hp
      exact pool_pop hp hf hn hpl
    · rw [Function.update_noteq hik]
      exact pool_other (h.pool i hi) hik hf hn (h.disjoint k hk i hi (Ne.symm hik) p hpk)
  · intro i hi
    by_cases hik : i = k
    · subst hik; rw [Function.update_same]; exact (List.nodup_cons.1 hnd).2
    · rw [Function.update_noteq hik]; exact h.nodup i hi
  · intro i hi j hj hij q hq
    by_cases hik : i = k
    · subst hik
      rw [Function.update_same] at hq
      rw [Function.update_noteq (Ne.symm hij)]
      exact h.disjoint i hi j hj hij q (hsub q hq)
    · rw [Function.update_noteq hik] at hq
      by_cases hjk : j = k
      · subst hjk
        rw [Function.update_same]
        intro hql
        exact h.disjoint i hi j hj hij q hq (hsub q hql)
      · rw [Function.update_noteq hjk]
        exact h.disjoint i hi j hj hij q hq
  · intro i hi q hq
    by_cases hik : i = k
    · subst hik
      rw [Function.update_same] at hq
      exact h.valid i hi q (hsub q hq)
    · rw [Function.update_noteq hik] at hq
      exact h.valid i hi q hq

theorem kinv_push {P : Layout} {s s' : Kmem} {F : Nat → List Nat} {c pa : Nat}
    (h : KInv P s F) (hc : c < P.NCPU) (hv : ValidPage P pa) (h0 : pa ≠ 0)
    (hnot : ∀ i, i < P.NCPU → pa ∉ F i)
    (hf : s'.freelist = Function.update s.freelist c pa)
    (hn : s'.next = Function.update s.next pa (s.freelist c)) :
    KInv P s' (Function.update F c (pa :: F c)) := by
  constructor
  · intro i hi
    by_cases hic : i = c
    · subst hic
      rw [Function.update_same]
      exact pool_push (h.pool i hi) hf hn h0 (hnot i hi)
    · rw [Function.update_noteq hic]
      exact pool_other (h.pool i hi) hic hf hn (hnot i hi)
  · intro i hi
    by_cases hic : i = c
    · subst hic; rw [Function.update_same]
      exact List.nodup_cons.2 ⟨hnot i hi, h.nodup i hi⟩
    · rw [Function.update_noteq hic]; exact h.nodup i hi
  · intro i hi j hj hij q hq
    by_cases hic : i = c
    · subst hic
      rw [Function.update_same] at hq
      rw [Function.update_noteq (Ne.symm hij)]
      rcases List.mem_cons.1 hq with rfl | hq
      · exact hnot j hj
      · exact h.disjoint i hi j hj hij q hq
    · rw [Function.update_noteq hic] at hq
      by_cases hjc : j = c
      · subst hjc
        rw [Function.update_same]
        intro hql
        rcases List.mem_cons.1 hql with rfl | hql
        · exact hnot i hi hq
        · exact h.disjoint i hi j hj hij q hq hql
      · rw [Function.update_noteq hjc]
        exact h.disjoint i hi j hj hij q hq
  · intro i hi q hq
    by_cases hic : i = c
    · subst hic
      rw [Function.update_same] at hq
      rcases List.mem_cons.1 hq with rfl | hq
      · exact hv
      · exact h.valid i hi q hq
    · rw [Function.update_noteq hic] at hq
      exact h.valid i hi q hq

theorem kinv_same {P : Layout} {s s' : Kmem} {F : Nat → List Nat} (h : KInv P s F)
    (hf : s'.freelist = s.freelist) (hn : s'.next = s.next) : KInv P s' F :=
  ⟨fun i hi => pool_frame (h.pool i hi) (by rw [hf]) (fun q _ => by rw [hn]),
    h.nodup, h.disjoint, h.valid⟩

/-- What `kalloc` does to the lists: it returns null and changes no list when
all are empty, else it pops the head of the list of CPU `k`, which is `c` if
that list is non-empty and else the lowest CPU with a non-empty list. -/
theorem kalloc_cases (P : Layout) (s : Kmem) (F : Nat → List Nat) (c : Nat) (hc : c < P.NCPU)
    (h : KInv P s F) :
    ((∀ i, i < P.NCPU → F i = []) ∧ (kalloc P s c).1 = 0 ∧
        (kalloc P s c).2.freelist = s.freelist ∧ (kalloc P s c).2.next = s.next ∧
        (kalloc P s c).2.freed = s.freed) ∨
    ∃ k p l, k < P.NCPU ∧ F k = p :: l ∧ p ≠ 0 ∧ (kalloc P s c).1 = p ∧
      (F c ≠ [] → k = c) ∧ (F c = [] → ∀ j, j < k → F j = []) ∧
      (kalloc P s c).2.freelist = Function.update s.freelist k (s.next p) ∧
      (kalloc P s c).2.next = Function.update s.next p (filled 5) ∧
      (kalloc P s c).2.freed = s.freed ∧
      KInv P (kalloc P s c).2 (Function.update F k l) := by
  have hzero : ∀ i, i < P.NCPU → (s.freelist i = 0 ↔ F i = []) :=
    fun i hi => pool_nil_iff (h.pool i hi)
  have hpop : ∀ k, k < P.NCPU → s.freelist k ≠ 0 →
      (kalloc P s c).1 = s.freelist k →
      (kalloc P s c).2.freelist = Function.update s.freelist k (s.next (s.freelist k)) →
      (kalloc P s c).2.next = Function.update s.next (s.freelist k) (filled 5) →
      (kalloc P s c).2.freed = s.freed → (F c ≠ [] → k = c) →
      (F c = [] → ∀ j, j < k → F j = []) →
      ∃ k p l, k < P.NCPU ∧ F k = p :: l ∧ p ≠ 0 ∧ (kalloc P s c).1 = p ∧
        (F c ≠ [] → k = c) ∧ (F c = [] → ∀ j, j < k → F j = []) ∧
        (kalloc P s c).2.freelist = Function.update s.freelist k (s.next p) ∧
        (kalloc P s c).2.next = Function.update s.next p (filled 5) ∧
        (kalloc P s c).2.freed = s.freed ∧
        KInv P (kalloc P s c).2 (Function.update F k l) := by
    intro k hk hne h1 h2 h3 h4 h5 h6
    cases hl : F k with
    | nil => exact absurd ((hzero k hk).2 hl) hne
    | cons p l =>
      have hp := h.pool k hk
      rw [hl] at hp
      have hh := pool_head hp
      rw [hh.1] at h1 h2 h3
      exact ⟨k, p, l, hk, hl, hh.2, h1, h5, h6, h2, h3, h4, kinv_pop h hk hl h2 h3⟩
  by_cases hown : s.freelist c = 0
  · have hcnil : F c = [] := (hzero c hc).1 hown
    by_cases hall : ∀ i, i < P.NCPU → s.freelist i = 0
    · left
      obtain ⟨h1, h2, h3, h4, _⟩ := kalloc_none P s c hown hall
      exact ⟨fun i hi => (hzero i hi).1 (hall i hi), h1, h2, h3, h4⟩
    · right
      push_neg at hall
      obtain ⟨k, hk, hkne, hlow⟩ := exists_lowest s.freelist P.NCPU hall
      obtain ⟨h1, h2, h3, h4, _⟩ := kalloc_stolen P s c k hown hk hkne hlow
      exact hpop k hk hkne h1 h2 h3 h4 (fun hne => absurd hcnil hne)
        (fun _ j hj => (hzero j (lt_trans hj hk)).1 (hlow j hj))
  · right
    obtain ⟨h1, h2, h3, h4, _⟩ := kalloc_own P s c hown
    exact hpop c hc hown h1 h2 h3 h4 (fun _ => rfl)
      (fun hnil => absurd ((hzero c hc).2 hnil) hown)

/-- The example state after `kinit` has the lists `bootLists`. -/
theorem bootPool_inv : KInv exampleLayout bootPool bootLists := by
  refine ⟨by decide, by decide, ?_, by decide⟩
  intro i _ j _ hij p hp hq
  unfold bootLists at hp hq
  split_ifs at hp hq with h1 h2 h2
  · omega
  · cases hq
  · cases hp
  · cases hp

/-! ## Counting pages -/

theorem sum_lengths_update_ge (F : Nat → List Nat) (k : Nat) (l : List Nat) (n : Nat)
    (h : n ≤ k) :
    ((List.range n).map (fun i => (Function.update F k l i).length)).sum =
      ((List.range n).map (fun i => (F i).length)).sum := by
  congr 1
  apply List.map_congr_left
  intro i hi
  have : i ≠ k := by
    have := List.mem_range.1 hi
    omega
  simp only [Function.update_noteq this]

theorem sum_lengths_update (F : Nat → List Nat) (k : Nat) (l : List Nat) : ∀ n, k < n →
    ((List.range n).map (fun i => (Function.update F k l i).length)).sum + (F k).length =
      ((List.range n).map (fun i => (F i).length)).sum + l.length
  | 0, h => by omega
  | n + 1, h => by
    rw [List.range_succ, List.map_append, List.map_append, List.sum_append, List.sum_append]
    by_cases hk : k = n
    · subst hk
      rw [sum_lengths_update_ge F k l k (le_refl _)]
      simp
      omega
    · have ih := sum_lengths_update F k l n (by omega)
      have hn : n ≠ k := fun e => hk e.symm
      simp only [List.map_cons, List.map_nil, List.sum_cons, List.sum_nil,
        Function.update_noteq hn]
      omega

theorem freeCount_update (P : Layout) (F : Nat → List Nat) (k : Nat) (l : List Nat)
    (hk : k < P.NCPU) :
    freeCount P (Function.update F k l) + (F k).length = freeCount P F + l.length :=
  sum_lengths_update F k l P.NCPU hk

theorem freeCount_nil (P : Layout) : freeCount P (fun _ => []) = 0 := by
  unfold freeCount
  induction P.NCPU with
  | zero => rfl
  | succ n ih => rw [List.range_succ, List.map_append, List.sum_append, ih]; rfl

/-! ## Fuel of `freerange` -/

theorem freerange_loop_fuel (P : Layout) (c pa_end : Nat) (hend : pa_end ≤ P.PHYSTOP) :
    ∀ (fuel n p : Nat) (s : Kmem), fuel ≤ n → p % P.PGSIZE = 0 → P.kend ≤ p →
      n * P.PGSIZE ≤ pa_end - p → 0 < P.PGSIZE →
      freerange_loop P c pa_end fuel p s = KResult.outOfFuel
  | 0, _, _, _, _, _, _, _, _ => rfl
  | fuel + 1, 0, _, _, h, _, _, _, _ => by omega
  | fuel + 1, n + 1, p, s, h, hp, hk, h1, hpg => by
    have e1 : (n + 1) * P.PGSIZE = n * P.PGSIZE + P.PGSIZE := by ring
    have hle : p + P.PGSIZE ≤ pa_end := by omega
    have hv : ValidPage P p := ⟨hp, hk, by omega⟩
    obtain ⟨s1, hs1, _⟩ := kfree_valid P s c p hv
    rw [freerange_loop, if_pos hle, hs1]
    exact freerange_loop_fuel P c pa_end hend fuel n (p + P.PGSIZE) s1 (by omega)
      (by rw [Nat.add_mod_right]; exact hp) (by omega) (by omega) hpg

/-- After `kinit` on CPU `c` the lists are well formed and hold as many pages as
`kfree` has been called for. -/
theorem kinit_inv (P : Layout) (hpg : 0 < P.PGSIZE) (h0 : 0 < P.kend) (mem : Nat → Nat)
    (fuel c : Nat) (s : Kmem) (hc : c < P.NCPU) (h : kinit P fuel (kmem0 mem) c = KResult.ok s) :
    ∃ F, KInv P s F ∧ freeCount P F = s.freed.length := by
  have h1 := Nat.div_mul_le_self (P.PHYSTOP - PGROUNDUP P P.kend) P.PGSIZE
  have h2 := Nat.lt_div_mul_add (a := P.PHYSTOP - PGROUNDUP P P.kend) hpg
  have e1 : ((P.PHYSTOP - PGROUNDUP P P.kend) / P.PGSIZE + 1) * P.PGSIZE =
      (P.PHYSTOP - PGROUNDUP P P.kend) / P.PGSIZE * P.PGSIZE + P.PGSIZE := by ring
  have hal := PGROUNDUP_mod P P.kend
  have hge := PGROUNDUP_ge P P.kend hpg
  by_cases hfuel : (P.PHYSTOP - PGROUNDUP P P.kend) / P.PGSIZE < fuel
  · obtain ⟨s0, hs0, hfr, hself, hother⟩ := freerange_loop_spec P c P.PHYSTOP hpg h0 (le_refl _)
      ((P.PHYSTOP - PGROUNDUP P P.kend) / P.PGSIZE) fuel (PGROUNDUP P P.kend) (kmem0 mem) hfuel
      hal hge h1 (by omega)
    have hs : s0 = s := by
      unfold kinit freerange at h
      rw [hs0] at h
      cases h; rfl
    subst hs
    have hmem := fun q => mem_pageRange_iff P hpg (PGROUNDUP P P.kend)
      ((P.PHYSTOP - PGROUNDUP P P.kend) / P.PGSIZE) P.PHYSTOP q hal h1 (by omega)
    refine ⟨Function.update (fun _ => []) c (pageRange P (PGROUNDUP P P.kend)
      ((P.PHYSTOP - PGROUNDUP P P.kend) / P.PGSIZE)).reverse, ⟨?_, ?_, ?_, ?_⟩, ?_⟩
    · intro i _
      by_cases hic : i = c
      · subst hic
        rw [Function.update_same]
        simpa using hself [] rfl (fun q _ hq => by cases hq)
      · rw [Function.update_noteq hic]
        exact hother i [] hic rfl (fun q _ hq => by cases hq)
    · intro i _
      by_cases hic : i = c
      · subst hic
        rw [Function.update_same, List.nodup_reverse]
        exact (pageRange_sorted P hpg _ _).imp (fun h => Nat.ne_of_lt h)
      · rw [Function.update_noteq hic]; exact List.nodup_nil
    · intro i _ j _ hij q hq
      by_cases hic : i = c
      · subst hic
        rw [Function.update_noteq (Ne.symm hij)]
        exact List.not_mem_nil _
      · rw [Function.update_noteq hic] at hq
        cases hq
    · intro i _ q hq
      by_cases hic : i = c
      · subst hic
        rw [Function.update_same, List.mem_reverse, hmem] at hq
        exact ⟨hq.1, by omega, by omega⟩
      · rw [Function.update_noteq hic] at hq
        cases hq
    · have := freeCount_update P (fun _ => []) c (pageRange P (PGROUNDUP P P.kend)
        ((P.PHYSTOP - PGROUNDUP P P.kend) / P.PGSIZE)).reverse hc
      rw [freeCount_nil] at this
      rw [hfr]
      simp only [List.length_nil, List.length_reverse, kmem0, List.nil_append] at this ⊢
      omega
  · exfalso
    have := freerange_loop_fuel P c P.PHYSTOP (le_refl _) fuel
      ((P.PHYSTOP - PGROUNDUP P P.kend) / P.PGSIZE) (PGROUNDUP P P.kend) (kmem0 mem)
      (by omega) hal hge h1 hpg
    unfold kinit freerange at h
    rw [this] at h
    cases h

/-- The invariant of the reachable states: the lists are well formed, the
allocated pages `A` are distinct valid pages on no list, and the pages on the
lists and the allocated pages together are as many as `kinit` freed. -/
theorem kreach_inv (P : Layout) (hpg : 0 < P.PGSIZE) (h0 : 0 < P.kend) (s : Kmem)
    (A : List Nat) (n : Nat) (h : KReach P s A n) :
    ∃ F, KInv P s F ∧ freeCount P F + A.length = n ∧ A.Nodup ∧
      ∀ p, p ∈ A → ValidPage P p ∧ p ≠ 0 ∧ ∀ i, i < P.NCPU → p ∉ F i := by
  induction h with
  | init mem fuel c s hc hk =>
    obtain ⟨F, hinv, hcount⟩ := kinit_inv P hpg h0 mem fuel c s hc hk
    exact ⟨F, hinv, by simpa using hcount, List.nodup_nil, fun p hp => by cases hp⟩
  | kalloc s A n c _ hc ih =>
    obtain ⟨F, hinv, hcount, hnd, hA⟩ := ih
    rcases kalloc_cases P s F c hc hinv with
      ⟨_, hz, hfl, hnx, _⟩ | ⟨k, p, l, hk, hkl, hp0, hr, _, _, hfl, hnx, _, hinv1⟩
    · rw [if_pos hz]
      exact ⟨F, kinv_same hinv hfl hnx, hcount, hnd, hA⟩
    · rw [hr, if_neg hp0]
      have hpk : p ∈ F k := by rw [hkl]; exact List.mem_cons_self _ _
      have hsub : ∀ i q, q ∈ Function.update F k l i → q ∈ F i := by
        intro i q hq
        by_cases hik : i = k
        · subst hik
          rw [Function.update_same] at hq
          rw [hkl]; exact List.mem_cons_of_mem _ hq
        · rw [Function.update_noteq hik] at hq; exact hq
      have hnot : ∀ i, i < P.NCPU → p ∉ Function.update F k l i := by
        intro i hi
        by_cases hik : i = k
        · subst hik
          rw [Function.update_same]
          have := hinv.nodup i hi
          rw [hkl] at this
          exact (List.nodup_cons.1 this).1
        · rw [Function.update_noteq hik]
          exact hinv.disjoint k hk i hi (Ne.symm hik) p hpk
      have hcnt := freeCount_update P F k l hk
      rw [hkl] at hcnt
      refine ⟨Function.update F k l, hinv1, ?_, ?_, ?_⟩
      · simp only [List.length_cons] at hcnt ⊢
        omega
      · exact List.nodup_cons.2 ⟨fun hpa => (hA p hpa).2.2 k hk hpk, hnd⟩
      · intro q hq
        rcases List.mem_cons.1 hq with rfl | hq
        · exact ⟨hinv.valid k hk q hpk, hp0, hnot⟩
        · exact ⟨(hA q hq).1, (hA q hq).2.1, fun i hi hqi => (hA q hq).2.2 i hi (hsub i q hqi)⟩
  | kfree s A n c pa s' _ hc hpa hk ih =>
    obtain ⟨F, hinv, hcount, hnd, hA⟩ := ih
    obtain ⟨hv, hpa0, hnot⟩ := hA pa hpa
    obtain ⟨s1, hs1, hfl, hnx, _, _⟩ := kfree_valid P s c pa hv
    have hs : s1 = s' := by
      rw [hs1] at hk
      cases hk; rfl
    subst hs
    have hcnt := freeCount_update P F c (pa :: F c) hc
    have hlen := List.length_erase_of_mem hpa
    have hpos := List.length_pos_of_mem hpa
    refine ⟨Function.update F c (pa :: F c), kinv_push hinv hc hv hpa0 hnot hfl hnx, ?_,
      hnd.erase pa, ?_⟩
    · simp only [List.length_cons] at hcnt
      omega
    · intro q hq
      have hqA : q ∈ A := List.mem_of_mem_erase hq
      have hqne : q ≠ pa := ((List.Nodup.mem_erase_iff hnd).1 hq).1
      refine ⟨(hA q hqA).1, (hA q hqA).2.1, ?_⟩
      intro i hi hqi
      by_cases hic : i = c
      · subst hic
        rw [Function.update_same] at hqi
        rcases List.mem_cons.1 hqi with rfl | hqi
        · exact hqne rfl
        · exact (hA q hqA).2.2 i hi hqi
      · rw [Function.update_noteq hic] at hqi
        exact (hA q hqA).2.2 i hi hqi

theorem bootPool_reach : KReach exampleLayout bootPool [] bootPool.freed.length :=
  KReach.init (fun _ => 0) 4 0 bootPool (by decide) (KResult.eq_ok _ rfl)

/-- C19: `steal()` looks at the CPUs 0, 1, ... in this order, taking and then
freeing the lock of one CPU at a time (`sweep`).  With `F` the free lists: if
CPU `k` is the lowest CPU whose list is non-empty, `steal` returns the head of
that list, the list of CPU `k` loses exactly this page and every other list is
what it was, and no CPU after `k` is looked at; if every list is empty it
returns null after looking at all CPUs and every list is what it was; it
returns null exactly when every list is empty; no page is written; and after
every event of the call at most one per-CPU lock is held. -/
theorem steal_takes_head_of_lowest_nonempty_cpu (P : Layout) (s : Kmem) (F : Nat → List Nat)
    (hF : ∀ i, i < P.NCPU → Pool s i (F i)) :
    (∀ k p l, k < P.NCPU → F k = p :: l → (∀ j, j < k → F j = []) →
      (steal P s).1 = p ∧ Pool (steal P s).2 k l ∧
        (∀ j, j < P.NCPU → j ≠ k → Pool (steal P s).2 j (F j)) ∧
        (steal P s).2.trace = s.trace ++ sweep (k + 1) 0) ∧
    ((∀ i, i < P.NCPU → F i = []) →
      (steal P s).1 = 0 ∧ (∀ i, i < P.NCPU → Pool (steal P s).2 i (F i)) ∧
        (steal P s).2.trace = s.trace ++ sweep P.NCPU 0) ∧
    ((steal P s).1 = 0 ↔ ∀ i, i < P.NCPU → F i = []) ∧
    (steal P s).2.next = s.next ∧
    (∃ evs, (steal P s).2.trace = s.trace ++ evs ∧
      ∀ m, (locksHeld (evs.take m)).length ≤ 1) := by
  have hzero : ∀ i, i < P.NCPU → (s.freelist i = 0 ↔ F i = []) :=
    fun i hi => pool_nil_iff (hF i hi)
  have hfound : ∀ k p l, k < P.NCPU → F k = p :: l → (∀ j, j < k → F j = []) →
      (steal P s).1 = p ∧ Pool (steal P s).2 k l ∧
        (∀ j, j < P.NCPU → j ≠ k → Pool (steal P s).2 j (F j)) ∧
        (steal P s).2.trace = s.trace ++ sweep (k + 1) 0 ∧ (steal P s).2.next = s.next := by
    intro k p l hk hkl hlow
    have hp := hF k hk
    rw [hkl] at hp
    have hh := pool_head hp
    have hs := steal_loop_found P.NCPU 0 s k (Nat.zero_le _) (by omega)
      (by rw [hh.1]; exact hh.2)
      (fun j _ h2 => (hzero j (lt_trans h2 hk)).2 (hlow j h2))
    rw [hh.1] at hs
    refine ⟨hs.1, ?_, ?_, hs.2.2.2.2, hs.2.2.1⟩
    · unfold Pool at hp ⊢
      rw [freeList_cons] at hp
      show FreeList (steal_loop P.NCPU 0 s).2.next ((steal_loop P.NCPU 0 s).2.freelist k) l
      rw [hs.2.1, hs.2.2.1, Function.update_same]
      exact hp.2.2
    · intro j hj hjk
      refine pool_frame (hF j hj) ?_ (fun q _ => ?_)
      · show (steal_loop P.NCPU 0 s).2.freelist j = _
        rw [hs.2.1, Function.update_noteq hjk]
      · show (steal_loop P.NCPU 0 s).2.next q = _
        rw [hs.2.2.1]
  have hnone : (∀ i, i < P.NCPU → F i = []) →
      (steal P s).1 = 0 ∧ (∀ i, i < P.NCPU → Pool (steal P s).2 i (F i)) ∧
        (steal P s).2.trace = s.trace ++ sweep P.NCPU 0 ∧ (steal P s).2.next = s.next := by
    intro h
    have hs := steal_loop_none P.NCPU 0 s (fun j _ h2 => (hzero j (by omega)).2 (h j (by omega)))
    refine ⟨hs.1, ?_, hs.2.2.2.2, hs.2.2.1⟩
    intro i hi
    refine pool_frame (hF i hi) ?_ (fun q _ => ?_)
    · show (steal_loop P.NCPU 0 s).2.freelist i = _
      rw [hs.2.1]
    · show (steal_loop P.NCPU 0 s).2.next q = _
      rw [hs.2.2.1]
  have hcases : (∀ i, i < P.NCPU → F i = []) ∨
      ∃ k p l, k < P.NCPU ∧ F k = p :: l ∧ ∀ j, j < k → F j = [] := by
    by_cases hall : ∀ i, i < P.NCPU → s.freelist i = 0
    · exact Or.inl (fun i hi => (hzero i hi).1 (hall i hi))
    · push_neg at hall
      obtain ⟨k, hk, hkne, hlow⟩ := exists_lowest s.freelist P.NCPU hall
      right
      cases hl : F k with
      | nil => exact absurd ((hzero k hk).2 hl) hkne
      | cons p l =>
        exact ⟨k, p, l, hk, hl, fun j hj => (hzero j (lt_trans hj hk)).1 (hlow j hj)⟩
  refine ⟨fun k p l hk hkl hlow => ?_, fun h => ?_, ?_, ?_, ?_⟩
  · obtain ⟨h1, h2, h3, h4, _⟩ := hfound k p l hk hkl hlow
    exact ⟨h1, h2, h3, h4⟩
  · obtain ⟨h1, h2, h3, _⟩ := hnone h
    exact ⟨h1, h2, h3⟩
  · constructor
    · intro h0
      rcases hcases with h | ⟨k, p, l, hk, hkl, hlow⟩
      · exact h
      · have h1 := (hfound k p l hk hkl hlow).1
        have hp := hF k hk
        rw [hkl] at hp
        exact absurd (h1.symm.trans h0) (pool_head hp).2
    · intro h; exact (hnone h).1
  · rcases hcases with h | ⟨k, p, l, hk, hkl, hlow⟩
    · exact (hnone h).2.2.2
    · exact (hfound k p l hk hkl hlow).2.2.2.2
  · rcases hcases with h | ⟨k, p, l, hk, hkl, hlow⟩
    · exact ⟨_, (hnone h).2.2.1, fun m => locksHeld_sweep_take _ _ m⟩
    · exact ⟨_, (hfound k p l hk hkl hlow).2.2.2.1, fun m => locksHeld_sweep_take _ _ m⟩

/-- C19, witness: `steal` in the state after `kinit` on CPU 0 of the example
layout, where CPU 0 has three pages and CPU 1 none. -/
theorem steal_takes_head_of_lowest_nonempty_cpu_witness :
    (∀ i, i < exampleLayout.NCPU → Pool bootPool i (bootLists i)) ∧
    (steal exampleLayout bootPool).1 = 0x80024000 ∧
    Pool (steal exampleLayout bootPool).2 0 [0x80023000, 0x80022000] ∧
    ((steal exampleLayout bootPool).1 = 0 ↔ ∀ i, i < exampleLayout.NCPU → bootLists i = []) :=
  ⟨by decide,
    ((steal_takes_head_of_lowest_nonempty_cpu exampleLayout bootPool bootLists (by decide)).1
      0 0x80024000 [0x80023000, 0x80022000] (by decide) (by decide) (by decide)).1,
    ((steal_takes_head_of_lowest_nonempty_cpu exampleLayout bootPool bootLists (by decide)).1
      0 0x80024000 [0x80023000, 0x80022000] (by decide) (by decide) (by decide)).2.1,
    (steal_takes_head_of_lowest_nonempty_cpu exampleLayout bootPool bootLists (by decide)).2.2.1⟩

/-- C14 (as amended): `kfree(pa)` on CPU `c` panics with "kfree", in an unchanged
state, if and only if `pa` is not a multiple of `PGSIZE`, or is below the
kernel end, or is at least `PHYSTOP`; a null `pa` panics when the kernel end is
not 0.  Otherwise it returns: the head pointer of CPU `c` is `pa`, the `next`
cell of `pa` is the old head, no other head pointer and no other `next` cell
changes.  So, provided `pa` is on no free list before the call, the list of
CPU `c` is `pa` followed by the old list and the list of every other CPU is
what it was. -/
theorem kfree_panics_or_pushes (P : Layout) (s : Kmem) (c pa : Nat) :
    (kfree P s c pa = KResult.panic "kfree" s ↔
      (pa % P.PGSIZE ≠ 0 ∨ pa < P.kend ∨ P.PHYSTOP ≤ pa)) ∧
    ((kfree P s c pa).isOk = false ↔ (pa % P.PGSIZE ≠ 0 ∨ pa < P.kend ∨ P.PHYSTOP ≤ pa)) ∧
    (0 < P.kend → kfree P s c 0 = KResult.panic "kfree" s) ∧
    (¬ (pa % P.PGSIZE ≠ 0 ∨ pa < P.kend ∨ P.PHYSTOP ≤ pa) →
      ∃ s', kfree P s c pa = KResult.ok s' ∧ s'.freelist c = pa ∧ s'.next pa = s.freelist c ∧
        (∀ j, j ≠ c → s'.freelist j = s.freelist j) ∧ (∀ q, q ≠ pa → s'.next q = s.next q) ∧
        (0 < P.kend → ∀ F : Nat → List Nat, (∀ i, i < P.NCPU → Pool s i (F i)) →
          (∀ i, i < P.NCPU → pa ∉ F i) → c < P.NCPU →
          Pool s' c (pa :: F c) ∧ ∀ j, j < P.NCPU → j ≠ c → Pool s' j (F j))) := by
  have hbad : (pa % P.PGSIZE ≠ 0 ∨ pa < P.kend ∨ P.PHYSTOP ≤ pa) ↔ ¬ ValidPage P pa := by
    unfold ValidPage
    constructor
    · rintro (h | h | h) ⟨h1, h2, h3⟩
      · exact h h1
      · omega
      · omega
    · intro h
      by_contra hc
      push_neg at hc
      exact h ⟨hc.1, hc.2.1, hc.2.2⟩
  refine ⟨?_, ?_, ?_, ?_⟩
  · rw [hbad]
    constructor
    · intro h hv
      obtain ⟨s', hs', _⟩ := kfree_valid P s c pa hv
      rw [hs'] at h
      cases h
    · exact kfree_invalid P s c pa
  · rw [hbad]
    constructor
    · intro h hv
      obtain ⟨s', hs', _⟩ := kfree_valid P s c pa hv
      rw [hs'] at h
      simp [KResult.isOk] at h
    · intro h
      rw [kfree_invalid P s c pa h]
      rfl
  · intro h0
    apply kfree_invalid
    rintro ⟨_, h2, _⟩
    omega
  · intro h
    have hv : ValidPage P pa := by
      by_contra hc
      exact h (hbad.2 hc)
    obtain ⟨s', hs', hfl, hnx, _, _⟩ := kfree_valid P s c pa hv
    refine ⟨s', hs', ?_, ?_, ?_, ?_, ?_⟩
    · rw [hfl, Function.update_same]
    · rw [hnx, Function.update_same]
    · intro j hj; rw [hfl, Function.update_noteq hj]
    · intro q hq; rw [hnx, Function.update_noteq hq]
    · intro h0 F hF hnot hc
      have hpa : pa ≠ 0 := by
        have := hv.2.1
        omega
      exact ⟨pool_push (hF c hc) hfl hnx hpa (hnot c hc),
        fun j hj hjc => pool_other (hF j hj) hjc hfl hnx (hnot j hj)⟩

/-- C14, counterexample: in the state after `kinit` on CPU 0 of the example
layout, `kfree` on CPU 1 of the page at the head of the list of CPU 0 passes
the checks and returns, and the list of CPU 0 is no longer its three pages: it
is cut down to the page freed. -/
theorem kfree_of_listed_page_changes_another_list :
    Pool bootPool 0 [0x80024000, 0x80023000, 0x80022000] ∧ Pool bootPool 1 [] ∧
    ¬ (0x80024000 % exampleLayout.PGSIZE ≠ 0 ∨ 0x80024000 < exampleLayout.kend ∨
        exampleLayout.PHYSTOP ≤ 0x80024000) ∧
    (kfree exampleLayout bootPool 1 0x80024000).isOk = true ∧
    ¬ Pool (kfree exampleLayout bootPool 1 0x80024000).state 0
        [0x80024000, 0x80023000, 0x80022000] ∧
    Pool (kfree exampleLayout bootPool 1 0x80024000).state 0 [0x80024000] ∧
    Pool (kfree exampleLayout bootPool 1 0x80024000).state 1 [0x80024000] := by
  decide

/-- C15: for a range inside the managed memory (`end <= range_start`,
`range_end <= PHYSTOP`) `freerange(range_start, range_end)` on CPU `c` returns,
given fuel for its loop.  The pages it passes to `kfree`, in this order, are
`pages`: exactly the page-aligned addresses `p` with
`PGROUNDUP(range_start) <= p` and `p + PGSIZE <= range_end`, in strictly
increasing order (so each once).  If the list of CPU `c` was empty it now
holds these pages, highest address first; a list of another CPU that was
empty is empty. -/
theorem freerange_frees_the_pages_of_the_range (P : Layout) (s : Kmem)
    (c range_start range_end fuel : Nat) (hpg : 0 < P.PGSIZE) (h0 : 0 < P.kend)
    (hstart : P.kend ≤ range_start) (hend : range_end ≤ P.PHYSTOP)
    (hfuel : (range_end - PGROUNDUP P range_start) / P.PGSIZE < fuel) :
    ∃ s' pages, freerange P fuel s c range_start range_end = KResult.ok s' ∧
      s'.freed = s.freed ++ pages ∧
      (∀ p, p ∈ pages ↔
        (p % P.PGSIZE = 0 ∧ PGROUNDUP P range_start ≤ p ∧ p + P.PGSIZE ≤ range_end)) ∧
      pages.Pairwise (fun x y => x < y) ∧
      (Pool s c [] → Pool s' c pages.reverse) ∧
      (∀ j, j ≠ c → Pool s j [] → Pool s' j []) := by
  have h1 := Nat.div_mul_le_self (range_end - PGROUNDUP P range_start) P.PGSIZE
  have h2 := Nat.lt_div_mul_add (a := range_end - PGROUNDUP P range_start) hpg
  have e1 : ((range_end - PGROUNDUP P range_start) / P.PGSIZE + 1) * P.PGSIZE =
      (range_end - PGROUNDUP P range_start) / P.PGSIZE * P.PGSIZE + P.PGSIZE := by ring
  obtain ⟨s', hs', hfr, hself, hother⟩ := freerange_loop_spec P c range_end hpg h0 hend
    ((range_end - PGROUNDUP P range_start) / P.PGSIZE) fuel (PGROUNDUP P range_start) s hfuel
    (PGROUNDUP_mod P _) (le_trans hstart (PGROUNDUP_ge P _ hpg)) h1 (by omega)
  refine ⟨s', _, hs', hfr, ?_, pageRange_sorted P hpg _ _, ?_, ?_⟩
  · intro p
    exact mem_pageRange_iff P hpg _ _ range_end p (PGROUNDUP_mod P _) h1 (by omega)
  · intro hl
    simpa using hself [] hl (fun q _ hq => by cases hq)
  · intro j hj hl
    exact hother j [] hj hl (fun q _ hq => by cases hq)

/-- C15, witness: `freerange(end, PHYSTOP)` of the example layout on CPU 0, from
the empty storage. -/
theorem freerange_frees_the_pages_of_the_range_witness :
    ∃ s' pages, freerange exampleLayout 4 (kmem0 (fun _ => 0)) 0 0x80021005 0x80025000 =
        KResult.ok s' ∧
      s'.freed = (kmem0 (fun _ => 0)).freed ++ pages ∧
      (∀ p, p ∈ pages ↔ (p % exampleLayout.PGSIZE = 0 ∧
        PGROUNDUP exampleLayout 0x80021005 ≤ p ∧ p + exampleLayout.PGSIZE ≤ 0x80025000)) ∧
      pages.Pairwise (fun x y => x < y) ∧
      (Pool (kmem0 (fun _ => 0)) 0 [] → Pool s' 0 pages.reverse) ∧
      (∀ j, j ≠ 0 → Pool (kmem0 (fun _ => 0)) j [] → Pool s' j []) :=
  freerange_frees_the_pages_of_the_range exampleLayout (kmem0 (fun _ => 0)) 0 0x80021005
    0x80025000 4 (by decide) (by decide) (by decide) (by decide) (by decide)

/-- C11: `kalloc` on CPU `c` returns null if and only if the free list of every
CPU is empty; when some list is non-empty it returns a page, the head of the
list of some CPU.  After `kinit` on CPU 0 (which returns, given fuel for its
loop) CPU 0 owns all pages and the other lists are empty; if there is a page,
the first `kalloc` on CPU 1 returns the head of the list of CPU 0, which loses
exactly this page, and the other lists stay empty. -/
theorem kalloc_null_iff_every_list_empty (P : Layout) (hpg : 0 < P.PGSIZE) (h0 : 0 < P.kend)
    (hn : 1 < P.NCPU) :
    (∀ s c, c < P.NCPU →
      ((kalloc P s c).1 = 0 ↔ ∀ i, i < P.NCPU → Pool s i []) ∧
      ((∃ i, i < P.NCPU ∧ ¬ Pool s i []) →
        (kalloc P s c).1 ≠ 0 ∧ ∃ i, i < P.NCPU ∧ s.freelist i = (kalloc P s c).1)) ∧
    (∀ mem fuel, (P.PHYSTOP - PGROUNDUP P P.kend) / P.PGSIZE < fuel →
      ∃ s0 pages, kinit P fuel (kmem0 mem) 0 = KResult.ok s0 ∧ Pool s0 0 pages ∧
        (∀ j, j ≠ 0 → Pool s0 j []) ∧
        ∀ p l, pages = p :: l →
          (kalloc P s0 1).1 = p ∧ Pool (kalloc P s0 1).2 0 l ∧
            ∀ j, j ≠ 0 → Pool (kalloc P s0 1).2 j []) := by
  constructor
  · intro s c hc
    have hiff : (kalloc P s c).1 = 0 ↔ ∀ i, i < P.NCPU → Pool s i [] := kalloc_null_iff P s c hc
    refine ⟨hiff, ?_⟩
    rintro ⟨i, hi, hne⟩
    have hnz : (kalloc P s c).1 ≠ 0 := fun hz => hne (hiff.1 hz i hi)
    refine ⟨hnz, ?_⟩
    by_cases hown : s.freelist c = 0
    · have hex : ∃ i, i < P.NCPU ∧ s.freelist i ≠ 0 := ⟨i, hi, hne⟩
      obtain ⟨k, hk, hkne, hlow⟩ := exists_lowest s.freelist P.NCPU hex
      exact ⟨k, hk, (kalloc_stolen P s c k hown hk hkne hlow).1.symm⟩
    · exact ⟨c, hc, (kalloc_own P s c hown).1.symm⟩
  · intro mem fuel hfuel
    have h1 := Nat.div_mul_le_self (P.PHYSTOP - PGROUNDUP P P.kend) P.PGSIZE
    have h2 := Nat.lt_div_mul_add (a := P.PHYSTOP - PGROUNDUP P P.kend) hpg
    have e1 : ((P.PHYSTOP - PGROUNDUP P P.kend) / P.PGSIZE + 1) * P.PGSIZE =
        (P.PHYSTOP - PGROUNDUP P P.kend) / P.PGSIZE * P.PGSIZE + P.PGSIZE := by ring
    obtain ⟨s0, hs0, _, hself, hother⟩ := freerange_loop_spec P 0 P.PHYSTOP hpg h0 (le_refl _)
      ((P.PHYSTOP - PGROUNDUP P P.kend) / P.PGSIZE) fuel (PGROUNDUP P P.kend) (kmem0 mem) hfuel
      (PGROUNDUP_mod P _) (PGROUNDUP_ge P _ hpg) h1 (by omega)
    have hp0 : Pool s0 0 (pageRange P (PGROUNDUP P P.kend)
        ((P.PHYSTOP - PGROUNDUP P P.kend) / P.PGSIZE)).reverse := by
      simpa using hself [] rfl (fun q _ hq => by cases hq)
    have hoth : ∀ j, j ≠ 0 → Pool s0 j [] :=
      fun j hj => hother j [] hj rfl (fun q _ hq => by cases hq)
    refine ⟨s0, _, hs0, hp0, hoth, ?_⟩
    intro p l hpl
    rw [hpl] at hp0
    have hnd : (p :: l).Nodup := by
      rw [← hpl, List.nodup_reverse]
      exact (pageRange_sorted P hpg _ _).imp (fun h => Nat.ne_of_lt h)
    have hh := pool_head hp0
    obtain ⟨k1, k2, k3, _, _⟩ := kalloc_stolen P s0 1 0 (hoth 1 (by omega)) (by omega)
      (by rw [hh.1]; exact hh.2) (fun j hj => by omega)
    rw [hh.1] at k1 k2 k3
    refine ⟨k1, pool_pop hp0 k2 k3 (List.nodup_cons.1 hnd).1, ?_⟩
    intro j hj
    exact pool_other (hoth j hj) hj k2 k3 (List.not_mem_nil _)

/-- C11, witness: the example layout (two CPUs, three pages). -/
theorem kalloc_null_iff_every_list_empty_witness :
    ∃ s0 pages, kinit exampleLayout 4 (kmem0 (fun _ => 0)) 0 = KResult.ok s0 ∧
      Pool s0 0 pages ∧ (∀ j, j ≠ 0 → Pool s0 j []) ∧
      ∀ p l, pages = p :: l →
        (kalloc exampleLayout s0 1).1 = p ∧ Pool (kalloc exampleLayout s0 1).2 0 l ∧
          ∀ j, j ≠ 0 → Pool (kalloc exampleLayout s0 1).2 j [] :=
  (kalloc_null_iff_every_list_empty exampleLayout (by decide) (by decide) (by decide)).2
    (fun _ => 0) 4 (by decide)

/-- C12 (as amended): in a state whose free lists `F` are well formed, let `kalloc`
on CPU `c` return a page `p`; the following `kfree(p)` on CPU `c` returns.  If
the list of CPU `c` was not empty, every head pointer and every `next` cell of
a page is as before the `kalloc`, so every CPU has its old list.  If it was
empty, `p` was the head of the list of the lowest CPU `k` with a non-empty
list: afterwards the list of CPU `c` is `p` alone, the list of CPU `k` is its
old list without `p`, and the list of every other CPU is its old list. -/
theorem kalloc_then_kfree (P : Layout) (s : Kmem) (F : Nat → List Nat) (c : Nat)
    (hc : c < P.NCPU) (hinv : KInv P s F) (hp : (kalloc P s c).1 ≠ 0) :
    ∃ s', kfree P (kalloc P s c).2 c (kalloc P s c).1 = KResult.ok s' ∧
      (F c ≠ [] → s'.freelist = s.freelist ∧ s'.next = s.next ∧
        ∀ i, i < P.NCPU → Pool s' i (F i)) ∧
      (F c = [] → ∃ k l, k < P.NCPU ∧ k ≠ c ∧ F k = (kalloc P s c).1 :: l ∧
        (∀ j, j < k → F j = []) ∧ Pool s' c [(kalloc P s c).1] ∧ Pool s' k l ∧
        ∀ j, j < P.NCPU → j ≠ c → j ≠ k → Pool s' j (F j)) := by
  rcases kalloc_cases P s F c hc hinv with ⟨_, hz, _⟩ | ⟨k, p, l, hk, hkl, _, hr, hkc, hlow, hfl, hnx, _, hinv1⟩
  · exact absurd hz hp
  · have hv : ValidPage P p := hinv.valid k hk p (by rw [hkl]; exact List.mem_cons_self _ _)
    have hpk := pool_head (by have := hinv.pool k hk; rw [hkl] at this; exact this)
    rw [hr]
    obtain ⟨s', hs', hfl', hnx', _, _⟩ := kfree_valid P (kalloc P s c).2 c p hv
    refine ⟨s', hs', ?_, ?_⟩
    · intro hne
      have hkc' := hkc hne
      subst hkc'
      have e1 : s'.freelist = s.freelist := by
        rw [hfl', hfl, Function.update_idem, ← hpk.1, Function.update_eq_self]
      have e2 : s'.next = s.next := by
        have hn0 : s.next p = s.next (s.freelist k) := by rw [hpk.1]
        rw [hnx', hnx, hfl, Function.update_same, Function.update_idem, Function.update_eq_self]
      exact ⟨e1, e2, fun i hi => pool_frame (hinv.pool i hi) (by rw [e1]) (fun q _ => by rw [e2])⟩
    · intro hnil
      have hkne : k ≠ c := by
        rintro rfl
        rw [hnil] at hkl
        cases hkl
      have hnot : ∀ i, i < P.NCPU → p ∉ Function.update F k l i := by
        intro i hi
        by_cases hik : i = k
        · subst hik
          rw [Function.update_same]
          have := hinv.nodup i hi
          rw [hkl] at this
          exact (List.nodup_cons.1 this).1
        · rw [Function.update_noteq hik]
          exact hinv.disjoint k hk i hi (Ne.symm hik) p (by rw [hkl]; exact List.mem_cons_self _ _)
      have hinv2 := kinv_push hinv1 hc hv hpk.2 hnot hfl' hnx'
      refine ⟨k, l, hk, hkne, hkl, hlow hnil, ?_, ?_, ?_⟩
      · have := hinv2.pool c hc
        rw [Function.update_same, Function.update_noteq (Ne.symm hkne), hnil] at this
        exact this
      · have := hinv2.pool k hk
        rw [Function.update_noteq hkne, Function.update_same] at this
        exact this
      · intro j hj hjc hjk
        have := hinv2.pool j hj
        rw [Function.update_noteq hjc, Function.update_noteq hjk] at this
        exact this

/-- C12, witness: `kalloc` then `kfree` on CPU 0 after `kinit` of the example
layout; CPU 0 has pages, every list is as before. -/
theorem kalloc_then_kfree_witness :
    ∃ s', kfree exampleLayout (kalloc exampleLayout bootPool 0).2 0
        (kalloc exampleLayout bootPool 0).1 = KResult.ok s' ∧
      (bootLists 0 ≠ [] → s'.freelist = bootPool.freelist ∧ s'.next = bootPool.next ∧
        ∀ i, i < exampleLayout.NCPU → Pool s' i (bootLists i)) ∧
      (bootLists 0 = [] → ∃ k l, k < exampleLayout.NCPU ∧ k ≠ 0 ∧
        bootLists k = (kalloc exampleLayout bootPool 0).1 :: l ∧
        (∀ j, j < k → bootLists j = []) ∧ Pool s' 0 [(kalloc exampleLayout bootPool 0).1] ∧
        Pool s' k l ∧ ∀ j, j < exampleLayout.NCPU → j ≠ 0 → j ≠ k → Pool s' j (bootLists j)) :=
  kalloc_then_kfree exampleLayout bootPool bootLists 0 (by decide) bootPool_inv (by decide)

/-- C12, counterexample: after `kinit` of the example layout on CPU 0, `kalloc`
on CPU 1 returns a page (taken from CPU 0) and the following `kfree` of this
page on CPU 1 returns; CPU 0, which had three pages, has two, and CPU 1, which
had none, has one. -/
theorem kalloc_kfree_moves_a_stolen_page :
    Pool bootPool 0 [0x80024000, 0x80023000, 0x80022000] ∧ Pool bootPool 1 [] ∧
    (kalloc exampleLayout bootPool 1).1 = 0x80024000 ∧
    (kfree exampleLayout (kalloc exampleLayout bootPool 1).2 1 0x80024000).isOk = true ∧
    Pool (kfree exampleLayout (kalloc exampleLayout bootPool 1).2 1 0x80024000).state 0
      [0x80023000, 0x80022000] ∧
    Pool (kfree exampleLayout (kalloc exampleLayout bootPool 1).2 1 0x80024000).state 1
      [0x80024000] ∧
    ¬ Pool (kfree exampleLayout (kalloc exampleLayout bootPool 1).2 1 0x80024000).state 0
      [0x80024000, 0x80023000, 0x80022000] ∧
    ¬ Pool (kfree exampleLayout (kalloc exampleLayout bootPool 1).2 1 0x80024000).state 1 [] := by
  decide

/-- C13: in every state reached from `kinit` by calls of `kalloc` and `kfree` on
any CPUs, `kfree` only for pages that `kalloc` returned and that are not freed
yet, the CPUs have free lists `F` such that no page is twice in a list or in
the lists of two CPUs, every listed page is a multiple of `PGSIZE`, not below
the kernel end and below `PHYSTOP`, and the pages on all lists plus the pages
allocated (`A`) are as many as `kinit` put in (`n`); the allocated pages are
distinct, on no list, and `kfree` of any of them returns. -/
theorem page_conservation (P : Layout) (hpg : 0 < P.PGSIZE) (h0 : 0 < P.kend) (s : Kmem)
    (A : List Nat) (n : Nat) (h : KReach P s A n) :
    ∃ F : Nat → List Nat,
      (∀ i, i < P.NCPU → Pool s i (F i)) ∧
      (∀ i, i < P.NCPU → (F i).Nodup) ∧
      (∀ i, i < P.NCPU → ∀ j, j < P.NCPU → i ≠ j → ∀ p, p ∈ F i → p ∉ F j) ∧
      (∀ i, i < P.NCPU → ∀ p, p ∈ F i → p % P.PGSIZE = 0 ∧ P.kend ≤ p ∧ p < P.PHYSTOP) ∧
      freeCount P F + A.length = n ∧
      A.Nodup ∧ (∀ p, p ∈ A → ∀ i, i < P.NCPU → p ∉ F i) ∧
      (∀ p c, p ∈ A → (kfree P s c p).isOk = true) := by
  obtain ⟨F, hinv, hcount, hnd, hA⟩ := kreach_inv P hpg h0 s A n h
  refine ⟨F, hinv.pool, hinv.nodup, hinv.disjoint, hinv.valid, hcount, hnd,
    fun p hp => (hA p hp).2.2, ?_⟩
  intro p c hp
  obtain ⟨s', hs', _⟩ := kfree_valid P s c p (hA p hp).1
  rw [hs']; rfl

/-- C13, witness: the state after `kinit` of the example layout on CPU 0, then
`kalloc` on CPU 1. -/
theorem page_conservation_witness :
    ∃ F : Nat → List Nat,
      (∀ i, i < exampleLayout.NCPU → Pool (kalloc exampleLayout bootPool 1).2 i (F i)) ∧
      (∀ i, i < exampleLayout.NCPU → (F i).Nodup) ∧
      (∀ i, i < exampleLayout.NCPU → ∀ j, j < exampleLayout.NCPU → i ≠ j →
        ∀ p, p ∈ F i → p ∉ F j) ∧
      (∀ i, i < exampleLayout.NCPU → ∀ p, p ∈ F i →
        p % exampleLayout.PGSIZE = 0 ∧ exampleLayout.kend ≤ p ∧ p < exampleLayout.PHYSTOP) ∧
      freeCount exampleLayout F +
          (if (kalloc exampleLayout bootPool 1).1 = 0 then []
            else [(kalloc exampleLayout bootPool 1).1]).length = bootPool.freed.length ∧
      (if (kalloc exampleLayout bootPool 1).1 = 0 then []
        else [(kalloc exampleLayout bootPool 1).1]).Nodup ∧
      (∀ p, p ∈ (if (kalloc exampleLayout bootPool 1).1 = 0 then []
        else [(kalloc exampleLayout bootPool 1).1]) → ∀ i, i < exampleLayout.NCPU → p ∉ F i) ∧
      (∀ p c, p ∈ (if (kalloc exampleLayout bootPool 1).1 = 0 then []
          else [(kalloc exampleLayout bootPool 1).1]) →
        (kfree exampleLayout (kalloc exampleLayout bootPool 1).2 c p).isOk = true) :=
  page_conservation exampleLayout (by decide) (by decide) _ _ _
    (KReach.kalloc bootPool [] bootPool.freed.length 1 bootPool_reach (by decide))

end Kalloc
